import Mathlib

/-!
# A verification development for the `tween` library (`tween.h`, `tween.cpp`, `callback.h`)

The C++ sources are embedded shallowly.

* `double` and `float` values are modelled by `Dbl`: a finite value is the rational it denotes,
  and every arithmetic operation rounds its exact result to the nearest value with a 53 bit
  significand (ties to even); the cast to `float` rounds to 24 bits.  The exponent range is
  not modelled (no overflow to infinity, no subnormal numbers).  The two zeros are distinct:
  `fin 0` is `+0.0` and `nzero` is `-0.0`; a division by zero yields an infinity or a NaN as in
  IEEE-754.
* The template parameter `T` of `TweenAttr<T>` is instantiated with `int` (32 bit, two's
  complement).  Integer results are reduced with `wrapInt`; a conversion from `double` whose
  truncation does not fit yields `INT_MIN`, the value x86-64 produces for that undefined case.
* Objects behind `std::shared_ptr<TweenImpl>` live in a store indexed by their identity; a
  `Tween` handle is such an identity.  Target variables live in a heap indexed by address.
* A `CallbackCaller` holds, for every registered callable, its declared arity and an identity.
  Running a callable is recorded in a log, one entry per `CallbackCaller::call`.
* The operations on the scheduler are atomic.  The mutex `tweenMutex` is modelled apart, by the
  sequence of lock and unlock operations that a call performs on it (`SyncEvent`).
-/

namespace tween

/-! ## Floating point numbers -/

/-- Round to the nearest integer, ties to the even neighbour. -/
def roundNE (x : ℚ) : ℤ :=
  if x - ⌊x⌋ < 1 / 2 then ⌊x⌋
  else if 1 / 2 < x - ⌊x⌋ then ⌊x⌋ + 1
  else if ⌊x⌋ % 2 = 0 then ⌊x⌋ else ⌊x⌋ + 1

/-- Halve `n` until it drops below 2, at most `fuel` times, and count the halvings. -/
def log2Fuel : ℕ → ℕ → ℕ
  | 0, _ => 0
  | fuel + 1, n => if 2 ≤ n then log2Fuel fuel (n / 2) + 1 else 0

/-- The binary logarithm of a natural number, rounded down (and 0 at 0). -/
def log2Nat (n : ℕ) : ℕ := log2Fuel n n

/-- Binade exponent of a positive rational: the `e` with `2^e ≤ x < 2^(e+1)`. -/
def ilog2 (x : ℚ) : ℤ :=
  if x.den ≤ x.num.natAbs then (log2Nat (x.num.natAbs / x.den) : ℤ)
  else -((log2Nat ((x.den - 1) / x.num.natAbs) : ℤ) + 1)

/-- Round a positive rational to the nearest binary floating point number with a `p` bit
significand: the significand is scaled into `[2^(p-1), 2^p)` and rounded to an integer. -/
def roundPos (p : ℕ) (x : ℚ) : ℚ :=
  (roundNE (x * (2 : ℚ) ^ ((p : ℤ) - 1 - ilog2 x)) : ℚ) / (2 : ℚ) ^ ((p : ℤ) - 1 - ilog2 x)

/-- Round a rational to the nearest binary floating point number with a `p` bit significand,
ties to even. -/
def roundTo (p : ℕ) (x : ℚ) : ℚ :=
  if x = 0 then 0 else if 0 < x then roundPos p x else -roundPos p (-x)

/-- Truncation toward zero. -/
def truncQ (q : ℚ) : ℤ := if 0 ≤ q then ⌊q⌋ else -⌊-q⌋

/-- Values of the C++ types `double` and `float`. -/
inductive Dbl where
  | fin (q : ℚ)
  | nzero
  | inf (neg : Bool)
  | nan
deriving DecidableEq

namespace Dbl

/-- The zero with the given sign. -/
def zero (neg : Bool) : Dbl := if neg then nzero else fin 0

/-- Addition of two `double`s; a sum that is exactly zero is `+0.0` unless both operands are
`-0.0`. -/
def add : Dbl → Dbl → Dbl
  | fin x, fin y => fin (roundTo 53 (x + y))
  | fin x, nzero => fin x
  | nzero, fin y => fin y
  | nzero, nzero => nzero
  | fin _, inf s => inf s
  | nzero, inf s => inf s
  | inf s, fin _ => inf s
  | inf s, nzero => inf s
  | inf s, inf r => if s = r then inf s else nan
  | _, _ => nan

/-- Subtraction of two `double`s; a difference that is exactly zero is `+0.0` unless it is
`-0.0 - +0.0`. -/
def sub : Dbl → Dbl → Dbl
  | fin x, fin y => fin (roundTo 53 (x - y))
  | fin x, nzero => fin x
  | nzero, fin y => if y = 0 then nzero else fin (-y)
  | nzero, nzero => fin 0
  | fin _, inf s => inf (!s)
  | nzero, inf s => inf (!s)
  | inf s, fin _ => inf s
  | inf s, nzero => inf s
  | inf s, inf r => if s = r then nan else inf s
  | _, _ => nan

/-- Multiplication of two `double`s; the sign of a zero product is the exclusive or of the signs
of the operands. -/
def mul : Dbl → Dbl → Dbl
  | fin x, fin y =>
      if x * y = 0 then zero (decide (x < 0) != decide (y < 0)) else fin (roundTo 53 (x * y))
  | fin x, nzero => zero (!decide (x < 0))
  | nzero, fin y => zero (!decide (y < 0))
  | nzero, nzero => fin 0
  | fin x, inf s => if x = 0 then nan else inf (s != decide (x < 0))
  | inf s, fin y => if y = 0 then nan else inf (s != decide (y < 0))
  | inf s, inf r => inf (s != r)
  | _, _ => nan

/-- Division of two `double`s; a division by a zero yields an infinity, whose sign is the
exclusive or of the signs of the operands, or a NaN. -/
def div : Dbl → Dbl → Dbl
  | fin x, fin y =>
      if y = 0 then (if x = 0 then nan else inf (decide (x < 0)))
      else if x = 0 then zero (decide (y < 0))
      else fin (roundTo 53 (x / y))
  | fin x, nzero => if x = 0 then nan else inf (!decide (x < 0))
  | nzero, fin y => if y = 0 then nan else zero (!decide (y < 0))
  | fin x, inf s => zero (decide (x < 0) != s)
  | nzero, inf s => zero (!s)
  | inf s, fin y => inf (s != decide (y < 0))
  | inf s, nzero => inf (!s)
  | _, _ => nan

/-- The comparison `a < b`; false as soon as an operand is a NaN, and the two zeros are
equal. -/
def lt : Dbl → Dbl → Bool
  | fin x, fin y => decide (x < y)
  | fin x, nzero => decide (x < 0)
  | nzero, fin y => decide (0 < y)
  | fin _, inf s => !s
  | nzero, inf s => !s
  | inf s, fin _ => s
  | inf s, nzero => s
  | inf s, inf r => s && !r
  | _, _ => false

/-- The conversion `(float)d`, followed by the exact conversion back to `double`. -/
def toFloat : Dbl → Dbl
  | fin x => fin (roundTo 24 x)
  | d => d

/-- The conversion of an `int` to `double`, which is exact. -/
def ofInt (z : ℤ) : Dbl := fin z

/-- The C function `fmod`: the result is exact and has the sign of `x`, also when it is zero. -/
def fmod : Dbl → Dbl → Dbl
  | fin x, fin y =>
      if y = 0 then nan
      else if x - truncQ (x / y) * y = 0 then zero (decide (x < 0))
      else fin (x - truncQ (x / y) * y)
  | fin x, inf _ => fin x
  | nzero, fin y => if y = 0 then nan else nzero
  | nzero, inf _ => nzero
  | _, _ => nan

/-- The conversion `static_cast<int>(d)`. -/
def toInt : Dbl → ℤ
  | fin x => if -2147483648 ≤ truncQ x ∧ truncQ x ≤ 2147483647 then truncQ x else -2147483648
  | nzero => 0
  | _ => -2147483648

end Dbl

/-- The value `std::numeric_limits<int>::max()`. -/
def INT_MAX : ℤ := 2147483647

/-- Reduction of an integer to the range of `int`. -/
def wrapInt (z : ℤ) : ℤ := (z + 2147483648) % 4294967296 - 2147483648

/-! ## `callback.h` -/

/-- Identity of a `TweenImpl` object. -/
abbrev ImplId := ℕ

/-- Address of a target variable. -/
abbrev Addr := ℕ

/-- An argument value published to listeners. -/
inductive Arg where
  | val (z : ℤ)
  | tween (h : Option ImplId)
  | num (d : Dbl)
deriving DecidableEq

/-- One run of a registered callable: which callable, and the arguments it received. -/
structure Invocation where
  callable : ℕ
  args : List Arg
deriving DecidableEq

/-- The wrappers `FCaller0` .. `FCaller3`: the wrapped callable `t` and the number of arguments
the wrapper hands to it. -/
structure FCaller where
  arity : ℕ
  t : ℕ
deriving DecidableEq

/-- The method `FCallerN::call`: runs `t` on the first `N` elements of the argument tuple. -/
def FCaller.call (f : FCaller) (a : List Arg) : Invocation :=
  { callable := f.t, args := a.take f.arity }

/-- The class `CallbackCaller`. -/
structure CallbackCaller where
  callbacks : List FCaller
deriving DecidableEq

/-- The method `CallbackCaller::callme`, for a callable `t` of the given arity. -/
def CallbackCaller.callme (c : CallbackCaller) (arity t : ℕ) : CallbackCaller :=
  { callbacks := c.callbacks ++ [{ arity := arity, t := t }] }

/-- The method `CallbackCaller::call`. -/
def CallbackCaller.call (c : CallbackCaller) (a : List Arg) : List Invocation :=
  c.callbacks.map (fun cb => cb.call a)

/-! ## `tween.h` -/

/-- An entry of the log: one execution of `CallbackCaller::call`, on the update registry of a
binding (named by its target) or on the completion registry of a state. -/
inductive Dispatch where
  | update (target : Addr) (runs : List Invocation)
  | complete (state : ImplId) (runs : List Invocation)
deriving DecidableEq

/-- The struct `TweenAttr<int>`. -/
structure TweenAttr where
  startValue : ℤ
  delta : ℤ
  maxValue : ℤ
  target : Addr
  on_update_cb : CallbackCaller
  delay : Dbl
deriving DecidableEq

/-- The struct `TweenImpl`; the member `refs` only keeps objects alive and is left out. -/
structure TweenImpl where
  startTime : Dbl
  totalTime : Dbl
  dspeed : Dbl
  do_rep : Bool
  backto : Bool
  args : List TweenAttr
  tween_func : Dbl → Dbl
  on_complete_cb : CallbackCaller
  isTweening : Bool

/-- The static members of `Tween`, the store of `TweenImpl` objects, the heap of targets and the
log of callback dispatches. -/
structure World where
  currentTime : Dbl
  allTweens : List ImplId
  impl : ImplId → TweenImpl
  next : ImplId
  heap : Addr → ℤ
  log : List Dispatch

/-- The constructor `TweenAttr(T *target, T value, int cycles)`. -/
def TweenAttr.new (heap : Addr → ℤ) (target : Addr) (value : ℤ) (cycles : ℤ) : TweenAttr :=
  let delta := wrapInt (value - heap target)
  if cycles ≠ 1 then
    { startValue := heap target, delta := wrapInt ((delta + 1) * cycles - 1),
      maxValue := wrapInt (delta + 1), target := target, on_update_cb := ⟨[]⟩, delay := .fin 0 }
  else
    { startValue := heap target, delta := delta, maxValue := INT_MAX, target := target,
      on_update_cb := ⟨[]⟩, delay := .fin 0 }

/-- The value `newValue` computed by `TweenAttr::set`. -/
def TweenAttr.newValue (a : TweenAttr) (v : Dbl) : ℤ :=
  wrapInt (a.startValue +
    Dbl.toInt (Dbl.fmod (Dbl.mul v (Dbl.ofInt a.delta)) (Dbl.ofInt a.maxValue)))

/-- The method `TweenAttr::set(double v, Tween &t)`. -/
def TweenAttr.set (a : TweenAttr) (v : Dbl) (t : Option ImplId) (w : World) : World :=
  if a.newValue v ≠ w.heap a.target then
    { w with
      heap := Function.update w.heap a.target (a.newValue v)
      log := w.log ++ [Dispatch.update a.target
        (a.on_update_cb.call [Arg.val (a.newValue v), Arg.tween t, Arg.num v])] }
  else w

/-- The method `TweenAttr::compare`. -/
def TweenAttr.compare (a : TweenAttr) (p : Addr) : Bool := decide (p = a.target)

/-! ## `tween.cpp` -/

/-- The function `Tween::linear_fn`. -/
def linear_fn (t : Dbl) : Dbl := t

/-- The function `Tween::smoothStep_fn`: `t*t*(3 - 2*t)`. -/
def smoothStep_fn (t : Dbl) : Dbl :=
  Dbl.mul (Dbl.mul t t) (Dbl.sub (.fin 3) (Dbl.mul (.fin 2) t))

/-- The constant `M_PI`. -/
def M_PI : Dbl := .fin (roundTo 53 (314159265358979323846 / 100000000000000000000))

/-- The function `Tween::sine_fn`; the library function `sin` is a parameter. -/
def sine_fn (sin : Dbl → Dbl) (t : Dbl) : Dbl :=
  Dbl.div
    (Dbl.add (sin (Dbl.sub (Dbl.mul t (Dbl.mul M_PI (.fin 2))) (Dbl.div M_PI (.fin 2)))) (.fin 1))
    (.fin 2)

/-- Replace the object behind the handle `h` by `f` of it. -/
def World.modify (w : World) (h : ImplId) (f : TweenImpl → TweenImpl) : World :=
  { w with impl := Function.update w.impl h (f (w.impl h)) }

/-- The value `t` computed at the head of the loop body of `TweenImpl::step`:
`(float)((Tween::currentTime - startTime - a->delay) / totalTime)`. -/
def progress (currentTime startTime delay totalTime : Dbl) : Dbl :=
  Dbl.toFloat (Dbl.div (Dbl.sub (Dbl.sub currentTime startTime) delay) totalTime)

/-- The body of the loop of `TweenImpl::step` for the binding `a`; `st.1` is the counter `ended`.
The handle passed to `set` is the local `Tween tween`, which refers to no registered state. -/
def stepAttr (I : TweenImpl) (st : ℕ × World) (a : TweenAttr) : ℕ × World :=
  let t := progress st.2.currentTime I.startTime a.delay I.totalTime
  if Dbl.lt t (.fin 0) then st
  else if Dbl.lt (.fin 1) t then
    if I.do_rep then
      (st.1, a.set (I.tween_func (Dbl.toFloat (Dbl.sub t (.fin 1)))) none st.2)
    else if I.backto then
      (st.1 + 1, a.set (I.tween_func t) none (a.set (.fin 0) none st.2))
    else
      (st.1 + 1, a.set (.fin 1) none st.2)
  else (st.1, a.set (I.tween_func t) none st.2)

/-- The method `TweenImpl::step`: the returned flag is `ended < args.size()`. -/
def TweenImpl.step (I : TweenImpl) (w : World) : Bool × World :=
  (decide ((I.args.foldl (stepAttr I) (0, w)).1 < I.args.length),
   (I.args.foldl (stepAttr I) (0, w)).2)

/-- The `while` loop of `Tween::updateTweens`.  The vector `allTweens` is `front ++ rest`, the
iterator stands at the head of `rest`, and `done` is the vector `doneTweens`. -/
def updateLoop : List ImplId → List ImplId → List ImplId → World →
    List ImplId × List ImplId × World
  | front, [], done, w => (front, done, w)
  | front, i :: rest, done, w =>
      if ((w.impl i).step w).1 then updateLoop (front ++ [i]) rest done ((w.impl i).step w).2
      else updateLoop front rest (done ++ [i]) ((w.impl i).step w).2

/-- The `for` loop of `Tween::updateTweens` over `doneTweens`. -/
def dispatchDone (done : List ImplId) (w : World) : World :=
  done.foldl (fun w dt => { w with log := w.log ++
    [Dispatch.complete dt ((w.impl dt).on_complete_cb.call [Arg.tween none, Arg.num (.fin 1)])] }) w

/-- The function `Tween::updateTweens(double t)`. -/
def Tween.updateTweens (t : Dbl) (w : World) : ℤ × World :=
  let r := updateLoop [] w.allTweens [] { w with currentTime := t }
  ((r.1.length : ℤ), dispatchDone r.2.1 { r.2.2 with allTweens := r.1 })

/-- The function `Tween::addTween(const TweenImpl& ti)`. -/
def Tween.addTween (ti : TweenImpl) (w : World) : World :=
  { w with
    allTweens := w.allTweens ++ [w.next]
    impl := Function.update w.impl w.next { ti with isTweening := true }
    next := w.next + 1 }

/-- The destructor `TweenImpl::~TweenImpl`, run when the last handle of `h` is released. -/
def Tween.discard (h : ImplId) (w : World) : World :=
  if !(w.impl h).isTweening then Tween.addTween (w.impl h) w else w

/-- The function `Tween::make`.  The constructor of `TweenImpl` leaves `totalTime` and `dspeed`
uninitialised; their indeterminate contents are the first two parameters. -/
def Tween.make (totalTime dspeed : Dbl) (w : World) : ImplId × World :=
  (w.next,
   { w with
     impl := Function.update w.impl w.next
       { startTime := w.currentTime, totalTime := totalTime, dspeed := dspeed, do_rep := false,
         backto := false, args := [], tween_func := smoothStep_fn, on_complete_cb := ⟨[]⟩,
         isTweening := false }
     next := w.next + 1 })

/-- The method `Tween::cancel`. -/
def Tween.cancel (h : ImplId) (w : World) : World :=
  { w with allTweens := w.allTweens.erase h }

/-- The method `Tween::finish`. -/
def Tween.finish (h : ImplId) (w : World) : World :=
  Tween.cancel h ((w.impl h).args.foldl (fun w a => a.set (.fin 1) (some h) w) w)

/-- The method `Tween::seconds(float s)`. -/
def Tween.seconds (h : ImplId) (s : Dbl) (w : World) : World :=
  w.modify h (fun I => { I with totalTime := Dbl.toFloat s })

/-- The method `Tween::speed(float s)`. -/
def Tween.speed (h : ImplId) (s : Dbl) (w : World) : World :=
  w.modify h (fun I => { I with dspeed := Dbl.toFloat s })

/-- The method `Tween::linear`. -/
def Tween.linear (h : ImplId) (w : World) : World :=
  w.modify h (fun I => { I with tween_func := linear_fn })

/-- The method `Tween::smoothstep`. -/
def Tween.smoothstep (h : ImplId) (w : World) : World :=
  w.modify h (fun I => { I with tween_func := smoothStep_fn })

/-- The method `Tween::sine`. -/
def Tween.sine (sin : Dbl → Dbl) (h : ImplId) (w : World) : World :=
  w.modify h (fun I => { I with tween_func := sine_fn sin, backto := true })

/-- The method `Tween::repeating`. -/
def Tween.repeating (h : ImplId) (w : World) : World :=
  w.modify h (fun I => { I with do_rep := true })

/-- The method `Tween::start`. -/
def Tween.start (h : ImplId) (w : World) : World :=
  if !(w.impl h).isTweening then
    { w with
      allTweens := w.allTweens ++ [h]
      impl := Function.update w.impl h
        { w.impl h with startTime := w.currentTime, isTweening := true } }
  else w

/-- The scan at the head of `Tween::to`: every binding of a state in `allTweens` that compares
equal to the target is erased. -/
def eraseTarget (target : Addr) (w : World) : World :=
  w.allTweens.foldl (fun w t => w.modify t (fun I =>
    { I with args := I.args.filter (fun a => !a.compare target) })) w

/-- The method `Tween::to(T &target, U value, int cycles)` on an `int` target. -/
def Tween.to (h : ImplId) (target : Addr) (value : ℤ) (cycles : ℤ) (w : World) : World :=
  (eraseTarget target w).modify h (fun I =>
    { I with args := I.args ++ [TweenAttr.new w.heap target (wrapInt value) cycles] })

/-- The method `Tween::from(T &target, U value)` on an `int` target. -/
def Tween.from_ (h : ImplId) (target : Addr) (value : ℤ) (w : World) : World :=
  Tween.to h target (w.heap target) 1
    { w with heap := Function.update w.heap target (wrapInt value) }

/-- The method `Tween::onComplete`, for a callable `f` of the given arity. -/
def Tween.onComplete (h : ImplId) (arity f : ℕ) (w : World) : World :=
  w.modify h (fun I => { I with on_complete_cb := I.on_complete_cb.callme arity f })

/-- Apply `g` to the last element of a list. -/
def modifyLast {α : Type} (g : α → α) : List α → List α
  | [] => []
  | [a] => [g a]
  | a :: b :: l => a :: modifyLast g (b :: l)

/-- The method `TweenT::onUpdate`, called on the handle returned by the latest `to` or `from` of
the state, as in `to(x, 10).onUpdate(f)`: its binding `ta` is then the last element of `args`.
(A `TweenT` handle that is kept and used after its binding was erased by the scan of a later
`to`, or after a further binding was added, is outside this model.) -/
def TweenT.onUpdate (h : ImplId) (arity f : ℕ) (w : World) : World :=
  w.modify h (fun I => { I with args := modifyLast (fun a =>
    { a with on_update_cb := a.on_update_cb.callme arity f }) I.args })

/-- The method `TweenT::delay(float d)`, called on the handle returned by the latest `to` or
`from` of the state, as in `to(x, 10).delay(1)`: its binding `ta` is then the last element of
`args`. -/
def TweenT.delay (h : ImplId) (d : Dbl) (w : World) : World :=
  w.modify h (fun I =>
    { I with args := modifyLast (fun a => { a with delay := Dbl.toFloat d }) I.args })

/-- The scheduler before any call: no state is registered and the clock is zero. -/
def World.init (heap : Addr → ℤ) : World :=
  { currentTime := .fin 0, allTweens := [], next := 0, heap := heap, log := [],
    impl := fun _ =>
      { startTime := .fin 0, totalTime := .fin 0, dspeed := .fin 0, do_rep := false,
        backto := false, args := [], tween_func := smoothStep_fn, on_complete_cb := ⟨[]⟩,
        isTweening := true } }

/-- The numbers with a significand of at most `p` bits. -/
def Rep (p : ℕ) (x : ℚ) : Prop := ∃ m k : ℤ, |m| < 2 ^ p ∧ x = m * (2 : ℚ) ^ k


/-- The binding `a` is counted as ended by `TweenImpl::step` at clock `c`: its progress is not
negative, exceeds one, and the state does not repeat. -/
def ends (I : TweenImpl) (c : Dbl) (a : TweenAttr) : Bool :=
  !Dbl.lt (progress c I.startTime a.delay I.totalTime) (.fin 0) &&
    Dbl.lt (.fin 1) (progress c I.startTime a.delay I.totalTime) && !I.do_rep

/-- The registries of the states in `done` are dispatched by a log entry each. -/
def completions (impl : ImplId → TweenImpl) (done : List ImplId) : List Dispatch :=
  done.map (fun dt => Dispatch.complete dt
    ((impl dt).on_complete_cb.call [Arg.tween none, Arg.num (.fin 1)]))

/-- The binding `a` carries the `delta` and `maxValue` that the constructor computes for the end
value `e` and the cycle count `c` from the start value of `a`. -/
abbrev BuiltBy (a : TweenAttr) (e c : ℤ) : Prop :=
  a.delta = (TweenAttr.new (fun _ => a.startValue) a.target e c).delta ∧
  a.maxValue = (TweenAttr.new (fun _ => a.startValue) a.target e c).maxValue

/-- Start value `s`, end value `e` and cycle count `c` are `int`s and either describe a single
traversal over a distance below `INT_MAX`, or at least two cycles of an ascending range whose
scaled distance `(e - s + 1) * c - 1` fits an `int`. -/
abbrev Traversal (s e c : ℤ) : Prop :=
  -2147483648 ≤ s ∧ s ≤ 2147483647 ∧ -2147483648 ≤ e ∧ e ≤ 2147483647 ∧
  ((c = 1 ∧ |e - s| < 2147483647) ∨ (2 ≤ c ∧ s ≤ e ∧ (e - s + 1) * c - 1 ≤ 2147483647))

/-- The invariant of the scheduler: no state is listed twice in `allTweens`, every listed state
has `isTweening` set and an identity that has been handed out, and no object with `isTweening`
clear lies beyond the identities handed out. -/
def World.Inv (w : World) : Prop :=
  w.allTweens.Nodup ∧ (∀ i ∈ w.allTweens, (w.impl i).isTweening = true ∧ i < w.next) ∧
  ∀ i, w.next ≤ i → (w.impl i).isTweening = true

/-- The log entry is a dispatch of the completion registry of the state `i`. -/
def isCompletionOf (i : ImplId) : Dispatch → Bool
  | .complete j _ => decide (j = i)
  | .update _ _ => false

/-- The calls a client can make. -/
inductive Op where
  | make (totalTime dspeed : Dbl)
  | seconds (h : ImplId) (s : Dbl)
  | speed (h : ImplId) (s : Dbl)
  | linear (h : ImplId)
  | smoothstep (h : ImplId)
  | sine (sin : Dbl → Dbl) (h : ImplId)
  | repeating (h : ImplId)
  | to (h : ImplId) (target : Addr) (value cycles : ℤ)
  | from_ (h : ImplId) (target : Addr) (value : ℤ)
  | onUpdate (h : ImplId) (arity f : ℕ)
  | delay (h : ImplId) (d : Dbl)
  | onComplete (h : ImplId) (arity f : ℕ)
  | start (h : ImplId)
  | discard (h : ImplId)
  | cancel (h : ImplId)
  | finish (h : ImplId)
  | tick (t : Dbl)

/-- The effect of one call. -/
def Op.apply : Op → World → World
  | .make tt ds, w => (Tween.make tt ds w).2
  | .seconds h s, w => Tween.seconds h s w
  | .speed h s, w => Tween.speed h s w
  | .linear h, w => Tween.linear h w
  | .smoothstep h, w => Tween.smoothstep h w
  | .sine sin h, w => Tween.sine sin h w
  | .repeating h, w => Tween.repeating h w
  | .to h x v c, w => Tween.to h x v c w
  | .from_ h x v, w => Tween.from_ h x v w
  | .onUpdate h n f, w => TweenT.onUpdate h n f w
  | .delay h d, w => TweenT.delay h d w
  | .onComplete h n f, w => Tween.onComplete h n f w
  | .start h, w => Tween.start h w
  | .discard h, w => Tween.discard h w
  | .cancel h, w => Tween.cancel h w
  | .finish h, w => Tween.finish h w
  | .tick t, w => (Tween.updateTweens t w).2

/-- The effect of a sequence of calls, the first call first. -/
def run (ops : List Op) (w : World) : World := ops.foldl (fun w o => o.apply w) w

/-- The number of bindings on the target `x` held by the states of the active set. -/
def activeBindings (w : World) (x : Addr) : ℕ :=
  (w.allTweens.map (fun i => ((w.impl i).args.filter (fun a => a.compare x)).length)).sum

/-! ## Concrete scenarios -/

/-- A heap in which every variable holds zero. -/
def zeroHeap : Addr → ℤ := fun _ => 0

/-- The scenario of the unit test: `score` (address 0) goes from 0 to 10 over 2 seconds with
linear easing; the state is started at clock 0. -/
def scoreWorld : World :=
  run [.make (.fin 0) (.fin 0), .linear 0, .to 0 0 10 1, .seconds 0 (.fin 2), .start 0]
    (World.init zeroHeap)

/-- The binding of `score` with two listeners: callable 7 takes one argument, callable 8 none. -/
def scoreAttr : TweenAttr :=
  { startValue := 0, delta := 10, maxValue := INT_MAX, target := 0,
    on_update_cb := ⟨[⟨1, 7⟩, ⟨0, 8⟩]⟩, delay := .fin 0 }

/-- A state configured with `sine()` and then `linear()`: the flag `backto` stays set.  The
binding drives address 0 from 0 to 10 over 2 seconds, started at clock 0.  (The library function
`sin` handed to `sine` is never called, `linear` having replaced the easing function.) -/
def pingPongWorld : World :=
  run [.make (.fin 0) (.fin 0), .sine (fun _ => .nan) 0, .linear 0, .to 0 0 10 1,
    .seconds 0 (.fin 2), .start 0] (World.init zeroHeap)

/-- The calls before the handle is released or started in the scenario of implicit
registration: the state is made at clock 0 and configured, then the clock advances to 1. -/
def madeEarly : List Op :=
  [.make (.fin 0) (.fin 0), .linear 0, .to 0 0 10 1, .seconds 0 (.fin 2), .tick (.fin 1)]

/-- Two handles bind the same variable (address 7) before either is started. -/
def twoWriters : World :=
  run [.make (.fin 0) (.fin 0), .to 0 7 10 1, .make (.fin 0) (.fin 0), .to 1 7 20 1,
    .start 0, .start 1] (World.init zeroHeap)

/-- A repeating state whose only binding has been taken over by a later `to` on the same
variable (address 7) from another handle. -/
def repeatEmptied : World :=
  run [.make (.fin 0) (.fin 0), .repeating 0, .to 0 7 10 1, .seconds 0 (.fin 1), .start 0,
    .tick (.fin (1 / 2)), .make (.fin 0) (.fin 0), .to 1 7 3 1] (World.init zeroHeap)

/-- A repeating state with one binding, started at clock 0 with a duration of 1 second. -/
def repeatWorld : World :=
  run [.make (.fin 0) (.fin 0), .repeating 0, .linear 0, .to 0 7 10 1, .seconds 0 (.fin 1),
    .onComplete 0 0 9, .start 0] (World.init zeroHeap)

/-- A fresh handle (identity 0) on the empty scheduler, every variable holding 0. -/
def freshWorld : World := (Tween.make (.fin 0) (.fin 0) (World.init zeroHeap)).2

/-- One handle with two bindings: address 0 goes `0 -> 10` in one traversal and address 1 goes
`0 -> 4` in 3 cycles; the state is started. -/
def twoBindings : World :=
  run [.make (.fin 0) (.fin 0), .to 0 0 10 1, .to 0 1 4 3, .seconds 0 (.fin 2), .start 0]
    (World.init zeroHeap)

/-- The end value of the bindings of `twoBindings`. -/
def twoBindingsEnd (a : TweenAttr) : ℤ := if a.target = 0 then 10 else 4

/-- The cycle count of the bindings of `twoBindings`. -/
def twoBindingsCycles (a : TweenAttr) : ℤ := if a.target = 0 then 1 else 3

/-- The variable at address 0 goes from 0 to `b` over `D` seconds with linear easing; the state
is started at clock 0. -/
def linearWorld (b : ℤ) (D : Dbl) : World :=
  run [.make (.fin 0) (.fin 0), .linear 0, .to 0 0 b 1, .seconds 0 D, .start 0]
    (World.init zeroHeap)

/-- One state with two bindings, of delay 0 (address 0) and of delay 1 (address 1), which is half
the duration of 2 seconds; linear easing, started at clock 0. -/
def delayedWorld : World :=
  run [.make (.fin 0) (.fin 0), .linear 0, .to 0 0 10 1, .to 0 1 10 1, .delay 0 (.fin 1),
    .seconds 0 (.fin 2), .onComplete 0 0 9, .start 0] (World.init zeroHeap)

/-- A state configured with `sine()`, for a library function `sin`: the binding drives address 0
from 0 to 10 over 2 seconds, started at clock 0. -/
def sineWorld (sin : Dbl → Dbl) : World :=
  run [.make (.fin 0) (.fin 0), .sine sin 0, .to 0 0 10 1, .seconds 0 (.fin 2), .start 0]
    (World.init zeroHeap)

/-- Two handles bind the variable at address 0 before either is started, `0 -> 10` and `0 -> 20`,
both over 2 seconds with linear easing; both states are then started at clock 0. -/
def twoLinearWriters : World :=
  run [.make (.fin 0) (.fin 0), .linear 0, .to 0 0 10 1, .seconds 0 (.fin 2),
    .make (.fin 0) (.fin 0), .linear 1, .to 1 0 20 1, .seconds 1 (.fin 2), .start 0, .start 1]
    (World.init zeroHeap)

/-- Two states with a completion listener each (callables 8 and 9), `0 -> 10` on addresses 0 and 1
over 1 and 2 seconds with linear easing, both started at clock 0. -/
def twoCompleting : World :=
  run [.make (.fin 0) (.fin 0), .linear 0, .to 0 0 10 1, .seconds 0 (.fin 1),
    .onComplete 0 0 8, .start 0,
    .make (.fin 0) (.fin 0), .linear 1, .to 1 1 10 1, .seconds 1 (.fin 2),
    .onComplete 1 2 9, .start 1] (World.init zeroHeap)

/-- A handle that was started at clock 0 and then cancelled at clock 1. -/
def cancelledWorld : World :=
  run [.make (.fin 0) (.fin 0), .linear 0, .to 0 0 10 1, .seconds 0 (.fin 2), .start 0,
    .tick (.fin 1), .cancel 0] (World.init zeroHeap)

/-- A handle whose state was started at clock 0 and has completed at clock 3. -/
def completedWorld : World :=
  run [.make (.fin 0) (.fin 0), .linear 0, .to 0 0 10 1, .seconds 0 (.fin 2), .start 0,
    .tick (.fin 3)] (World.init zeroHeap)

/-- The scenario of the unit test for `from`, on an `int`: `energy` (address 5, holding 0) is
bound with `from(energy, 250)` on a handle with linear easing and a duration of 2 seconds. -/
def energyWorld : World :=
  run [.make (.fin 0) (.fin 0), .linear 0, .from_ 0 5 250, .seconds 0 (.fin 2)]
    (World.init zeroHeap)

/-- A state with `seconds(0)`, which stores `+0.0`: address 0 goes `0 -> 10` with linear easing;
started at clock 0. -/
def zeroDuration : World :=
  run [.make (.fin 0) (.fin 0), .linear 0, .to 0 0 10 1, .seconds 0 (.fin 0), .start 0]
    (World.init zeroHeap)

/-- A state with `seconds(-0.0f)`: address 0 goes `0 -> 10` with linear easing; started at
clock 0. -/
def negZeroDuration : World :=
  run [.make (.fin 0) (.fin 0), .linear 0, .to 0 0 10 1, .seconds 0 .nzero, .start 0]
    (World.init zeroHeap)

/-- A state with `seconds(-1)`: address 0 goes `0 -> 10` with linear easing; started at
clock 0. -/
def negativeDuration : World :=
  run [.make (.fin 0) (.fin 0), .linear 0, .to 0 0 10 1, .seconds 0 (.fin (-1)), .start 0]
    (World.init zeroHeap)

/-- A repeating state with linear easing and a duration of 1 second, started at clock 0: address 0
goes `0 -> 10`, and the listener 4 of the binding takes the value, the handle and the shaped
progress. -/
def repeatLinear : World :=
  run [.make (.fin 0) (.fin 0), .repeating 0, .linear 0, .to 0 0 10 1, .onUpdate 0 3 4,
    .seconds 0 (.fin 1), .start 0] (World.init zeroHeap)

/-- The variable at address 0, holding 0, is bound with `to(x, -1, 2)`: the end value is one
below the start value and the cycle count is 2; linear easing, 2 seconds, started at clock 0. -/
def zeroModulus : World :=
  run [.make (.fin 0) (.fin 0), .linear 0, .to 0 0 (-1) 2, .seconds 0 (.fin 2), .start 0]
    (World.init zeroHeap)

/-- The handle of the unit test `tween::basic`, configured and not yet started:
`make().linear().to(score, 10).onUpdate(showScore).from(energy, 250).onUpdate(showFood)`
`.seconds(2)`, with `score` at address 0 and `energy` at address 5, both holding 0 (and both of
the type `int`); `showScore` is the callable 7, of one argument, and `showFood` the callable 8, of
three. -/
def demoWorld : World :=
  run [.make (.fin 0) (.fin 0), .linear 0, .to 0 0 10 1, .onUpdate 0 1 7, .from_ 0 5 250,
    .onUpdate 0 3 8, .seconds 0 (.fin 2)] (World.init zeroHeap)

/-- The binding of `score` in `demoWorld`. -/
def demoScore : TweenAttr :=
  { startValue := 0, delta := 10, maxValue := INT_MAX, target := 0,
    on_update_cb := ⟨[⟨1, 7⟩]⟩, delay := .fin 0 }

/-- The binding of `energy` in `demoWorld`. -/
def demoEnergy : TweenAttr :=
  { startValue := 250, delta := -250, maxValue := INT_MAX, target := 5,
    on_update_cb := ⟨[⟨3, 8⟩]⟩, delay := .fin 0 }

/-- One handle binds the variable at address 0 twice before it is started, `0 -> 10` and then
`0 -> 20`, over 2 seconds with linear easing; the state is then started at clock 0. -/
def twoOwnBindings : World :=
  run [.make (.fin 0) (.fin 0), .linear 0, .to 0 0 10 1, .to 0 0 20 1, .seconds 0 (.fin 2),
    .start 0] (World.init zeroHeap)

/-- An operation on `tweenMutex`: the constructor and the destructor of a `std::lock_guard`. -/
inductive SyncEvent where
  | lock
  | unlock
deriving DecidableEq

/-- The operations of one thread on the `std::mutex`, which is not recursive, from the state
`held` (the thread owns the mutex); the result is the state at the end, and `none` when the
thread locks the mutex it owns, which is undefined and in practice blocks the thread for ever. -/
def mutexRun : Bool → List SyncEvent → Option Bool
  | held, [] => some held
  | held, .lock :: es => if held then none else mutexRun true es
  | _, .unlock :: es => mutexRun false es

/-- A call of a scheduler function from user code; `start` carries the flag `isTweening` of the
state of its handle. -/
inductive SchedCall where
  | to
  | start (isTweening : Bool)
  | cancel
  | addTween
  | updateTweens
deriving DecidableEq

/-- The operations on `tweenMutex` of a call: `to`, `cancel`, `addTween` and `updateTweens`
construct a `lock_guard` and destroy it at their return (what `updateTweens` does in between is
left out); `start` does so only when `isTweening` is clear. -/
def SchedCall.sync : SchedCall → List SyncEvent
  | .start true => []
  | _ => [.lock, .unlock]

/-- The listener runs of a log entry. -/
def Dispatch.runs : Dispatch → List Invocation
  | .update _ r => r
  | .complete _ r => r

/-- The operations on `tweenMutex` of the listeners run by one `CallbackCaller::call`, the
callable `f` making the scheduler calls `body f`. -/
def Dispatch.sync (body : ℕ → List SchedCall) (d : Dispatch) : List SyncEvent :=
  d.runs.flatMap (fun r => (body r.callable).flatMap SchedCall.sync)

/-- The operations on `tweenMutex` of `Tween::updateTweens(t)`: the `lock_guard` is constructed
on entry and destroyed at the return, after the stepping loop and after the loop that dispatches
the completion registries of `doneTweens`. -/
def Tween.updateTweensSync (body : ℕ → List SchedCall) (t : Dbl) (w : World) : List SyncEvent :=
  [SyncEvent.lock] ++
    ((Tween.updateTweens t w).2.log.drop w.log.length).flatMap (Dispatch.sync body) ++
    [SyncEvent.unlock]

/-- No listener run of the log entry makes a call that locks `tweenMutex`. -/
def Dispatch.quiet (body : ℕ → List SchedCall) (d : Dispatch) : Bool :=
  d.runs.all (fun r => (body r.callable).all (fun c => decide (c.sync = [])))

/-! # Theorems -/

/-! ## Rounding -/

theorem roundNE_intCast (n : ℤ) : roundNE (n : ℚ) = n := by
  simp [roundNE]

theorem roundNE_mono {x y : ℚ} (h : x ≤ y) : roundNE x ≤ roundNE y := by
  have hf : ⌊x⌋ ≤ ⌊y⌋ := Int.floor_mono h
  have hx1 : roundNE x ≤ ⌊x⌋ + 1 := by
    unfold roundNE; split_ifs <;> omega
  have hy0 : ⌊y⌋ ≤ roundNE y := by
    unfold roundNE; split_ifs <;> omega
  rcases hf.lt_or_eq with hlt | heq
  · omega
  · unfold roundNE
    rw [heq]
    have hxy : x - (⌊y⌋ : ℚ) ≤ y - ⌊y⌋ := by linarith
    split_ifs <;> first | omega | (exfalso; linarith)

theorem roundNE_le (x : ℚ) : (roundNE x : ℚ) ≤ x + 1 / 2 := by
  have h1 := Int.floor_le x
  unfold roundNE
  split_ifs with a b c
  · linarith
  · push_cast; linarith
  · linarith
  · push_cast; linarith

theorem roundNE_ge (x : ℚ) : x - 1 / 2 ≤ (roundNE x : ℚ) := by
  have h1 := Int.lt_floor_add_one x
  unfold roundNE
  split_ifs with a b c
  · linarith
  · push_cast; linarith
  · linarith
  · push_cast; linarith

theorem log2Fuel_eq (fuel : ℕ) : ∀ n, n ≤ fuel → log2Fuel fuel n = Nat.log2 n := by
  induction fuel with
  | zero =>
    intro n hn
    have : n = 0 := by omega
    subst this
    simp [log2Fuel, Nat.log2]
  | succ f ih =>
    intro n hn
    rw [log2Fuel, Nat.log2]
    split_ifs with h
    · rw [ih (n / 2) (by omega)]
    · rfl

theorem log2Nat_eq (n : ℕ) : log2Nat n = Nat.log2 n := log2Fuel_eq n n (le_refl n)

theorem ilog2_aux (n d : ℕ) (hn0 : 0 < n) (hd : 0 < d) :
    (2 : ℚ) ^ (if d ≤ n then (log2Nat (n / d) : ℤ) else -((log2Nat ((d - 1) / n) : ℤ) + 1))
        ≤ (n : ℚ) / d ∧
    (n : ℚ) / d <
      (2 : ℚ) ^ ((if d ≤ n then (log2Nat (n / d) : ℤ)
        else -((log2Nat ((d - 1) / n) : ℤ) + 1)) + 1) := by
  simp only [log2Nat_eq]
  have hdq : (0 : ℚ) < (d : ℚ) := by exact_mod_cast hd
  split_ifs with hc
  · have hq : n / d ≠ 0 := by
      have := Nat.div_pos hc hd
      omega
    have h1 := Nat.log2_self_le hq
    have h2 := @Nat.lt_log2_self (n / d)
    have h3 : n / d * d ≤ n := Nat.div_mul_le_self n d
    have h4 : n < (n / d + 1) * d := by
      have := Nat.lt_succ_iff.mpr (le_refl (n / d))
      exact (Nat.div_lt_iff_lt_mul hd).mp this
    constructor
    · rw [zpow_natCast, le_div_iff₀ hdq]
      have : 2 ^ (n / d).log2 * d ≤ n := le_trans (Nat.mul_le_mul_right _ h1) h3
      exact_mod_cast this
    · have : ((Nat.log2 (n / d) : ℤ) + 1) = ((Nat.log2 (n / d) + 1 : ℕ) : ℤ) := by
        push_cast; ring
      rw [this, zpow_natCast, div_lt_iff₀ hdq]
      have : n < 2 ^ ((n / d).log2 + 1) * d :=
        lt_of_lt_of_le h4 (Nat.mul_le_mul_right _ h2)
      exact_mod_cast this
  · push_neg at hc
    have hq : (d - 1) / n ≠ 0 := by
      have : n ≤ d - 1 := by omega
      have := Nat.div_pos this hn0
      omega
    have h1 := Nat.log2_self_le hq
    have h2 := @Nat.lt_log2_self ((d - 1) / n)
    have h3 : (d - 1) / n * n ≤ d - 1 := Nat.div_mul_le_self _ _
    have h4 : d - 1 < ((d - 1) / n + 1) * n := by
      have := Nat.lt_succ_iff.mpr (le_refl ((d - 1) / n))
      exact (Nat.div_lt_iff_lt_mul hn0).mp this
    have hp : (0 : ℚ) < (2 : ℚ) ^ ((d - 1) / n).log2 := by positivity
    have hp1 : (0 : ℚ) < (2 : ℚ) ^ (((d - 1) / n).log2 + 1) := by positivity
    constructor
    · have : -((Nat.log2 ((d - 1) / n) : ℤ) + 1) = -((Nat.log2 ((d - 1) / n) + 1 : ℕ) : ℤ) := by
        push_cast; ring
      rw [this, zpow_neg, zpow_natCast, inv_eq_one_div, div_le_div_iff₀ hp1 hdq]
      have : d ≤ n * 2 ^ (((d - 1) / n).log2 + 1) := by
        have h5 : ((d - 1) / n + 1) * n ≤ 2 ^ (((d - 1) / n).log2 + 1) * n :=
          Nat.mul_le_mul_right _ h2
        rw [Nat.mul_comm n]
        omega
      have h : (d : ℚ) ≤ (n : ℚ) * 2 ^ (((d - 1) / n).log2 + 1) := by exact_mod_cast this
      linarith
    · have : -((Nat.log2 ((d - 1) / n) : ℤ) + 1) + 1 = -((Nat.log2 ((d - 1) / n) : ℕ) : ℤ) := by
        ring
      rw [this, zpow_neg, zpow_natCast, inv_eq_one_div, div_lt_div_iff₀ hdq hp]
      have : n * 2 ^ (((d - 1) / n).log2) < d := by
        have h5 : 2 ^ (((d - 1) / n).log2) * n ≤ (d - 1) / n * n :=
          Nat.mul_le_mul_right _ h1
        rw [Nat.mul_comm n]
        omega
      have h : (n : ℚ) * 2 ^ (((d - 1) / n).log2) < (d : ℚ) := by exact_mod_cast this
      linarith

theorem ilog2_spec {x : ℚ} (hx : 0 < x) :
    (2 : ℚ) ^ (ilog2 x) ≤ x ∧ x < (2 : ℚ) ^ (ilog2 x + 1) := by
  have hnum : 0 < x.num := Rat.num_pos.mpr hx
  have hd : 0 < x.den := x.den_pos
  have hn0 : 0 < x.num.natAbs := by omega
  have hxe : ((x.num.natAbs : ℕ) : ℚ) / (x.den : ℚ) = x := by
    have h1 := Rat.num_div_den x
    have h2 : ((x.num.natAbs : ℕ) : ℚ) = (x.num : ℚ) := by
      rw [← Int.cast_natCast, Int.natCast_natAbs, abs_of_pos hnum]
    rw [h2]; exact h1
  have := ilog2_aux x.num.natAbs x.den hn0 hd
  rw [hxe] at this
  exact this

theorem scale_pos (k : ℤ) : (0 : ℚ) < (2 : ℚ) ^ k := by positivity

/-- The scaled significand of a positive number lies in `[2^(p-1), 2^p)`. -/
theorem scaled_bounds (p : ℕ) {x : ℚ} (hx : 0 < x) :
    (2 : ℚ) ^ ((p : ℤ) - 1) ≤ x * (2 : ℚ) ^ ((p : ℤ) - 1 - ilog2 x) ∧
    x * (2 : ℚ) ^ ((p : ℤ) - 1 - ilog2 x) < (2 : ℚ) ^ (p : ℤ) := by
  obtain ⟨h1, h2⟩ := ilog2_spec hx
  have hs := scale_pos ((p : ℤ) - 1 - ilog2 x)
  have e1 : (2 : ℚ) ^ ((p : ℤ) - 1) = (2 : ℚ) ^ (ilog2 x) * (2 : ℚ) ^ ((p : ℤ) - 1 - ilog2 x) := by
    rw [← zpow_add₀ (by norm_num : (2 : ℚ) ≠ 0)]; congr 1; ring
  have e2 : (2 : ℚ) ^ (p : ℤ) = (2 : ℚ) ^ (ilog2 x + 1) * (2 : ℚ) ^ ((p : ℤ) - 1 - ilog2 x) := by
    rw [← zpow_add₀ (by norm_num : (2 : ℚ) ≠ 0)]; congr 1; ring
  rw [e1, e2]
  exact ⟨mul_le_mul_of_nonneg_right h1 hs.le, mul_lt_mul_of_pos_right h2 hs⟩

theorem zpow_pred_eq_intCast (p : ℕ) (hp : 1 ≤ p) :
    (2 : ℚ) ^ ((p : ℤ) - 1) = (((2 : ℤ) ^ (p - 1) : ℤ) : ℚ) := by
  have : ((p : ℤ) - 1) = ((p - 1 : ℕ) : ℤ) := by omega
  rw [this, zpow_natCast]; push_cast; rfl

theorem zpow_eq_intCast (p : ℕ) : (2 : ℚ) ^ (p : ℤ) = (((2 : ℤ) ^ p : ℤ) : ℚ) := by
  rw [zpow_natCast]; push_cast; rfl

/-- The rounded significand lies in `[2^(p-1), 2^p]`. -/
theorem roundNE_scaled_bounds (p : ℕ) (hp : 1 ≤ p) {x : ℚ} (hx : 0 < x) :
    (2 : ℤ) ^ (p - 1) ≤ roundNE (x * (2 : ℚ) ^ ((p : ℤ) - 1 - ilog2 x)) ∧
    roundNE (x * (2 : ℚ) ^ ((p : ℤ) - 1 - ilog2 x)) ≤ (2 : ℤ) ^ p := by
  obtain ⟨h1, h2⟩ := scaled_bounds p hx
  constructor
  · rw [zpow_pred_eq_intCast p hp] at h1
    have := roundNE_mono h1
    rwa [roundNE_intCast] at this
  · rw [zpow_eq_intCast p] at h2
    have := roundNE_mono h2.le
    rwa [roundNE_intCast] at this

/-- Rounding keeps a positive number inside its closed binade. -/
theorem roundPos_bounds (p : ℕ) (hp : 1 ≤ p) {x : ℚ} (hx : 0 < x) :
    (2 : ℚ) ^ (ilog2 x) ≤ roundPos p x ∧ roundPos p x ≤ (2 : ℚ) ^ (ilog2 x + 1) := by
  obtain ⟨h1, h2⟩ := roundNE_scaled_bounds p hp hx
  have hs := scale_pos ((p : ℤ) - 1 - ilog2 x)
  have e1 : (2 : ℚ) ^ ((p : ℤ) - 1) = (2 : ℚ) ^ (ilog2 x) * (2 : ℚ) ^ ((p : ℤ) - 1 - ilog2 x) := by
    rw [← zpow_add₀ (by norm_num : (2 : ℚ) ≠ 0)]; congr 1; ring
  have e2 : (2 : ℚ) ^ (p : ℤ) = (2 : ℚ) ^ (ilog2 x + 1) * (2 : ℚ) ^ ((p : ℤ) - 1 - ilog2 x) := by
    rw [← zpow_add₀ (by norm_num : (2 : ℚ) ≠ 0)]; congr 1; ring
  have c1 : (((2 : ℤ) ^ (p - 1) : ℤ) : ℚ) ≤ (roundNE (x * (2 : ℚ) ^ ((p : ℤ) - 1 - ilog2 x)) : ℚ) := by
    exact_mod_cast h1
  have c2 : (roundNE (x * (2 : ℚ) ^ ((p : ℤ) - 1 - ilog2 x)) : ℚ) ≤ (((2 : ℤ) ^ p : ℤ) : ℚ) := by
    exact_mod_cast h2
  rw [← zpow_pred_eq_intCast p hp, e1] at c1
  rw [← zpow_eq_intCast p, e2] at c2
  unfold roundPos
  exact ⟨(le_div_iff₀ hs).mpr c1, (div_le_iff₀ hs).mpr c2⟩

theorem roundPos_pos (p : ℕ) (hp : 1 ≤ p) {x : ℚ} (hx : 0 < x) : 0 < roundPos p x :=
  lt_of_lt_of_le (scale_pos _) (roundPos_bounds p hp hx).1

theorem ilog2_mono {x y : ℚ} (hx : 0 < x) (hxy : x ≤ y) : ilog2 x ≤ ilog2 y := by
  by_contra hlt
  push_neg at hlt
  obtain ⟨h1, _⟩ := ilog2_spec hx
  obtain ⟨_, h4⟩ := ilog2_spec (lt_of_lt_of_le hx hxy)
  have : (2 : ℚ) ^ (ilog2 y + 1) ≤ (2 : ℚ) ^ (ilog2 x) :=
    zpow_le_zpow_right₀ (by norm_num) (by omega)
  linarith

theorem roundPos_mono (p : ℕ) (hp : 1 ≤ p) {x y : ℚ} (hx : 0 < x) (hxy : x ≤ y) :
    roundPos p x ≤ roundPos p y := by
  have hy : 0 < y := lt_of_lt_of_le hx hxy
  rcases (ilog2_mono hx hxy).lt_or_eq with hlt | heq
  · have h1 := (roundPos_bounds p hp hx).2
    have h2 := (roundPos_bounds p hp hy).1
    have : (2 : ℚ) ^ (ilog2 x + 1) ≤ (2 : ℚ) ^ (ilog2 y) :=
      zpow_le_zpow_right₀ (by norm_num) (by omega)
    linarith
  · unfold roundPos
    rw [heq]
    have hs := scale_pos ((p : ℤ) - 1 - ilog2 y)
    apply div_le_div_of_nonneg_right _ hs.le
    have := roundNE_mono (mul_le_mul_of_nonneg_right hxy hs.le)
    exact_mod_cast this

/-- A positive number with a significand of at most `p` bits is not changed by rounding. -/
theorem roundPos_exact (p : ℕ) {x : ℚ} (hx : 0 < x) (m k : ℤ) (hm : m < 2 ^ p)
    (hxm : x = m * (2 : ℚ) ^ k) : roundPos p x = x := by
  obtain ⟨h1, _⟩ := ilog2_spec hx
  have hs := scale_pos ((p : ℤ) - 1 - ilog2 x)
  have hk := scale_pos k
  -- the binade exponent is below `p + k`
  have hlt : ilog2 x < p + k := by
    by_contra hge
    push_neg at hge
    have : (2 : ℚ) ^ ((p : ℤ) + k) ≤ (2 : ℚ) ^ (ilog2 x) :=
      zpow_le_zpow_right₀ (by norm_num) hge
    have hm' : (m : ℚ) < (2 : ℚ) ^ (p : ℤ) := by
      rw [zpow_eq_intCast]; exact_mod_cast hm
    have : x < (2 : ℚ) ^ ((p : ℤ) + k) := by
      rw [zpow_add₀ (by norm_num : (2 : ℚ) ≠ 0), hxm]
      exact mul_lt_mul_of_pos_right hm' hk
    linarith
  obtain ⟨E, hE⟩ : ∃ E : ℤ, E = (p : ℤ) - 1 - ilog2 x := ⟨_, rfl⟩
  obtain ⟨j, hj⟩ : ∃ j : ℕ, (j : ℤ) = k + E := ⟨(k + E).toNat, by omega⟩
  unfold roundPos
  rw [← hE]
  have hscaled : x * (2 : ℚ) ^ E = ((m * 2 ^ j : ℤ) : ℚ) := by
    rw [hxm, mul_assoc, ← zpow_add₀ (by norm_num : (2 : ℚ) ≠ 0), ← hj, zpow_natCast]
    push_cast; rfl
  rw [hscaled, roundNE_intCast, ← hscaled]
  have := scale_pos E
  field_simp

theorem roundTo_zero (p : ℕ) : roundTo p 0 = 0 := by simp [roundTo]

theorem roundTo_of_pos (p : ℕ) {x : ℚ} (hx : 0 < x) : roundTo p x = roundPos p x := by
  simp [roundTo, hx.ne', hx]

theorem roundTo_of_neg (p : ℕ) {x : ℚ} (hx : x < 0) : roundTo p x = -roundPos p (-x) := by
  simp [roundTo, hx.ne, not_lt.mpr hx.le]

theorem roundTo_neg (p : ℕ) (x : ℚ) : roundTo p (-x) = -roundTo p x := by
  rcases lt_trichotomy x 0 with h | h | h
  · rw [roundTo_of_neg p h, roundTo_of_pos p (by linarith : 0 < -x)]; simp
  · subst h; simp [roundTo_zero]
  · rw [roundTo_of_pos p h, roundTo_of_neg p (by linarith : -x < 0)]; simp

theorem roundTo_nonneg (p : ℕ) (hp : 1 ≤ p) {x : ℚ} (hx : 0 ≤ x) : 0 ≤ roundTo p x := by
  rcases hx.lt_or_eq with h | h
  · rw [roundTo_of_pos p h]; exact (roundPos_pos p hp h).le
  · subst h; simp [roundTo_zero]

theorem roundTo_nonpos (p : ℕ) (hp : 1 ≤ p) {x : ℚ} (hx : x ≤ 0) : roundTo p x ≤ 0 := by
  have := roundTo_nonneg p hp (by linarith : 0 ≤ -x)
  rw [roundTo_neg] at this
  linarith

/-- Rounding is monotone. -/
theorem roundTo_mono (p : ℕ) (hp : 1 ≤ p) {x y : ℚ} (hxy : x ≤ y) : roundTo p x ≤ roundTo p y := by
  rcases lt_or_le 0 x with hx | hx
  · rw [roundTo_of_pos p hx, roundTo_of_pos p (lt_of_lt_of_le hx hxy)]
    exact roundPos_mono p hp hx hxy
  · rcases lt_or_le y 0 with hy | hy
    · have hx' : x < 0 := lt_of_le_of_lt hxy hy
      rw [roundTo_of_neg p hx', roundTo_of_neg p hy]
      have := roundPos_mono p hp (by linarith : 0 < -y) (by linarith : -y ≤ -x)
      linarith
    · exact le_trans (roundTo_nonpos p hp hx) (roundTo_nonneg p hp hy)

/-- Rounding does not change a number that is representable. -/
theorem roundTo_exact (p : ℕ) {x : ℚ} (h : Rep p x) : roundTo p x = x := by
  obtain ⟨m, k, hm, hx⟩ := h
  have hk := scale_pos k
  rcases lt_trichotomy x 0 with h0 | h0 | h0
  · rw [roundTo_of_neg p h0]
    have : roundPos p (-x) = -x := by
      apply roundPos_exact p (by linarith) (-m) k
      · have := neg_abs_le m; have := abs_nonneg m; rw [abs_lt] at hm; omega
      · rw [hx]; push_cast; ring
    rw [this]; ring
  · rw [h0, roundTo_zero]
  · rw [roundTo_of_pos p h0]
    exact roundPos_exact p h0 m k (lt_of_le_of_lt (le_abs_self m) hm) hx

theorem Rep_intCast (p : ℕ) (n : ℤ) (h : |n| < 2 ^ p) : Rep p (n : ℚ) :=
  ⟨n, 0, h, by simp⟩

theorem roundTo_intCast (p : ℕ) (n : ℤ) (h : |n| < 2 ^ p) : roundTo p (n : ℚ) = n :=
  roundTo_exact p (Rep_intCast p n h)

/-- The result of rounding is representable. -/
theorem Rep_roundTo (p : ℕ) (hp : 1 ≤ p) (x : ℚ) : Rep p (roundTo p x) := by
  have key : ∀ y : ℚ, 0 < y → Rep p (roundPos p y) := by
    intro y hy
    obtain ⟨h1, h2⟩ := roundNE_scaled_bounds p hp hy
    have hs := scale_pos ((p : ℤ) - 1 - ilog2 y)
    have hpos : (0 : ℤ) < 2 ^ (p - 1) := by positivity
    rcases h2.lt_or_eq with hlt | heq
    · refine ⟨roundNE (y * (2 : ℚ) ^ ((p : ℤ) - 1 - ilog2 y)), -((p : ℤ) - 1 - ilog2 y), ?_, ?_⟩
      · rw [abs_of_nonneg (by omega)]; exact hlt
      · unfold roundPos; rw [zpow_neg]; rfl
    · refine ⟨1, (p : ℤ) - ((p : ℤ) - 1 - ilog2 y), ?_, ?_⟩
      · rw [abs_one]; exact one_lt_pow₀ (by norm_num) (by omega)
      · unfold roundPos
        rw [heq, zpow_sub₀ (by norm_num : (2 : ℚ) ≠ 0) (p : ℤ), zpow_natCast]
        push_cast; ring
  rcases lt_trichotomy x 0 with h0 | h0 | h0
  · rw [roundTo_of_neg p h0]
    obtain ⟨m, k, hm, hx⟩ := key (-x) (by linarith)
    exact ⟨-m, k, by rwa [abs_neg], by rw [hx]; push_cast; ring⟩
  · rw [h0, roundTo_zero]; exact ⟨0, 0, by positivity, by simp⟩
  · rw [roundTo_of_pos p h0]; exact key x h0

theorem roundTo_idem (p : ℕ) (hp : 1 ≤ p) (x : ℚ) : roundTo p (roundTo p x) = roundTo p x :=
  roundTo_exact p (Rep_roundTo p hp x)

/-- The relative error of rounding a positive number is at most `2^(-p)`. -/
theorem roundPos_le_add (p : ℕ) {x : ℚ} (hx : 0 < x) :
    roundPos p x ≤ x + x * (2 : ℚ) ^ (-(p : ℤ)) := by
  obtain ⟨h1, _⟩ := ilog2_spec hx
  have hs := scale_pos ((p : ℤ) - 1 - ilog2 x)
  have hp := scale_pos (-(p : ℤ))
  have hr := roundNE_le (x * (2 : ℚ) ^ ((p : ℤ) - 1 - ilog2 x))
  unfold roundPos
  rw [div_le_iff₀ hs]
  have e : (2 : ℚ) ^ (ilog2 x) * (2 : ℚ) ^ (-(p : ℤ)) * (2 : ℚ) ^ ((p : ℤ) - 1 - ilog2 x) = 1 / 2 := by
    rw [← zpow_add₀ (by norm_num : (2 : ℚ) ≠ 0), ← zpow_add₀ (by norm_num : (2 : ℚ) ≠ 0)]
    have : ilog2 x + -(p : ℤ) + ((p : ℤ) - 1 - ilog2 x) = -1 := by ring
    rw [this]; norm_num
  have : (2 : ℚ) ^ (ilog2 x) * (2 : ℚ) ^ (-(p : ℤ)) * (2 : ℚ) ^ ((p : ℤ) - 1 - ilog2 x) ≤
      x * (2 : ℚ) ^ (-(p : ℤ)) * (2 : ℚ) ^ ((p : ℤ) - 1 - ilog2 x) :=
    mul_le_mul_of_nonneg_right (mul_le_mul_of_nonneg_right h1 hp.le) hs.le
  nlinarith

theorem roundTo_le_add (p : ℕ) {x : ℚ} (hx : 0 ≤ x) :
    roundTo p x ≤ x + x * (2 : ℚ) ^ (-(p : ℤ)) := by
  rcases hx.lt_or_eq with h | h
  · rw [roundTo_of_pos p h]; exact roundPos_le_add p h
  · subst h; simp [roundTo_zero]


/-! ## Frame properties of `set` and `step` -/

@[simp] theorem set_currentTime (a : TweenAttr) (v : Dbl) (t : Option ImplId) (w : World) :
    (a.set v t w).currentTime = w.currentTime := by
  unfold TweenAttr.set; split_ifs <;> rfl

@[simp] theorem set_allTweens (a : TweenAttr) (v : Dbl) (t : Option ImplId) (w : World) :
    (a.set v t w).allTweens = w.allTweens := by
  unfold TweenAttr.set; split_ifs <;> rfl

@[simp] theorem set_impl (a : TweenAttr) (v : Dbl) (t : Option ImplId) (w : World) :
    (a.set v t w).impl = w.impl := by
  unfold TweenAttr.set; split_ifs <;> rfl

@[simp] theorem set_next (a : TweenAttr) (v : Dbl) (t : Option ImplId) (w : World) :
    (a.set v t w).next = w.next := by
  unfold TweenAttr.set; split_ifs <;> rfl

theorem set_heap_target (a : TweenAttr) (v : Dbl) (t : Option ImplId) (w : World) :
    (a.set v t w).heap a.target = a.newValue v := by
  unfold TweenAttr.set; split_ifs with h
  · simp
  · push_neg at h; exact h.symm

theorem set_heap_other (a : TweenAttr) (v : Dbl) (t : Option ImplId) (w : World) (x : Addr)
    (hx : x ≠ a.target) : (a.set v t w).heap x = w.heap x := by
  unfold TweenAttr.set; split_ifs with h
  · simp [Function.update_noteq hx]
  · rfl

/-- What `set` leaves in the log: nothing, or one dispatch of the update registry. -/
theorem set_log (a : TweenAttr) (v : Dbl) (t : Option ImplId) (w : World) :
    ∃ l : List Dispatch, (a.set v t w).log = w.log ++ l ∧ ∀ e ∈ l, ∃ x r, e = Dispatch.update x r := by
  unfold TweenAttr.set; split_ifs with h
  · exact ⟨_, rfl, by simp⟩
  · exact ⟨[], by simp, by simp⟩

theorem stepAttr_frame (I : TweenImpl) (st : ℕ × World) (a : TweenAttr) :
    (stepAttr I st a).2.currentTime = st.2.currentTime ∧
    (stepAttr I st a).2.allTweens = st.2.allTweens ∧
    (stepAttr I st a).2.impl = st.2.impl ∧
    (stepAttr I st a).2.next = st.2.next := by
  unfold stepAttr
  simp only []
  split_ifs <;> simp

theorem stepAttr_ended (I : TweenImpl) (st : ℕ × World) (a : TweenAttr) :
    (stepAttr I st a).1 = st.1 + (if ends I st.2.currentTime a then 1 else 0) := by
  unfold stepAttr ends
  simp only []
  split_ifs <;> simp_all

theorem stepAttr_log (I : TweenImpl) (st : ℕ × World) (a : TweenAttr) :
    ∃ l : List Dispatch, (stepAttr I st a).2.log = st.2.log ++ l ∧
      ∀ e ∈ l, ∃ x r, e = Dispatch.update x r := by
  have h0 : ∃ l : List Dispatch, st.2.log = st.2.log ++ l ∧
      ∀ e ∈ l, ∃ x r, e = Dispatch.update x r := ⟨[], by simp, by simp⟩
  unfold stepAttr
  simp only []
  split_ifs
  · exact h0
  · exact set_log _ _ _ _
  · obtain ⟨l1, h1, h1'⟩ := set_log a (.fin 0) none st.2
    obtain ⟨l2, h2, h2'⟩ := set_log a (I.tween_func
      (progress st.2.currentTime I.startTime a.delay I.totalTime)) none (a.set (.fin 0) none st.2)
    refine ⟨l1 ++ l2, by rw [h2, h1, List.append_assoc], ?_⟩
    intro e he
    rcases List.mem_append.mp he with h | h
    · exact h1' e h
    · exact h2' e h
  · exact set_log _ _ _ _
  · exact set_log _ _ _ _

theorem stepAttr_heap_other (I : TweenImpl) (st : ℕ × World) (a : TweenAttr) (x : Addr)
    (hx : x ≠ a.target) : (stepAttr I st a).2.heap x = st.2.heap x := by
  unfold stepAttr
  simp only []
  split_ifs <;> simp [set_heap_other, hx]

theorem foldl_stepAttr (I : TweenImpl) (l : List TweenAttr) (st : ℕ × World) :
    (l.foldl (stepAttr I) st).2.currentTime = st.2.currentTime ∧
    (l.foldl (stepAttr I) st).2.allTweens = st.2.allTweens ∧
    (l.foldl (stepAttr I) st).2.impl = st.2.impl ∧
    (l.foldl (stepAttr I) st).2.next = st.2.next ∧
    (l.foldl (stepAttr I) st).1 = st.1 + l.countP (ends I st.2.currentTime) ∧
    (∃ d : List Dispatch, (l.foldl (stepAttr I) st).2.log = st.2.log ++ d ∧
      ∀ e ∈ d, ∃ x r, e = Dispatch.update x r) ∧
    ∀ x : Addr, (∀ a ∈ l, a.target ≠ x) → (l.foldl (stepAttr I) st).2.heap x = st.2.heap x := by
  induction l generalizing st with
  | nil => exact ⟨rfl, rfl, rfl, rfl, by simp, ⟨[], by simp, by simp⟩, fun _ _ => rfl⟩
  | cons a l ih =>
    obtain ⟨h1, h2, h3, h4, h5, ⟨d, h6, h6'⟩, h7⟩ := ih (stepAttr I st a)
    obtain ⟨f1, f2, f3, f4⟩ := stepAttr_frame I st a
    obtain ⟨d0, g1, g1'⟩ := stepAttr_log I st a
    simp only [List.foldl_cons]
    refine ⟨h1.trans f1, h2.trans f2, h3.trans f3, h4.trans f4, ?_, ?_, ?_⟩
    · rw [h5, stepAttr_ended, f1, List.countP_cons]
      split_ifs <;> omega
    · refine ⟨d0 ++ d, by rw [h6, g1, List.append_assoc], ?_⟩
      intro e he
      rcases List.mem_append.mp he with h | h
      · exact g1' e h
      · exact h6' e h
    · intro x hx
      rw [h7 x (fun b hb => hx b (List.mem_cons_of_mem _ hb))]
      exact stepAttr_heap_other I st a x (fun h => hx a (List.mem_cons_self _ _) h.symm)

/-- The flag returned by `step` depends on the state and the clock only. -/
theorem step_flag (I : TweenImpl) (w : World) :
    (I.step w).1 = decide (I.args.countP (ends I w.currentTime) < I.args.length) := by
  unfold TweenImpl.step
  simp [(foldl_stepAttr I I.args (0, w)).2.2.2.2.1]

theorem step_frame (I : TweenImpl) (w : World) :
    (I.step w).2.currentTime = w.currentTime ∧ (I.step w).2.allTweens = w.allTweens ∧
    (I.step w).2.impl = w.impl ∧ (I.step w).2.next = w.next := by
  obtain ⟨h1, h2, h3, h4, _⟩ := foldl_stepAttr I I.args (0, w)
  exact ⟨h1, h2, h3, h4⟩

theorem step_log (I : TweenImpl) (w : World) :
    ∃ d : List Dispatch, (I.step w).2.log = w.log ++ d ∧
      ∀ e ∈ d, ∃ x r, e = Dispatch.update x r :=
  (foldl_stepAttr I I.args (0, w)).2.2.2.2.2.1

theorem step_heap_other (I : TweenImpl) (w : World) (x : Addr) (hx : ∀ a ∈ I.args, a.target ≠ x) :
    (I.step w).2.heap x = w.heap x :=
  (foldl_stepAttr I I.args (0, w)).2.2.2.2.2.2 x hx

/-- A state is reported finished exactly when every binding is counted as ended. -/
theorem step_finished_iff (I : TweenImpl) (w : World) :
    (I.step w).1 = false ↔ ∀ a ∈ I.args, ends I w.currentTime a = true := by
  rw [step_flag]
  simp only [decide_eq_false_iff_not, not_lt]
  constructor
  · intro h
    have := List.countP_le_length (ends I w.currentTime) (l := I.args)
    exact List.countP_eq_length.mp (le_antisymm this h)
  · intro h
    exact (List.countP_eq_length.mpr h).ge

/-! ## The loop of `updateTweens` -/

/-- The state `i` is kept by a tick in the world `w`. -/
theorem updateLoop_spec (rest : List ImplId) : ∀ (front done : List ImplId) (w : World),
    (updateLoop front rest done w).1 =
      front ++ rest.filter (fun i => ((w.impl i).step w).1) ∧
    (updateLoop front rest done w).2.1 =
      done ++ rest.filter (fun i => !((w.impl i).step w).1) ∧
    (updateLoop front rest done w).2.2.currentTime = w.currentTime ∧
    (updateLoop front rest done w).2.2.allTweens = w.allTweens ∧
    (updateLoop front rest done w).2.2.impl = w.impl ∧
    (updateLoop front rest done w).2.2.next = w.next ∧
    (∃ d : List Dispatch, (updateLoop front rest done w).2.2.log = w.log ++ d ∧
      ∀ e ∈ d, ∃ x r, e = Dispatch.update x r) := by
  induction rest with
  | nil =>
    intro front done w
    exact ⟨by simp [updateLoop], by simp [updateLoop], rfl, rfl, rfl, rfl, ⟨[], by simp [updateLoop], by simp⟩⟩
  | cons i rest ih =>
    intro front done w
    obtain ⟨f1, f2, f3, f4⟩ := step_frame (w.impl i) w
    obtain ⟨d0, g1, g1'⟩ := step_log (w.impl i) w
    have hflag : ∀ j, ((((w.impl i).step w).2.impl j).step ((w.impl i).step w).2).1
        = ((w.impl j).step w).1 := by
      intro j
      rw [step_flag, step_flag, f3, f1]
    have hfilter : ∀ q : Bool → Bool, rest.filter (fun j =>
        q ((((w.impl i).step w).2.impl j).step ((w.impl i).step w).2).1)
        = rest.filter (fun j => q ((w.impl j).step w).1) := by
      intro q
      congr 1
      funext j
      rw [hflag j]
    cases hc : ((w.impl i).step w).1
    · obtain ⟨h1, h2, h3, h4, h5, h6, ⟨d, h7, h7'⟩⟩ := ih front (done ++ [i]) ((w.impl i).step w).2
      have e1 := hfilter id
      have e2 := hfilter (fun b => !b)
      simp only [id] at e1 e2
      rw [updateLoop]
      simp only [hc, Bool.false_eq_true, ↓reduceIte]
      refine ⟨?_, ?_, h3.trans f1, h4.trans f2, h5.trans f3, h6.trans f4, ?_⟩
      · rw [h1, e1]; simp [List.filter_cons, hc]
      · rw [h2, e2]; simp [List.filter_cons, hc]
      · refine ⟨d0 ++ d, by rw [h7, g1, List.append_assoc], ?_⟩
        intro e he
        rcases List.mem_append.mp he with h | h
        · exact g1' e h
        · exact h7' e h
    · obtain ⟨h1, h2, h3, h4, h5, h6, ⟨d, h7, h7'⟩⟩ := ih (front ++ [i]) done ((w.impl i).step w).2
      have e1 := hfilter id
      have e2 := hfilter (fun b => !b)
      simp only [id] at e1 e2
      rw [updateLoop]
      simp only [hc, ↓reduceIte]
      refine ⟨?_, ?_, h3.trans f1, h4.trans f2, h5.trans f3, h6.trans f4, ?_⟩
      · rw [h1, e1]; simp [List.filter_cons, hc]
      · rw [h2, e2]; simp [List.filter_cons, hc]
      · refine ⟨d0 ++ d, by rw [h7, g1, List.append_assoc], ?_⟩
        intro e he
        rcases List.mem_append.mp he with h | h
        · exact g1' e h
        · exact h7' e h

theorem dispatchDone_spec (done : List ImplId) : ∀ w : World,
    (dispatchDone done w).currentTime = w.currentTime ∧
    (dispatchDone done w).allTweens = w.allTweens ∧
    (dispatchDone done w).impl = w.impl ∧
    (dispatchDone done w).next = w.next ∧
    (dispatchDone done w).heap = w.heap ∧
    (dispatchDone done w).log = w.log ++ completions w.impl done := by
  induction done with
  | nil => intro w; simp [dispatchDone, completions]
  | cons i done ih =>
    intro w
    unfold dispatchDone at ih ⊢
    simp only [List.foldl_cons]
    obtain ⟨h1, h2, h3, h4, h5, h6⟩ := ih { w with log := w.log ++
      [Dispatch.complete i ((w.impl i).on_complete_cb.call [Arg.tween none, Arg.num (.fin 1)])] }
    refine ⟨h1, h2, h3, h4, h5, ?_⟩
    rw [h6]
    simp [completions]

theorem lt_one_imp_not_lt_zero (t : Dbl) (h : Dbl.lt (.fin 1) t = true) :
    Dbl.lt t (.fin 0) = false := by
  cases t with
  | fin q =>
    simp only [Dbl.lt, decide_eq_true_eq, decide_eq_false_iff_not, not_lt] at h ⊢
    linarith
  | nzero => simp [Dbl.lt]
  | inf s => simpa [Dbl.lt] using h
  | nan => simp [Dbl.lt]

/-- The world after a tick, in terms of the flags of `step` at the new clock. -/
theorem updateTweens_spec (t : Dbl) (w : World) :
    (Tween.updateTweens t w).2.currentTime = t ∧
    (Tween.updateTweens t w).2.allTweens =
      w.allTweens.filter (fun i => ((w.impl i).step { w with currentTime := t }).1) ∧
    (Tween.updateTweens t w).1 = ((Tween.updateTweens t w).2.allTweens.length : ℤ) ∧
    (Tween.updateTweens t w).2.impl = w.impl ∧
    (Tween.updateTweens t w).2.next = w.next ∧
    (∃ d : List Dispatch, (∀ e ∈ d, ∃ x r, e = Dispatch.update x r) ∧
      (Tween.updateTweens t w).2.log = w.log ++ d ++ completions w.impl
        (w.allTweens.filter (fun i => !((w.impl i).step { w with currentTime := t }).1))) := by
  obtain ⟨h1, h2, h3, _, h5, h6, ⟨d, h7, h7'⟩⟩ :=
    updateLoop_spec w.allTweens [] [] { w with currentTime := t }
  obtain ⟨g1, g2, g3, g4, _, g6⟩ := dispatchDone_spec
    (updateLoop [] w.allTweens [] { w with currentTime := t }).2.1
    { (updateLoop [] w.allTweens [] { w with currentTime := t }).2.2 with
      allTweens := (updateLoop [] w.allTweens [] { w with currentTime := t }).1 }
  unfold Tween.updateTweens
  simp only []
  refine ⟨by rw [g1]; exact h3, by rw [g2]; simpa using h1, by rw [g2], by rw [g3]; exact h5,
    by rw [g4]; exact h6, d, h7', ?_⟩
  rw [g6]
  simp only [h7, h2, h5, List.nil_append]

theorem modify_impl (w : World) (h : ImplId) (f : TweenImpl → TweenImpl) (i : ImplId) :
    (w.modify h f).impl i = if i = h then f (w.impl h) else w.impl i := by
  unfold World.modify
  by_cases hi : i = h
  · subst hi; simp
  · simp [hi, Function.update_noteq hi]

/-! ## Integer conversions and `fmod` -/

theorem wrapInt_of_range (z : ℤ) (h1 : -2147483648 ≤ z) (h2 : z ≤ 2147483647) : wrapInt z = z := by
  unfold wrapInt; omega

theorem truncQ_intCast (n : ℤ) : truncQ (n : ℚ) = n := by
  unfold truncQ
  split_ifs with h
  · simp
  · rw [← Int.cast_neg, Int.floor_intCast]; ring

theorem truncQ_of_abs_lt_one {x : ℚ} (h : |x| < 1) : truncQ x = 0 := by
  rw [abs_lt] at h
  unfold truncQ
  split_ifs with h0
  · rw [Int.floor_eq_iff]; constructor <;> push_cast <;> linarith
  · have : ⌊-x⌋ = 0 := by
      rw [Int.floor_eq_iff]; constructor <;> push_cast <;> linarith
    rw [this]; rfl

theorem truncQ_bounds_nonneg {x : ℚ} {n : ℤ} (h0 : 0 ≤ x) (h1 : x ≤ n) :
    0 ≤ truncQ x ∧ truncQ x ≤ n := by
  unfold truncQ
  rw [if_pos h0]
  refine ⟨Int.floor_nonneg.mpr h0, ?_⟩
  have := Int.floor_mono h1
  rwa [Int.floor_intCast] at this

theorem truncQ_bounds_nonpos {x : ℚ} {n : ℤ} (h0 : x ≤ 0) (h1 : (n : ℚ) ≤ x) :
    n ≤ truncQ x ∧ truncQ x ≤ 0 := by
  rcases h0.lt_or_eq with hlt | heq
  · unfold truncQ
    rw [if_neg (not_le.mpr hlt)]
    have h2 : 0 ≤ ⌊-x⌋ := Int.floor_nonneg.mpr (by linarith)
    have hx : -x ≤ ((-n : ℤ) : ℚ) := by push_cast; linarith
    have h3 : ⌊-x⌋ ≤ -n := by
      have := Int.floor_mono hx
      rwa [Int.floor_intCast] at this
    omega
  · subst heq
    have hn : n ≤ 0 := by exact_mod_cast h1
    have : truncQ 0 = 0 := by simpa using truncQ_intCast 0
    omega

theorem truncQ_zero : truncQ 0 = 0 := by simpa using truncQ_intCast 0

theorem toInt_fin_zero : Dbl.toInt (.fin 0) = 0 := by
  simp [Dbl.toInt, truncQ_zero]

/-- Both zeros convert to the `int` 0. -/
theorem toInt_zero (neg : Bool) : Dbl.toInt (Dbl.zero neg) = 0 := by
  cases neg
  · exact toInt_fin_zero
  · rfl

/-- The conversion to `int` does not see the sign of a zero result of `fmod`. -/
theorem toInt_fmod_fin (x y : ℚ) (hy : y ≠ 0) :
    Dbl.toInt (Dbl.fmod (.fin x) (.fin y)) = Dbl.toInt (.fin (x - truncQ (x / y) * y)) := by
  simp only [Dbl.fmod, if_neg hy]
  split_ifs with h
  · rw [h, toInt_zero, toInt_fin_zero]
  · rfl

theorem toInt_fmod_zero (neg : Bool) (y : ℚ) (hy : y ≠ 0) :
    Dbl.toInt (Dbl.fmod (Dbl.zero neg) (.fin y)) = 0 := by
  cases neg
  · rw [Dbl.zero, if_neg Bool.false_ne_true, toInt_fmod_fin 0 y hy]
    simp [truncQ_zero, toInt_fin_zero]
  · simp [Dbl.zero, Dbl.fmod, hy, Dbl.toInt]

/-- The conversion to `int` does not see the sign of a zero product either. -/
theorem toInt_fmod_mul (x y m : ℚ) (hm : m ≠ 0) :
    Dbl.toInt (Dbl.fmod (Dbl.mul (.fin x) (.fin y)) (.fin m)) =
      Dbl.toInt (Dbl.fmod (.fin (roundTo 53 (x * y))) (.fin m)) := by
  simp only [Dbl.mul]
  split_ifs with h
  · rw [h, roundTo_zero, toInt_fmod_zero _ _ hm, toInt_fmod_fin 0 m hm]
    simp [truncQ_zero, toInt_fin_zero]
  · rfl

/-- A quotient by a positive number. -/
theorem div_fin_pos (x D : ℚ) (hD : 0 < D) :
    Dbl.div (.fin x) (.fin D) = .fin (roundTo 53 (x / D)) := by
  simp only [Dbl.div, if_neg hD.ne']
  split_ifs with h
  · subst h
    simp [Dbl.zero, not_lt.mpr hD.le, roundTo_zero]
  · rfl

/-- `fmod(y, INT_MAX)` is `y` when `|y| < INT_MAX`, and the conversion to `int` truncates. -/
theorem toInt_fmod_small {y : ℚ} (hy : |y| < 2147483647) :
    Dbl.toInt (Dbl.fmod (.fin y) (Dbl.ofInt INT_MAX)) = truncQ y := by
  have hq : |y / (2147483647 : ℚ)| < 1 := by
    rw [abs_div, abs_of_pos (by norm_num : (0 : ℚ) < 2147483647), div_lt_one (by norm_num)]
    exact hy
  have h0 := truncQ_of_abs_lt_one hq
  have hr : -2147483648 ≤ truncQ y ∧ truncQ y ≤ 2147483647 := by
    rw [abs_lt] at hy
    rcases le_total 0 y with h | h
    · have := truncQ_bounds_nonneg (n := 2147483647) h (by push_cast; linarith)
      omega
    · have := truncQ_bounds_nonpos (n := -2147483647) h (by push_cast; linarith)
      omega
  simp only [Dbl.ofInt, INT_MAX]
  rw [toInt_fmod_fin y _ (by norm_num)]
  simp only [Dbl.toInt]
  norm_num [h0, hr]

/-- The product `1.0 * delta` of `set(1.0)` is exact. -/
theorem mul_one_ofInt (d : ℤ) (hd : |d| < 2 ^ 53) :
    Dbl.mul (.fin 1) (Dbl.ofInt d) = .fin d := by
  simp only [Dbl.mul, Dbl.ofInt, one_mul]
  split_ifs with h
  · have hd0 : d = 0 := by exact_mod_cast h
    subst hd0
    simp [Dbl.zero]
  · rw [roundTo_intCast 53 d hd]

/-- With the wrap bound `INT_MAX` and a distance below it, `set(1.0)` computes
`startValue + delta`. -/
theorem newValue_one_linear (a : TweenAttr) (hm : a.maxValue = INT_MAX)
    (hd : |a.delta| < 2147483647) :
    a.newValue (.fin 1) = wrapInt (a.startValue + a.delta) := by
  have hd' : |a.delta| < 2 ^ 53 := lt_trans hd (by norm_num)
  have hy : |(a.delta : ℚ)| < 2147483647 := by exact_mod_cast hd
  unfold TweenAttr.newValue
  rw [mul_one_ofInt _ hd', hm, toInt_fmod_small hy, truncQ_intCast]

/-- With a wrap bound `m ≥ 1` and the distance `m * c - 1`, `set(1.0)` computes
`startValue + (m - 1)`. -/
theorem newValue_one_cyclic (a : TweenAttr) (c : ℤ) (hm : 1 ≤ a.maxValue) (hc : 1 ≤ c)
    (hd : a.delta = a.maxValue * c - 1) (hov : a.delta ≤ 2147483647) :
    a.newValue (.fin 1) = wrapInt (a.startValue + (a.maxValue - 1)) := by
  have hd0 : 0 ≤ a.delta := by nlinarith
  have hd' : |a.delta| < 2 ^ 53 := by
    rw [abs_of_nonneg hd0]; exact lt_of_le_of_lt hov (by norm_num)
  have hmq : (0 : ℚ) < (a.maxValue : ℚ) := by exact_mod_cast (by omega : 0 < a.maxValue)
  have hmle : a.maxValue ≤ 2147483648 := by nlinarith
  have hfl : truncQ ((a.delta : ℚ) / (a.maxValue : ℚ)) = c - 1 := by
    have h0 : (0 : ℚ) ≤ (a.delta : ℚ) / (a.maxValue : ℚ) :=
      div_nonneg (by exact_mod_cast hd0) hmq.le
    unfold truncQ
    rw [if_pos h0, Int.floor_eq_iff, le_div_iff₀ hmq, div_lt_iff₀ hmq, hd]
    have hm1 : (1 : ℚ) ≤ (a.maxValue : ℚ) := by exact_mod_cast hm
    push_cast
    constructor <;> linarith
  unfold TweenAttr.newValue
  rw [mul_one_ofInt _ hd']
  simp only [Dbl.ofInt]
  rw [toInt_fmod_fin _ _ (by exact_mod_cast (by omega : a.maxValue ≠ 0)), hfl]
  have : ((a.delta : ℚ) - ((c - 1 : ℤ) : ℚ) * (a.maxValue : ℚ)) = ((a.maxValue - 1 : ℤ) : ℚ) := by
    rw [hd]; push_cast; ring
  rw [this]
  simp only [Dbl.toInt, truncQ_intCast]
  rw [if_pos (by constructor <;> omega)]

/-- The bindings of the calling state after `to`: what the scan left, and the new binding. -/
theorem to_args (h : ImplId) (x : Addr) (v c : ℤ) (w : World) :
    ((Tween.to h x v c w).impl h).args =
      ((eraseTarget x w).impl h).args ++ [TweenAttr.new w.heap x (wrapInt v) c] := by
  unfold Tween.to World.modify
  simp

/-- The heap cell `x` after the loop of a tick, when the state `i` is the only one in the list
with a binding on `x` and its `step` leaves the value `V` there. -/
theorem updateLoop_heap (x : Addr) (V : ℤ) (i : ImplId) (rest : List ImplId) :
    ∀ (front done : List ImplId) (w : World),
    (∀ j ∈ rest, j ≠ i → ∀ a ∈ (w.impl j).args, a.target ≠ x) →
    (∀ w' : World, w'.impl = w.impl → w'.currentTime = w.currentTime →
      ((w.impl i).step w').2.heap x = V) →
    (i ∈ rest ∨ w.heap x = V) → (updateLoop front rest done w).2.2.heap x = V := by
  induction rest with
  | nil =>
    intro front done w _ _ h
    rcases h with h | h
    · cases h
    · simpa [updateLoop] using h
  | cons j rest ih =>
    intro front done w hoth hstep h
    obtain ⟨f1, _, f3, _⟩ := step_frame (w.impl j) w
    have hoth' : ∀ k ∈ rest, k ≠ i →
        ∀ a ∈ (((w.impl j).step w).2.impl k).args, a.target ≠ x := by
      intro k hk hki
      rw [f3]
      exact hoth k (List.mem_cons_of_mem _ hk) hki
    have hstep' : ∀ w' : World, w'.impl = ((w.impl j).step w).2.impl →
        w'.currentTime = ((w.impl j).step w).2.currentTime →
        ((((w.impl j).step w).2.impl i).step w').2.heap x = V := by
      intro w' h1 h2
      rw [f3]
      exact hstep w' (h1.trans f3) (h2.trans f1)
    have hnext : i ∈ rest ∨ ((w.impl j).step w).2.heap x = V := by
      by_cases hji : j = i
      · right
        rw [hji]
        exact hstep w rfl rfl
      · rcases h with h | h
        · rcases List.mem_cons.mp h with h | h
          · exact absurd h.symm hji
          · exact Or.inl h
        · right
          rw [step_heap_other (w.impl j) w x (hoth j (List.mem_cons_self _ _) hji)]
          exact h
    rw [updateLoop]
    split_ifs
    · exact ih _ _ _ hoth' hstep' hnext
    · exact ih _ _ _ hoth' hstep' hnext

/-- The heap cell `x` after a tick, under the conditions of `updateLoop_heap`. -/
theorem updateTweens_heap (x : Addr) (V : ℤ) (i : ImplId) (t : Dbl) (w : World)
    (hi : i ∈ w.allTweens)
    (hoth : ∀ j ∈ w.allTweens, j ≠ i → ∀ a ∈ (w.impl j).args, a.target ≠ x)
    (hstep : ∀ w' : World, w'.impl = w.impl → w'.currentTime = t →
      ((w.impl i).step w').2.heap x = V) :
    (Tween.updateTweens t w).2.heap x = V := by
  unfold Tween.updateTweens
  simp only []
  rw [(dispatchDone_spec _ _).2.2.2.2.1]
  exact updateLoop_heap x V i w.allTweens [] [] { w with currentTime := t } hoth hstep (Or.inl hi)

/-- The value computed by `set(q)` for `0 ≤ q ≤ 1` on a single-traversal binding whose start
and end values are `int`s at a distance below `INT_MAX`. -/
theorem newValue_unit (a : TweenAttr) (b : ℤ) (q : ℚ) (hb : BuiltBy a b 1)
    (ha1 : -2147483648 ≤ a.startValue) (ha2 : a.startValue ≤ 2147483647)
    (hb1 : -2147483648 ≤ b) (hb2 : b ≤ 2147483647) (hab : |b - a.startValue| < 2147483647)
    (hq0 : 0 ≤ q) (hq1 : q ≤ 1) :
    a.newValue (.fin q) = a.startValue + truncQ (roundTo 53 (q * ((b - a.startValue : ℤ) : ℚ))) := by
  obtain ⟨hd, hm⟩ := hb
  rw [abs_lt] at hab
  have hw : wrapInt (b - a.startValue) = b - a.startValue :=
    wrapInt_of_range _ (by omega) (by omega)
  simp only [TweenAttr.new, ne_eq, not_true_eq_false, ↓reduceIte, hw] at hd hm
  have hex : ∀ n : ℤ, |n| < 2147483647 → roundTo 53 (n : ℚ) = n := fun n hn =>
    roundTo_intCast 53 n (lt_trans hn (by norm_num))
  unfold TweenAttr.newValue
  simp only [Dbl.ofInt, hd, hm]
  rw [toInt_fmod_mul _ _ _ (by norm_num [INT_MAX])]
  rcases le_total 0 (b - a.startValue) with hpos | hneg
  · have hdq : (0 : ℚ) ≤ ((b - a.startValue : ℤ) : ℚ) := by exact_mod_cast hpos
    have h0 : 0 ≤ roundTo 53 (q * ((b - a.startValue : ℤ) : ℚ)) :=
      roundTo_nonneg 53 (by norm_num) (mul_nonneg hq0 hdq)
    have h1 : roundTo 53 (q * ((b - a.startValue : ℤ) : ℚ)) ≤ ((b - a.startValue : ℤ) : ℚ) := by
      have := roundTo_mono 53 (by norm_num)
        (show q * ((b - a.startValue : ℤ) : ℚ) ≤ ((b - a.startValue : ℤ) : ℚ) by nlinarith)
      rwa [hex _ (by rw [abs_lt]; omega)] at this
    have hlt : |roundTo 53 (q * ((b - a.startValue : ℤ) : ℚ))| < 2147483647 := by
      rw [abs_of_nonneg h0]
      have : ((b - a.startValue : ℤ) : ℚ) < 2147483647 := by exact_mod_cast hab.2
      linarith
    have key := toInt_fmod_small hlt
    simp only [Dbl.ofInt] at key
    rw [key]
    obtain ⟨t0, t1⟩ := truncQ_bounds_nonneg h0 h1
    exact wrapInt_of_range _ (by omega) (by omega)
  · have hdq : ((b - a.startValue : ℤ) : ℚ) ≤ 0 := by exact_mod_cast hneg
    have h0 : roundTo 53 (q * ((b - a.startValue : ℤ) : ℚ)) ≤ 0 :=
      roundTo_nonpos 53 (by norm_num) (mul_nonpos_of_nonneg_of_nonpos hq0 hdq)
    have h1 : ((b - a.startValue : ℤ) : ℚ) ≤ roundTo 53 (q * ((b - a.startValue : ℤ) : ℚ)) := by
      have := roundTo_mono 53 (by norm_num)
        (show ((b - a.startValue : ℤ) : ℚ) ≤ q * ((b - a.startValue : ℤ) : ℚ) by nlinarith)
      rwa [hex _ (by rw [abs_lt]; omega)] at this
    have hlt : |roundTo 53 (q * ((b - a.startValue : ℤ) : ℚ))| < 2147483647 := by
      rw [abs_of_nonpos h0]
      have : (-2147483647 : ℚ) < ((b - a.startValue : ℤ) : ℚ) := by exact_mod_cast hab.1
      linarith
    have key := toInt_fmod_small hlt
    simp only [Dbl.ofInt] at key
    rw [key]
    obtain ⟨t0, t1⟩ := truncQ_bounds_nonpos h0 h1
    exact wrapInt_of_range _ (by omega) (by omega)

/-- A tick keeps a state that `step` does not report finished, and does not dispatch its
completion callbacks. -/
theorem tick_kept (t : Dbl) (w : World) (i : ImplId) (hi : i ∈ w.allTweens)
    (hflag : ((w.impl i).step { w with currentTime := t }).1 = true) :
    i ∈ (Tween.updateTweens t w).2.allTweens ∧ (Tween.updateTweens t w).2.impl = w.impl ∧
    ∃ d : List Dispatch, (Tween.updateTweens t w).2.log = w.log ++ d ∧
      ∀ r, Dispatch.complete i r ∉ d := by
  obtain ⟨_, h2, _, h4, _, ⟨d, hd, hlog⟩⟩ := updateTweens_spec t w
  refine ⟨?_, h4, ?_⟩
  · rw [h2]
    exact List.mem_filter.mpr ⟨hi, hflag⟩
  · refine ⟨_, by rw [hlog, List.append_assoc], ?_⟩
    intro r hr
    rcases List.mem_append.mp hr with h | h
    · obtain ⟨x, r', he⟩ := hd _ h
      cases he
    · unfold completions at h
      obtain ⟨j, hj, he⟩ := List.mem_map.mp h
      have hij : j = i := by
        injection he
      subst hij
      have := (List.mem_filter.mp hj).2
      simp [hflag] at this

/-! ## A binding among the bindings of its state -/

/-- The target of a binding after its turn in the loop of `step`, when its progress lies in the
unit interval. -/
theorem stepAttr_heap_unit (I : TweenImpl) (st : ℕ × World) (att : TweenAttr) (q : ℚ)
    (hprog : progress st.2.currentTime I.startTime att.delay I.totalTime = .fin q)
    (hq0 : 0 ≤ q) (hq1 : q ≤ 1) :
    (stepAttr I st att).2.heap att.target = att.newValue (I.tween_func (.fin q)) := by
  unfold stepAttr
  simp only [hprog, Dbl.lt, decide_eq_true_eq, not_lt.mpr hq0, not_lt.mpr hq1, ↓reduceIte]
  exact set_heap_target _ _ _ _

/-- The target of a binding after `step`, when no later binding of the state is on the same
target: the value the binding leaves at its own turn. -/
theorem step_heap_of_last (I : TweenImpl) (pre post : List TweenAttr) (att : TweenAttr)
    (w : World) (V : ℤ) (hargs : I.args = pre ++ att :: post)
    (hpost : ∀ a ∈ post, a.target ≠ att.target)
    (hatt : ∀ st : ℕ × World, st.2.currentTime = w.currentTime →
      (stepAttr I st att).2.heap att.target = V) :
    (I.step w).2.heap att.target = V := by
  unfold TweenImpl.step
  simp only [hargs, List.foldl_append, List.foldl_cons]
  rw [(foldl_stepAttr I post _).2.2.2.2.2.2 att.target hpost]
  exact hatt _ (foldl_stepAttr I pre (0, w)).1

/-! ## The invariant of the scheduler -/

theorem inv_init (heap : Addr → ℤ) : (World.init heap).Inv := by
  refine ⟨?_, ?_, ?_⟩ <;> simp [World.init]

/-- A change of one object that keeps its flag `isTweening` keeps the invariant. -/
theorem inv_modify (w : World) (h : ImplId) (f : TweenImpl → TweenImpl)
    (hf : ∀ I, (f I).isTweening = I.isTweening) (hw : w.Inv) : (w.modify h f).Inv := by
  obtain ⟨h1, h2, h3⟩ := hw
  have key : ∀ i, ((w.modify h f).impl i).isTweening = (w.impl i).isTweening := by
    intro i
    rw [modify_impl]
    split_ifs with hi
    · rw [hf, hi]
    · rfl
  refine ⟨h1, ?_, ?_⟩
  · intro i hi
    rw [key]
    exact h2 i hi
  · intro i hi
    rw [key]
    exact h3 i hi

theorem inv_eraseTarget (x : Addr) (w : World) (hw : w.Inv) : (eraseTarget x w).Inv := by
  unfold eraseTarget
  have gen : ∀ (l : List ImplId) (w : World), w.Inv →
      (l.foldl (fun w t => w.modify t (fun I =>
        { I with args := I.args.filter (fun a => !a.compare x) })) w).Inv := by
    intro l
    induction l with
    | nil => intro w hw; exact hw
    | cons t l ih =>
      intro w hw
      exact ih _ (inv_modify w t _ (fun _ => rfl) hw)
  exact gen w.allTweens w hw

theorem inv_to (h : ImplId) (x : Addr) (v c : ℤ) (w : World) (hw : w.Inv) :
    (Tween.to h x v c w).Inv :=
  inv_modify _ h _ (fun _ => rfl) (inv_eraseTarget x w hw)

theorem inv_heap (w : World) (heap : Addr → ℤ) (hw : w.Inv) : ({ w with heap := heap }).Inv := hw

theorem inv_cancel (h : ImplId) (w : World) (hw : w.Inv) : (Tween.cancel h w).Inv := by
  obtain ⟨h1, h2, h3⟩ := hw
  exact ⟨h1.erase h, fun i hi => h2 i (List.mem_of_mem_erase hi), h3⟩

theorem inv_foldl_set (v : Dbl) (t : Option ImplId) (l : List TweenAttr) :
    ∀ w : World, w.Inv → (l.foldl (fun w a => a.set v t w) w).Inv := by
  induction l with
  | nil => intro w hw; exact hw
  | cons a l ih =>
    intro w hw
    apply ih
    obtain ⟨h1, h2, h3⟩ := hw
    refine ⟨by simpa using h1, ?_, ?_⟩
    · intro i hi
      simpa using h2 i (by simpa using hi)
    · intro i hi
      simpa using h3 i (by simpa using hi)

theorem inv_addTween (ti : TweenImpl) (w : World) (hw : w.Inv) : (Tween.addTween ti w).Inv := by
  obtain ⟨h1, h2, h3⟩ := hw
  have hfresh : w.next ∉ w.allTweens := fun hm => lt_irrefl _ (h2 _ hm).2
  unfold Tween.addTween
  refine ⟨?_, ?_, ?_⟩
  · simp only []
    rw [List.nodup_append]
    refine ⟨h1, List.nodup_singleton _, ?_⟩
    intro a ha hb
    rw [List.mem_singleton] at hb
    exact hfresh (hb ▸ ha)
  · intro i hi
    simp only [List.mem_append, List.mem_singleton] at hi
    rcases hi with hi | hi
    · have hne : i ≠ w.next := fun he => hfresh (he ▸ hi)
      simp only [Function.update_noteq hne]
      exact ⟨(h2 i hi).1, Nat.lt_succ_of_lt (h2 i hi).2⟩
    · subst hi
      simp
  · intro i hi
    have hi' : w.next + 1 ≤ i := hi
    have hne : i ≠ w.next := Nat.ne_of_gt (Nat.lt_of_succ_le hi')
    simp only [Function.update_noteq hne]
    exact h3 i (Nat.le_of_succ_le hi')

theorem inv_start (h : ImplId) (w : World) (hw : w.Inv) : (Tween.start h w).Inv := by
  unfold Tween.start
  split_ifs with hc
  · obtain ⟨h1, h2, h3⟩ := hw
    have hflag : (w.impl h).isTweening = false := by simpa using hc
    have hfresh : h ∉ w.allTweens := by
      intro hm
      rw [(h2 h hm).1] at hflag
      exact Bool.noConfusion hflag
    have hlt : h < w.next := by
      by_contra hge
      rw [h3 h (Nat.le_of_not_lt hge)] at hflag
      exact Bool.noConfusion hflag
    refine ⟨?_, ?_, ?_⟩
    · simp only []
      rw [List.nodup_append]
      refine ⟨h1, List.nodup_singleton _, ?_⟩
      intro a ha hb
      rw [List.mem_singleton] at hb
      exact hfresh (hb ▸ ha)
    · intro i hi
      simp only [List.mem_append, List.mem_singleton] at hi
      rcases hi with hi | hi
      · have hne : i ≠ h := fun he => hfresh (he ▸ hi)
        simp only [Function.update_noteq hne]
        exact h2 i hi
      · subst hi
        simp [hlt]
    · intro i hi
      have hi' : w.next ≤ i := hi
      have hne : i ≠ h := Nat.ne_of_gt (Nat.lt_of_lt_of_le hlt hi')
      simp only [Function.update_noteq hne]
      exact h3 i hi
  · exact hw

theorem inv_make (tt ds : Dbl) (w : World) (hw : w.Inv) : (Tween.make tt ds w).2.Inv := by
  obtain ⟨h1, h2, h3⟩ := hw
  have hfresh : w.next ∉ w.allTweens := fun hm => lt_irrefl _ (h2 _ hm).2
  unfold Tween.make
  refine ⟨h1, ?_, ?_⟩
  · intro i hi
    have hne : i ≠ w.next := fun he => hfresh (he ▸ hi)
    simp only [Function.update_noteq hne]
    exact ⟨(h2 i hi).1, Nat.lt_succ_of_lt (h2 i hi).2⟩
  · intro i hi
    have hi' : w.next + 1 ≤ i := hi
    have hne : i ≠ w.next := Nat.ne_of_gt (Nat.lt_of_succ_le hi')
    simp only [Function.update_noteq hne]
    exact h3 i (Nat.le_of_succ_le hi')

theorem inv_updateTweens (t : Dbl) (w : World) (hw : w.Inv) : (Tween.updateTweens t w).2.Inv := by
  obtain ⟨h1, h2, h3⟩ := hw
  obtain ⟨_, g2, _, g4, g5, _⟩ := updateTweens_spec t w
  refine ⟨?_, ?_, ?_⟩
  · rw [g2]; exact h1.filter _
  · intro i hi
    rw [g2] at hi
    rw [g4, g5]
    exact h2 i (List.mem_of_mem_filter hi)
  · intro i hi
    rw [g4]
    rw [g5] at hi
    exact h3 i hi

/-- Every call keeps the invariant. -/
theorem inv_apply : ∀ (o : Op) (w : World), w.Inv → (o.apply w).Inv
  | .make tt ds, w, hw => inv_make tt ds w hw
  | .seconds h _, w, hw => inv_modify w h _ (fun _ => rfl) hw
  | .speed h _, w, hw => inv_modify w h _ (fun _ => rfl) hw
  | .linear h, w, hw => inv_modify w h _ (fun _ => rfl) hw
  | .smoothstep h, w, hw => inv_modify w h _ (fun _ => rfl) hw
  | .sine _ h, w, hw => inv_modify w h _ (fun _ => rfl) hw
  | .repeating h, w, hw => inv_modify w h _ (fun _ => rfl) hw
  | .to h x v c, w, hw => inv_to h x v c w hw
  | .from_ h x _, w, hw => inv_to h x _ 1 _ (inv_heap w _ hw)
  | .onUpdate h _ _, w, hw => inv_modify w h _ (fun _ => rfl) hw
  | .delay h _, w, hw => inv_modify w h _ (fun _ => rfl) hw
  | .onComplete h _ _, w, hw => inv_modify w h _ (fun _ => rfl) hw
  | .start h, w, hw => inv_start h w hw
  | .discard h, w, hw => by
    show (Tween.discard h w).Inv
    unfold Tween.discard
    split_ifs
    · exact inv_addTween _ w hw
    · exact hw
  | .cancel h, w, hw => inv_cancel h w hw
  | .finish h, w, hw => inv_cancel h _ (inv_foldl_set _ _ _ w hw)
  | .tick t, w, hw => inv_updateTweens t w hw

/-- Every scheduler state reached from the empty scheduler satisfies the invariant. -/
theorem inv_run (ops : List Op) : ∀ w : World, w.Inv → (run ops w).Inv := by
  induction ops with
  | nil => intro w hw; exact hw
  | cons o ops ih =>
    intro w hw
    exact ih _ (inv_apply o w hw)

/-! ## C1: a linear tween of one `int` target -/

theorem Rep_half (p : ℕ) {x : ℚ} (h : Rep p x) : Rep p (x / 2) := by
  obtain ⟨m, k, hm, hx⟩ := h
  refine ⟨m, k - 1, hm, ?_⟩
  rw [hx, zpow_sub₀ (by norm_num : (2 : ℚ) ≠ 0), zpow_one]
  ring

/-- The progress computed by `step` for a binding without delay, within the duration. -/
theorem progress_unit (c s D : ℚ) (hD : 0 < D) (hrep : roundTo 53 D = D) (h0 : 0 ≤ c - s)
    (h1 : c - s ≤ D) :
    progress (.fin c) (.fin s) (.fin 0) (.fin D) =
      .fin (roundTo 24 (roundTo 53 (roundTo 53 (c - s) / D))) ∧
    0 ≤ roundTo 24 (roundTo 53 (roundTo 53 (c - s) / D)) ∧
    roundTo 24 (roundTo 53 (roundTo 53 (c - s) / D)) ≤ 1 := by
  have hx0 : 0 ≤ roundTo 53 (c - s) := roundTo_nonneg 53 (by norm_num) h0
  have hx1 : roundTo 53 (c - s) ≤ D := by
    have := roundTo_mono 53 (by norm_num) h1
    rwa [hrep] at this
  have hone53 : roundTo 53 1 = 1 := by simpa using roundTo_intCast 53 1 (by norm_num)
  have hone24 : roundTo 24 1 = 1 := by simpa using roundTo_intCast 24 1 (by norm_num)
  have hy0 : 0 ≤ roundTo 53 (roundTo 53 (c - s) / D) :=
    roundTo_nonneg 53 (by norm_num) (div_nonneg hx0 hD.le)
  have hy1 : roundTo 53 (roundTo 53 (c - s) / D) ≤ 1 := by
    have := roundTo_mono 53 (by norm_num) ((div_le_one hD).mpr hx1)
    rwa [hone53] at this
  refine ⟨?_, roundTo_nonneg 24 (by norm_num) hy0, ?_⟩
  · simp only [progress, Dbl.sub, div_fin_pos _ _ hD, Dbl.toFloat, sub_zero,
      roundTo_idem 53 (by norm_num)]
  · have := roundTo_mono 24 (by norm_num) hy1
    rwa [hone24] at this

/-- C1 (as amended). Let an `int` target with value `a` be bound with `to(target, b)` (one
cycle, no delay set), `a` and `b` at a distance below `INT_MAX`, in a state with linear easing
and a duration `D > 0` started at clock `s`; the state may hold other bindings, but no later
binding of the state and no binding of another active state is on the target.  A tick at a clock `c` with
`0 ≤ c - s ≤ D` leaves the target equal to `a + truncate(t * (b - a))`, the product rounded to
`double`, where `t`, in `[0, 1]`, is the progress `(c - s) / D` as `step` computes it: in
`double` arithmetic and then rounded to `float`.  The tick with `c - s = D / 2` yields
`a + truncate((b - a) / 2)` and the tick with `c - s = D` yields `b`. -/
theorem C1_linear_tick (w : World) (i : ImplId) (pre : List TweenAttr) (att : TweenAttr)
    (post : List TweenAttr) (b : ℤ) (s c D : ℚ)
    (hi : i ∈ w.allTweens) (hargs : (w.impl i).args = pre ++ att :: post)
    (hpost : ∀ a' ∈ post, a'.target ≠ att.target) (hbuilt : BuiltBy att b 1)
    (hdelay : att.delay = .fin 0) (hlin : (w.impl i).tween_func = linear_fn)
    (hs : (w.impl i).startTime = .fin s) (hD : (w.impl i).totalTime = .fin D)
    (hDpos : 0 < D) (hDrep : roundTo 53 D = D) (hc0 : 0 ≤ c - s) (hc1 : c - s ≤ D)
    (ha1 : -2147483648 ≤ att.startValue) (ha2 : att.startValue ≤ 2147483647)
    (hb1 : -2147483648 ≤ b) (hb2 : b ≤ 2147483647) (hab : |b - att.startValue| < 2147483647)
    (hothers : ∀ j ∈ w.allTweens, j ≠ i → ∀ a' ∈ (w.impl j).args, a'.target ≠ att.target) :
    ∃ t : ℚ, progress (.fin c) (.fin s) (.fin 0) (.fin D) = .fin t ∧ 0 ≤ t ∧ t ≤ 1 ∧
      (Tween.updateTweens (.fin c) w).2.heap att.target =
        att.startValue + truncQ (roundTo 53 (t * ((b - att.startValue : ℤ) : ℚ))) ∧
      (c - s = D / 2 → (Tween.updateTweens (.fin c) w).2.heap att.target =
        att.startValue + truncQ (((b - att.startValue : ℤ) : ℚ) / 2)) ∧
      (c - s = D → (Tween.updateTweens (.fin c) w).2.heap att.target = b) := by
  obtain ⟨hp, hq0, hq1⟩ := progress_unit c s D hDpos hDrep hc0 hc1
  have hheap : (Tween.updateTweens (.fin c) w).2.heap att.target =
      att.startValue + truncQ (roundTo 53
        (roundTo 24 (roundTo 53 (roundTo 53 (c - s) / D)) * ((b - att.startValue : ℤ) : ℚ))) := by
    rw [← newValue_unit att b _ hbuilt ha1 ha2 hb1 hb2 hab hq0 hq1]
    apply updateTweens_heap att.target _ i (.fin c) w hi hothers
    intro w' _ htime
    rw [step_heap_of_last (w.impl i) pre post att w' _ hargs hpost (fun st hst =>
      stepAttr_heap_unit (w.impl i) st att _
        (by rw [hst, htime, hs, hD, hdelay]; exact hp) hq0 hq1), hlin]
    rfl
  have hδ : |b - att.startValue| < 2 ^ 53 := lt_trans hab (by norm_num)
  have hrepD : Rep 53 D := by
    have := Rep_roundTo 53 (by norm_num) D
    rwa [hDrep] at this
  refine ⟨_, hp, hq0, hq1, hheap, ?_, ?_⟩
  · intro hhalf
    have e1 : roundTo 53 (c - s) = D / 2 := by
      rw [hhalf]; exact roundTo_exact 53 (Rep_half 53 hrepD)
    have e2 : D / 2 / D = 1 / 2 := by field_simp; ring
    have e3 : roundTo 53 (1 / 2) = 1 / 2 := by decide!
    have e4 : roundTo 24 (1 / 2) = 1 / 2 := by decide!
    have e5 : roundTo 53 (1 / 2 * ((b - att.startValue : ℤ) : ℚ)) =
        ((b - att.startValue : ℤ) : ℚ) / 2 := by
      have := roundTo_exact 53 (Rep_half 53 (Rep_intCast 53 (b - att.startValue) hδ))
      rw [← this]
      congr 1
      ring
    rw [hheap, e1, e2, e3, e4, e5]
  · intro hend
    have e1 : roundTo 53 (c - s) = D := by rw [hend]; exact hDrep
    have e2 : D / D = 1 := div_self hDpos.ne'
    have e3 : roundTo 53 1 = 1 := by decide!
    have e4 : roundTo 24 1 = 1 := by decide!
    rw [hheap, e1, e2, e3, e4, one_mul, roundTo_intCast 53 _ hδ, truncQ_intCast]
    ring

/-- C1, on the scenario of the specification, `score` going `0 -> 10` over 2 seconds from clock
0: the tick at clock 1 leaves 5 and the tick at clock 2 leaves 10; and the same on the handle of
the unit test, whose state holds the binding of `score` and the binding of `energy`. -/
theorem C1_linear_tick_witness :
    (Tween.updateTweens (.fin 1) scoreWorld).2.heap 0 = 5 ∧
    (Tween.updateTweens (.fin 2) scoreWorld).2.heap 0 = 10 ∧
    ((Tween.start 0 demoWorld).impl 0).args = [demoScore, demoEnergy] ∧
    (Tween.updateTweens (.fin 1) (Tween.start 0 demoWorld)).2.heap 0 = 5 ∧
    (Tween.updateTweens (.fin 2) (Tween.start 0 demoWorld)).2.heap 0 = 10 := by
  obtain ⟨_, _, _, _, _, h5, _⟩ := C1_linear_tick scoreWorld 0 [] (TweenAttr.new zeroHeap 0 10 1)
    [] 10 0 1 2 (by decide!) (by decide!) (by simp) (by decide!) (by decide!) rfl (by decide!)
    (by decide!) (by norm_num) (by decide!) (by norm_num) (by norm_num) (by decide!)
    (by decide!) (by decide!) (by decide!) (by decide!) (by decide!)
  obtain ⟨_, _, _, _, _, _, h6⟩ := C1_linear_tick scoreWorld 0 [] (TweenAttr.new zeroHeap 0 10 1)
    [] 10 0 2 2 (by decide!) (by decide!) (by simp) (by decide!) (by decide!) rfl (by decide!)
    (by decide!) (by norm_num) (by decide!) (by norm_num) (by norm_num) (by decide!)
    (by decide!) (by decide!) (by decide!) (by decide!) (by decide!)
  obtain ⟨_, _, _, _, _, k5, _⟩ := C1_linear_tick (Tween.start 0 demoWorld) 0 [] demoScore
    [demoEnergy] 10 0 1 2 (by decide!) (by decide!) (by decide!) (by decide!) (by decide!) rfl
    (by decide!) (by decide!) (by norm_num) (by decide!) (by norm_num) (by norm_num)
    (by decide!) (by decide!) (by decide!) (by decide!) (by decide!) (by decide!)
  obtain ⟨_, _, _, _, _, _, k6⟩ := C1_linear_tick (Tween.start 0 demoWorld) 0 [] demoScore
    [demoEnergy] 10 0 2 2 (by decide!) (by decide!) (by decide!) (by decide!) (by decide!) rfl
    (by decide!) (by decide!) (by norm_num) (by decide!) (by norm_num) (by norm_num)
    (by decide!) (by decide!) (by decide!) (by decide!) (by decide!) (by decide!)
  exact ⟨(h5 (by norm_num)).trans (by decide!), h6 (by norm_num), by decide!,
    (k5 (by norm_num)).trans (by decide!), k6 (by norm_num)⟩

/-- C1 (the claim as stated fails). (1) `0 -> 10` over 10 seconds from clock 0, tick at clock 7:
the progress 7/10 is rounded to `float`, below 7/10, and the target holds 6 where the claim says
`truncate((7 / 10) * 10) = 7`.  (2) `0 -> INT_MAX` over 1 second from clock 0, tick at clock 1
(`c = s + D`): `fmod(INT_MAX, INT_MAX) = 0`, so the target holds 0 where the claim says `b`.
(3) Two states bound to the same variable, `0 -> 10` and `0 -> 20` over 2 seconds from clock 0,
tick at clock 1: the second state writes last, so the target holds 10 where the claim says 5 for
the binding of the first state.  (4) One state that holds both of these bindings, made before its
start: the second binding writes last, and the target holds 10 where the claim says 5 for the
first binding.  (5) A binding `0 -> 10` on which a delay of 1 second is set, in a state of 2
seconds started at clock 0, tick at clock 1: the progress is 0 and the target holds 0 where the
claim says 5. -/
theorem C1_counterexample :
    (Tween.updateTweens (.fin 7) (linearWorld 10 (.fin 10))).2.heap 0 = 6 ∧
    (0 : ℤ) + truncQ (((7 : ℚ) - 0) / 10 * ((10 : ℚ) - 0)) = 7 ∧
    (Tween.updateTweens (.fin 1) (linearWorld 2147483647 (.fin 1))).2.heap 0 = 0 ∧
    twoLinearWriters.allTweens = [0, 1] ∧
    (twoLinearWriters.impl 0).args = [TweenAttr.new zeroHeap 0 10 1] ∧
    (Tween.updateTweens (.fin 1) twoLinearWriters).2.heap 0 = 10 ∧
    (0 : ℤ) + truncQ (((1 : ℚ) - 0) / 2 * ((10 : ℚ) - 0)) = 5 ∧
    twoOwnBindings.allTweens = [0] ∧
    (twoOwnBindings.impl 0).args = [TweenAttr.new zeroHeap 0 10 1, TweenAttr.new zeroHeap 0 20 1] ∧
    (Tween.updateTweens (.fin 1) twoOwnBindings).2.heap 0 = 10 ∧
    (delayedWorld.impl 0).args.map (fun a => (a.target, a.startValue, a.delta, a.delay)) =
      [(0, 0, 10, .fin 0), (1, 0, 10, .fin 1)] ∧
    (Tween.updateTweens (.fin 1) delayedWorld).2.heap 1 = 0 := by
  decide!

/-! ## C2: completion gating -/

/-- The progress of a binding delayed by half the duration does not exceed 1 at a clock of at
most `s + 1.5 * D`, although it is computed with four roundings. -/
theorem progress_delayed_le_one (c s D : ℚ) (hD : 0 < D) (hc : c ≤ s + 3 / 2 * D) :
    Dbl.lt (.fin 1) (progress (.fin c) (.fin s) (.fin (D / 2)) (.fin D)) = false := by
  have hu : (2 : ℚ) ^ (-((53 : ℕ) : ℤ)) = 1 / 9007199254740992 := by norm_num [zpow_neg]
  -- the elapsed time after the first rounding
  have hx : roundTo 53 (c - s) ≤ 3 / 2 * D * (1 + 1 / 9007199254740992) := by
    rcases le_total (c - s) 0 with h | h
    · have := roundTo_nonpos 53 (by norm_num) h
      nlinarith
    · have := roundTo_le_add 53 h
      rw [hu] at this
      nlinarith
  -- after the delay is subtracted
  have hy : roundTo 53 (roundTo 53 (c - s) - D / 2) ≤ D * (1 + 1 / 16777216) := by
    rcases le_total (roundTo 53 (c - s) - D / 2) 0 with h | h
    · have := roundTo_nonpos 53 (by norm_num) h
      nlinarith
    · have := roundTo_le_add 53 h
      rw [hu] at this
      nlinarith
  have hdiv : roundTo 53 (roundTo 53 (c - s) - D / 2) / D ≤ 1 + 1 / 16777216 := by
    rw [div_le_iff₀ hD]; linarith
  have e53 : roundTo 53 (1 + 1 / 16777216) = 1 + 1 / 16777216 := by decide!
  have e24 : roundTo 24 (1 + 1 / 16777216) = 1 := by decide!
  have hz : roundTo 24 (roundTo 53 (roundTo 53 (roundTo 53 (c - s) - D / 2) / D)) ≤ 1 := by
    have h1 := roundTo_mono 53 (by norm_num) hdiv
    rw [e53] at h1
    have h2 := roundTo_mono 24 (by norm_num) h1
    rwa [e24] at h2
  simp only [progress, Dbl.sub, div_fin_pos _ _ hD, Dbl.toFloat, Dbl.lt,
    decide_eq_false_iff_not, not_lt]
  exact hz

/-- C2 (as amended). A state that does not repeat is reported finished by `step` exactly when
every one of its bindings has, on that tick, a progress `t` above 1, where `t` is
`(c - startTime - delay) / totalTime` as `step` computes it: in `double` arithmetic and then
rounded to `float`.  Hence a state of duration `D > 0` started at `s` that holds a binding of delay
`D / 2` (next to any others) stays in the active set, and its completion callbacks are not
dispatched, on every tick at a clock `c ≤ s + 1.5 * D`. -/
theorem C2_completion_gating :
    (∀ (I : TweenImpl) (w : World), I.do_rep = false →
      ((I.step w).1 = false ↔ ∀ a ∈ I.args,
        Dbl.lt (.fin 1) (progress w.currentTime I.startTime a.delay I.totalTime) = true)) ∧
    (∀ (w : World) (i : ImplId) (a : TweenAttr) (s c D : ℚ), i ∈ w.allTweens →
      (w.impl i).do_rep = false → (w.impl i).startTime = .fin s → (w.impl i).totalTime = .fin D →
      0 < D → a ∈ (w.impl i).args → a.delay = .fin (D / 2) → c ≤ s + 3 / 2 * D →
      i ∈ (Tween.updateTweens (.fin c) w).2.allTweens ∧
      ∃ d : List Dispatch, (Tween.updateTweens (.fin c) w).2.log = w.log ++ d ∧
        ∀ r, Dispatch.complete i r ∉ d) := by
  have hiff : ∀ (I : TweenImpl) (w : World), I.do_rep = false →
      ((I.step w).1 = false ↔ ∀ a ∈ I.args,
        Dbl.lt (.fin 1) (progress w.currentTime I.startTime a.delay I.totalTime) = true) := by
    intro I w hrep
    rw [step_finished_iff]
    constructor
    · intro h a ha
      have := h a ha
      simp only [ends, Bool.and_eq_true] at this
      exact this.1.2
    · intro h a ha
      simp [ends, h a ha, hrep, lt_one_imp_not_lt_zero _ (h a ha)]
  refine ⟨hiff, ?_⟩
  intro w i a s c D hi hrep hs hD hDpos ha hdelay hc
  have hflag : ((w.impl i).step { w with currentTime := .fin c }).1 = true := by
    by_contra hne
    have hfin := (hiff (w.impl i) { w with currentTime := .fin c } hrep).mp
      (by simpa using hne) a ha
    simp only [hs, hD, hdelay] at hfin
    rw [progress_delayed_le_one c s D hDpos hc] at hfin
    exact Bool.false_ne_true hfin
  obtain ⟨h1, _, h3⟩ := tick_kept (.fin c) w i hi hflag
  exact ⟨h1, h3⟩

/-- C2, on a state with bindings of delay 0 and 1 and a duration of 2 started at clock 0: the
tick at clock 3 (`= s + 1.5 * D`) keeps the state, although the first binding has ended. -/
theorem C2_completion_gating_witness :
    Dbl.lt (.fin 1) (progress (.fin 3) (.fin 0) (.fin 0) (.fin 2)) = true ∧
    0 ∈ (Tween.updateTweens (.fin 3) delayedWorld).2.allTweens :=
  ⟨by decide!,
   (C2_completion_gating.2 delayedWorld 0
      { TweenAttr.new zeroHeap 1 10 1 with delay := .fin 1 } 0 3 2 (by decide!)
      (by decide!) (by decide!) (by decide!) (by norm_num) (by decide!) (by decide!)
      (by norm_num)).1⟩

/-- C2 (the claim as stated fails). One binding without delay, `D = 1`, started at clock 0, tick
at clock `1 + 2^-30`: the binding satisfies `c - startTime - delay > D`, but its progress is
rounded to the `float` 1.0, which is not above 1, so `step` does not report the state finished
and the state stays in the active set. -/
theorem C2_counterexample :
    ((linearWorld 10 (.fin 1)).impl 0).do_rep = false ∧
    ((linearWorld 10 (.fin 1)).impl 0).totalTime = .fin 1 ∧
    ((linearWorld 10 (.fin 1)).impl 0).startTime = .fin 0 ∧
    ((linearWorld 10 (.fin 1)).impl 0).args.map (fun a => a.delay) = [.fin 0] ∧
    roundTo 53 (1 + 1 / 1073741824) = 1 + 1 / 1073741824 ∧
    ((1 : ℚ) + 1 / 1073741824) - 0 - 0 > 1 ∧
    (((linearWorld 10 (.fin 1)).impl 0).step
      { linearWorld 10 (.fin 1) with currentTime := .fin (1 + 1 / 1073741824) }).1 = true ∧
    (Tween.updateTweens (.fin (1 + 1 / 1073741824)) (linearWorld 10 (.fin 1))).2.allTweens = [0] := by
  decide!

/-! ## C3: `finish()` -/

theorem foldl_set_frame (v : Dbl) (t : Option ImplId) (l : List TweenAttr) : ∀ w : World,
    (l.foldl (fun w a => a.set v t w) w).allTweens = w.allTweens ∧
    ∀ x : Addr, (∀ a ∈ l, a.target ≠ x) →
      (l.foldl (fun w a => a.set v t w) w).heap x = w.heap x := by
  induction l with
  | nil => intro w; exact ⟨rfl, fun _ _ => rfl⟩
  | cons b l ih =>
    intro w
    obtain ⟨h1, h2⟩ := ih (b.set v t w)
    simp only [List.foldl_cons]
    refine ⟨by rw [h1, set_allTweens], ?_⟩
    intro x hx
    rw [h2 x (fun a ha => hx a (List.mem_cons_of_mem _ ha))]
    exact set_heap_other b v t w x (fun h => hx b (List.mem_cons_self _ _) h.symm)

/-- After `set(v)` on every binding of a list with pairwise distinct targets, every target
holds the value computed by its binding. -/
theorem foldl_set_heap (v : Dbl) (t : Option ImplId) (l : List TweenAttr) : ∀ w : World,
    l.Pairwise (fun a b => a.target ≠ b.target) →
    ∀ a ∈ l, (l.foldl (fun w a => a.set v t w) w).heap a.target = a.newValue v := by
  induction l with
  | nil => intro w _ a ha; cases ha
  | cons b l ih =>
    intro w hp a ha
    rw [List.pairwise_cons] at hp
    simp only [List.foldl_cons]
    rcases List.mem_cons.mp ha with hab | hal
    · subst hab
      rw [(foldl_set_frame v t l (a.set v t w)).2 a.target (fun c hc => (hp.1 c hc).symm)]
      exact set_heap_target a v t w
    · exact ih (b.set v t w) hp.2 a hal

/-- The value written by `set(1.0)` is the end value of a binding built for a traversal. -/
theorem newValue_one_of_traversal (a : TweenAttr) (e c : ℤ) (hb : BuiltBy a e c)
    (ht : Traversal a.startValue e c) : a.newValue (.fin 1) = e := by
  obtain ⟨hd, hm⟩ := hb
  obtain ⟨s1, s2, e1, e2, hcase⟩ := ht
  rcases hcase with ⟨hc, habs⟩ | ⟨hc, hse, hov⟩
  · subst hc
    rw [abs_lt] at habs
    have hw : wrapInt (e - a.startValue) = e - a.startValue :=
      wrapInt_of_range _ (by omega) (by omega)
    simp only [TweenAttr.new, ne_eq, not_true_eq_false, ↓reduceIte, hw] at hd hm
    rw [newValue_one_linear a hm (by rw [hd, abs_lt]; omega), hd]
    rw [show a.startValue + (e - a.startValue) = e by ring]
    exact wrapInt_of_range e e1 e2
  · have hc1 : c ≠ 1 := by omega
    have hmul : (e - a.startValue + 1) * 2 ≤ (e - a.startValue + 1) * c :=
      mul_le_mul_of_nonneg_left hc (by omega)
    have hw0 : wrapInt (e - a.startValue) = e - a.startValue :=
      wrapInt_of_range _ (by omega) (by omega)
    have hw1 : wrapInt (e - a.startValue + 1) = e - a.startValue + 1 :=
      wrapInt_of_range _ (by omega) (by omega)
    have hw2 : wrapInt ((e - a.startValue + 1) * c - 1) = (e - a.startValue + 1) * c - 1 :=
      wrapInt_of_range _ (by omega) hov
    simp only [TweenAttr.new, if_pos hc1, hw0, hw1, hw2] at hd hm
    rw [newValue_one_cyclic a c (by omega) (by omega) (by rw [hd, hm]) (by rw [hd]; exact hov), hm]
    rw [show a.startValue + (e - a.startValue + 1 - 1) = e by ring]
    exact wrapInt_of_range e e1 e2

/-- C3 (as amended). In a scheduler state reached from the empty scheduler, let the bindings of
a handle be on pairwise distinct `int` targets, each built by `to(target, end, cycles)` for a
traversal: one cycle over a distance below `INT_MAX`, or at least two cycles of an ascending
range whose scaled distance fits an `int`.  Directly after `finish()` every bound target holds
its end value and the state of the handle is not in the active set. -/
theorem C3_finish_reaches_end_values (w : World) (h : ImplId) (e c : TweenAttr → ℤ)
    (hreach : ∃ (heap : Addr → ℤ) (ops : List Op), w = run ops (World.init heap))
    (hbuilt : ∀ a ∈ (w.impl h).args, BuiltBy a (e a) (c a) ∧ Traversal a.startValue (e a) (c a))
    (hdistinct : (w.impl h).args.Pairwise (fun a b => a.target ≠ b.target)) :
    (∀ a ∈ (w.impl h).args, (Tween.finish h w).heap a.target = e a) ∧
    h ∉ (Tween.finish h w).allTweens := by
  have hnodup : w.allTweens.Nodup := by
    obtain ⟨heap, ops, hw⟩ := hreach
    rw [hw]
    exact (inv_run ops _ (inv_init heap)).1
  constructor
  · intro a ha
    have := foldl_set_heap (.fin 1) (some h) (w.impl h).args w hdistinct a ha
    unfold Tween.finish Tween.cancel
    simp only []
    rw [this]
    exact newValue_one_of_traversal a (e a) (c a) (hbuilt a ha).1 (hbuilt a ha).2
  · unfold Tween.finish Tween.cancel
    simp only []
    rw [(foldl_set_frame (.fin 1) (some h) (w.impl h).args w).1]
    exact fun hmem => ((List.Nodup.mem_erase_iff hnodup).mp hmem).1 rfl

/-- C3, on a started handle with a single-traversal binding `0 -> 10` and a cyclic binding
`0 -> 4` (3 cycles): after `finish()` the targets hold 10 and 4 and the state is not active. -/
theorem C3_finish_witness :
    0 ∈ twoBindings.allTweens ∧
    ((twoBindings.impl 0).args.map (fun a => (Tween.finish 0 twoBindings).heap a.target))
      = [10, 4] ∧
    0 ∉ (Tween.finish 0 twoBindings).allTweens := by
  have h := C3_finish_reaches_end_values twoBindings 0 twoBindingsEnd twoBindingsCycles
    ⟨zeroHeap, _, rfl⟩ (by decide!) (by decide!)
  refine ⟨by decide!, ?_, h.2⟩
  rw [List.map_congr_left h.1]
  decide!

/-- C3 (the claim as stated fails). (1) A binding `4 -> 0` in 2 cycles: `finish()` leaves 3.
(2) A binding `0 -> INT_MAX`: `finish()` leaves 0.  (3) Two bindings `0 -> 10` and `0 -> 20` of one
handle on the same variable: `finish()` leaves 20, so the first binding does not end at 10.
(4) A binding `0 -> 4` with a cycle count of 0: `finish()` leaves -1.  (5) A binding `0 -> 2^30`
in 4 cycles, whose scaled distance does not fit an `int`: `finish()` leaves 3. -/
theorem C3_counterexample :
    (Tween.finish 0 (run [.make (.fin 0) (.fin 0), .to 0 7 0 2] (World.init (fun _ => 4)))).heap 7
      = 3 ∧
    (Tween.finish 0 (run [.make (.fin 0) (.fin 0), .to 0 7 2147483647 1]
      (World.init zeroHeap))).heap 7 = 0 ∧
    (Tween.finish 0 (run [.make (.fin 0) (.fin 0), .to 0 7 10 1, .to 0 7 20 1]
      (World.init zeroHeap))).heap 7 = 20 ∧
    (Tween.finish 0 (run [.make (.fin 0) (.fin 0), .to 0 7 4 0] (World.init zeroHeap))).heap 7
      = -1 ∧
    (Tween.finish 0 (run [.make (.fin 0) (.fin 0), .to 0 7 1073741824 4]
      (World.init zeroHeap))).heap 7 = 3 := by
  decide!

/-! ## C4: implicit registration -/

/-- C4 (the code departs from the claim). A state is made at clock 0, the clock advances to 1
and the handle is released: the registered copy (identity 1) keeps `startTime = 0`, the clock of
`make`, so the tick at clock 2 finds it at its end and writes 10.  Had `start()` been called at
the moment of release instead, `startTime` would be 1 and the same tick would write 5. -/
theorem C4_discard_keeps_make_time :
    (run madeEarly (World.init zeroHeap)).currentTime = .fin 1 ∧
    ((run madeEarly (World.init zeroHeap)).impl 0).isTweening = false ∧
    (run (madeEarly ++ [.discard 0]) (World.init zeroHeap)).allTweens = [1] ∧
    ((run (madeEarly ++ [.discard 0]) (World.init zeroHeap)).impl 1).startTime = .fin 0 ∧
    (run (madeEarly ++ [.discard 0, .tick (.fin 2)]) (World.init zeroHeap)).heap 0 = 10 ∧
    (run (madeEarly ++ [.start 0]) (World.init zeroHeap)).allTweens = [0] ∧
    ((run (madeEarly ++ [.start 0]) (World.init zeroHeap)).impl 0).startTime = .fin 1 ∧
    (run (madeEarly ++ [.start 0, .tick (.fin 2)]) (World.init zeroHeap)).heap 0 = 5 := by
  decide!

/-! ## C5: bindings on one target -/

/-- The scan of `to` filters the bindings of the states in the list and changes nothing else. -/
theorem eraseFold_spec (x : Addr) (l : List ImplId) : ∀ w : World,
    (l.foldl (fun w t => w.modify t (fun I =>
      { I with args := I.args.filter (fun a => !a.compare x) })) w).allTweens = w.allTweens ∧
    (l.foldl (fun w t => w.modify t (fun I =>
      { I with args := I.args.filter (fun a => !a.compare x) })) w).heap = w.heap ∧
    ∀ i, (l.foldl (fun w t => w.modify t (fun I =>
      { I with args := I.args.filter (fun a => !a.compare x) })) w).impl i =
      if i ∈ l then { w.impl i with args := (w.impl i).args.filter (fun a => !a.compare x) }
      else w.impl i := by
  induction l with
  | nil => intro w; simp
  | cons t l ih =>
    intro w
    obtain ⟨h1, h2, h3⟩ := ih (w.modify t (fun I =>
      { I with args := I.args.filter (fun a => !a.compare x) }))
    simp only [List.foldl_cons]
    refine ⟨h1, h2, ?_⟩
    intro i
    rw [h3 i, modify_impl]
    by_cases hit : i = t
    · subst hit
      by_cases hil : i ∈ l
      · simp [hil, List.filter_filter]
      · simp [hil]
    · by_cases hil : i ∈ l
      · simp [hil, hit]
      · simp [hil, hit]

/-- After `to`, the active set is unchanged and the only binding on the target held by one of
its states is the new one. -/
theorem to_active_bindings (h : ImplId) (x : Addr) (v c : ℤ) (w : World) :
    (Tween.to h x v c w).allTweens = w.allTweens ∧
    ∀ i ∈ (Tween.to h x v c w).allTweens,
      ((Tween.to h x v c w).impl i).args.filter (fun a => a.compare x) =
        if i = h then [TweenAttr.new w.heap x (wrapInt v) c] else [] := by
  obtain ⟨h1, _, h3⟩ := eraseFold_spec x w.allTweens w
  have hall : (Tween.to h x v c w).allTweens = w.allTweens := by
    unfold Tween.to World.modify eraseTarget
    exact h1
  refine ⟨hall, ?_⟩
  intro i hi
  rw [hall] at hi
  have hnew : (TweenAttr.new w.heap x (wrapInt v) c).compare x = true := by
    unfold TweenAttr.new TweenAttr.compare
    split_ifs <;> simp
  unfold Tween.to
  rw [modify_impl]
  unfold eraseTarget
  by_cases hih : i = h
  · subst hih
    simp only [↓reduceIte, h3 i, hi, List.filter_append, List.filter_filter]
    simp [hnew]
  · simp only [hih, ↓reduceIte, h3 i, hi, List.filter_filter]
    simp

/-- The same after `from`. -/
theorem from_active_bindings (h : ImplId) (x : Addr) (v : ℤ) (w : World) :
    (Tween.from_ h x v w).allTweens = w.allTweens ∧
    ∀ i ∈ (Tween.from_ h x v w).allTweens,
      ((Tween.from_ h x v w).impl i).args.filter (fun a => a.compare x) =
        if i = h then
          [TweenAttr.new (Function.update w.heap x (wrapInt v)) x (wrapInt (w.heap x)) 1]
        else [] :=
  to_active_bindings h x (w.heap x) 1 { w with heap := Function.update w.heap x (wrapInt v) }

/-- C5 (as amended). Directly after `to(target, ...)`, and after `from(target, ...)`, the only
binding on the target held by a state of the active set is the new one, in the state of the
calling handle; the active set itself is not changed by the call. -/
theorem C5_to_leaves_one_active_binding (h : ImplId) (x : Addr) (v c : ℤ) (w : World) :
    (Tween.to h x v c w).allTweens = w.allTweens ∧
    (∀ i ∈ (Tween.to h x v c w).allTweens,
      ((Tween.to h x v c w).impl i).args.filter (fun a => a.compare x) =
        if i = h then [TweenAttr.new w.heap x (wrapInt v) c] else []) ∧
    (∀ i ∈ (Tween.from_ h x v w).allTweens,
      ((Tween.from_ h x v w).impl i).args.filter (fun a => a.compare x) =
        if i = h then
          [TweenAttr.new (Function.update w.heap x (wrapInt v)) x (wrapInt (w.heap x)) 1]
        else []) :=
  ⟨(to_active_bindings h x v c w).1, (to_active_bindings h x v c w).2,
   (from_active_bindings h x v w).2⟩

/-- C5, a closed instance of the amended claim: the second handle of `twoWriters` binds the
variable again once both states are active; afterwards only the new binding remains. -/
theorem C5_to_leaves_one_active_binding_witness :
    1 ∈ (Tween.to 1 7 30 1 twoWriters).allTweens ∧
    ((Tween.to 1 7 30 1 twoWriters).impl 1).args.filter (fun a => a.compare 7) =
      [TweenAttr.new twoWriters.heap 7 (wrapInt 30) 1] :=
  ⟨by decide!,
   ((C5_to_leaves_one_active_binding 1 7 30 1 twoWriters).2.1 1 (by decide!)).trans (by simp)⟩

/-- C5 (the claim as stated fails). Two handles bind the variable at address 7 before either is
started; once both are started the active set holds two bindings on that variable. -/
theorem C5_counterexample :
    twoWriters.allTweens = [0, 1] ∧ activeBindings twoWriters 7 = 2 ∧
    ¬ (activeBindings twoWriters 7 ≤ 1) := by
  decide!

/-! ## C6: a repeating state never completes -/

/-- A repeating state with at least one binding is never reported finished. -/
theorem step_repeating (I : TweenImpl) (w : World) (hrep : I.do_rep = true) (hargs : I.args ≠ []) :
    (I.step w).1 = true := by
  rw [step_flag]
  have h0 : I.args.countP (ends I w.currentTime) = 0 := by
    rw [List.countP_eq_zero]
    intro a _
    simp [ends, hrep]
  have : 0 < I.args.length := List.length_pos.mpr hargs
  simp [h0, this]

/-- One tick keeps a repeating state with a binding and does not dispatch its completion. -/
theorem tick_repeating (t : Dbl) (w : World) (i : ImplId) (hi : i ∈ w.allTweens)
    (hrep : (w.impl i).do_rep = true) (hargs : (w.impl i).args ≠ []) :
    i ∈ (Tween.updateTweens t w).2.allTweens ∧ (Tween.updateTweens t w).2.impl = w.impl ∧
    ∃ d : List Dispatch, (Tween.updateTweens t w).2.log = w.log ++ d ∧
      ∀ r, Dispatch.complete i r ∉ d :=
  tick_kept t w i hi (step_repeating (w.impl i) { w with currentTime := t } hrep hargs)

/-- C6 (as amended). A state of the active set that has the repeat flag set and holds at least
one binding is still in the active set after any finite sequence of ticks, whatever their clock
values, and none of these ticks dispatches its completion callbacks. -/
theorem C6_repeat_with_binding_never_completes (ticks : List Dbl) (w : World) (i : ImplId)
    (hi : i ∈ w.allTweens) (hrep : (w.impl i).do_rep = true) (hargs : (w.impl i).args ≠ []) :
    i ∈ (run (ticks.map Op.tick) w).allTweens ∧
    ∃ d : List Dispatch, (run (ticks.map Op.tick) w).log = w.log ++ d ∧
      ∀ r, Dispatch.complete i r ∉ d := by
  induction ticks generalizing w with
  | nil => exact ⟨hi, [], by simp [run], by simp⟩
  | cons t ticks ih =>
    obtain ⟨h1, h2, ⟨d1, hd1, hn1⟩⟩ := tick_repeating t w i hi hrep hargs
    obtain ⟨g1, ⟨d2, hd2, hn2⟩⟩ := ih (Tween.updateTweens t w).2 h1 (by rw [h2]; exact hrep)
      (by rw [h2]; exact hargs)
    have hrun : run ((t :: ticks).map Op.tick) w
        = run (ticks.map Op.tick) (Tween.updateTweens t w).2 := by
      simp [run, Op.apply]
    rw [hrun]
    refine ⟨g1, d1 ++ d2, by rw [hd2, hd1, List.append_assoc], ?_⟩
    intro r hr
    rcases List.mem_append.mp hr with h | h
    · exact hn1 r h
    · exact hn2 r h

/-- C6, on a repeating state with one binding and one completion listener: after ticks at clocks
5, 100 and 1000 (the duration is 1) the state is still registered. -/
theorem C6_repeat_with_binding_witness :
    0 ∈ (run ([.fin 5, .fin 100, .fin 1000].map Op.tick) repeatWorld).allTweens :=
  (C6_repeat_with_binding_never_completes [.fin 5, .fin 100, .fin 1000] repeatWorld 0
    (by decide!) (by decide!) (by decide!)).1

/-- C6 (the claim as stated fails). The repeating state 0 is in the active set, but its only
binding was erased when another handle bound the same variable; the next tick removes the state
and dispatches its completion callbacks. -/
theorem C6_counterexample :
    0 ∈ repeatEmptied.allTweens ∧ (repeatEmptied.impl 0).do_rep = true ∧
    0 ∉ (run [.tick (.fin (3 / 4))] repeatEmptied).allTweens ∧
    (run [.tick (.fin (3 / 4))] repeatEmptied).log = repeatEmptied.log ++ [Dispatch.complete 0 []] := by
  decide!

/-! ## C7: the end of a ping-pong state -/

/-- The target of the only binding of a ping-pong state after `step`, when the progress exceeds
1: the value of the second call of `set`. -/
theorem step_single_pingpong (I : TweenImpl) (att : TweenAttr) (w : World) (t : Dbl)
    (hargs : I.args = [att])
    (hprog : progress w.currentTime I.startTime att.delay I.totalTime = t)
    (ht : Dbl.lt (.fin 1) t = true) (hrep : I.do_rep = false) (hback : I.backto = true) :
    (I.step w).2.heap att.target = att.newValue (I.tween_func t) := by
  unfold TweenImpl.step
  simp only [hargs, List.foldl_cons, List.foldl_nil]
  unfold stepAttr
  simp only [hprog, ht, lt_one_imp_not_lt_zero t ht, hrep, hback, Bool.false_eq_true, ↓reduceIte]
  exact set_heap_target _ _ _ _

/-- C7 (the code departs from the claim). A state with `backto` set and linear easing, bound
0 -> 10 over 2 seconds and started at clock 0, is ticked at clock 3: the progress is 3/2 and the
binding is counted as ended (the state leaves the active set), but after `set(0.0)` the loop body
falls through to `set(tween_func(t))`, so the target ends at 15 and not at the start value 0
that `set(0.0)` computes.  With the easing of `sine()` itself the target ends, for every library
function `sin`, at the value of `set(sine_fn(3/2))`. -/
theorem C7_pingpong_end_falls_through :
    (pingPongWorld.impl 0).backto = true ∧ (pingPongWorld.impl 0).do_rep = false ∧
    pingPongWorld.allTweens = [0] ∧
    ((pingPongWorld.impl 0).args.map
      (fun a => progress (.fin 3) (pingPongWorld.impl 0).startTime a.delay
        (pingPongWorld.impl 0).totalTime)) = [.fin (3 / 2)] ∧
    ((pingPongWorld.impl 0).args.map (fun a => a.newValue (.fin 0))) = [0] ∧
    (Tween.updateTweens (.fin 3) pingPongWorld).2.allTweens = [] ∧
    (Tween.updateTweens (.fin 3) pingPongWorld).2.heap 0 = 15 ∧
    (Tween.updateTweens (.fin 3) pingPongWorld).2.log =
      [Dispatch.update 0 [], Dispatch.complete 0 []] ∧
    ∀ sin : Dbl → Dbl, (Tween.updateTweens (.fin 3) (sineWorld sin)).2.heap 0 =
      (TweenAttr.new zeroHeap 0 10 1).newValue (sine_fn sin (.fin (3 / 2))) := by
  refine ⟨by decide!, by decide!, by decide!, by decide!, by decide!, by decide!, by decide!,
    by decide!, ?_⟩
  intro sin
  have hp : progress (.fin 3) (.fin 0) (.fin 0) (.fin 2) = .fin (3 / 2) := by decide!
  have h1 : Dbl.lt (.fin 1) (.fin (3 / 2)) = true := by decide!
  apply updateTweens_heap 0 _ 0 (.fin 3) (sineWorld sin) (List.mem_singleton.mpr rfl)
  · intro j hj hne
    exact absurd (List.mem_singleton.mp hj) hne
  · intro w' _ htime
    have hs : ((sineWorld sin).impl 0).startTime = .fin 0 := rfl
    have hD : ((sineWorld sin).impl 0).totalTime = Dbl.toFloat (.fin 2) := rfl
    have hD' : Dbl.toFloat (.fin 2) = .fin 2 := by decide!
    have hd : (TweenAttr.new zeroHeap 0 10 1).delay = .fin 0 := rfl
    exact step_single_pingpong ((sineWorld sin).impl 0) (TweenAttr.new zeroHeap 0 10 1) w'
      (.fin (3 / 2)) rfl (by rw [htime, hs, hD, hD', hd]; exact hp) h1 rfl rfl

/-! ## C8: cyclic wrap -/

/-- C8 (as amended). For an `int` target holding `a`, an end value `b ≥ a` and a cycle count
`c ≥ 2` such that `(b - a + 1) * c - 1` does not exceed `INT_MAX`, the binding built by
`to(target, b, c)` has `maxValue = (b - a) + 1` and `delta = (b - a + 1) * c - 1`, and `set(1.0)`
writes `a + (delta mod maxValue) = b`. -/
theorem C8_cyclic_wrap (w : World) (h : ImplId) (x : Addr) (b c : ℤ)
    (ha : -2147483648 ≤ w.heap x) (hab : w.heap x ≤ b) (hb : b ≤ 2147483647) (hc : 2 ≤ c)
    (hov : (b - w.heap x + 1) * c - 1 ≤ 2147483647) :
    ∃ att : TweenAttr, ((Tween.to h x b c w).impl h).args.getLast? = some att ∧
      att.target = x ∧
      att.startValue = w.heap x ∧
      att.maxValue = (b - w.heap x) + 1 ∧
      att.delta = (b - w.heap x + 1) * c - 1 ∧
      w.heap x + att.delta % att.maxValue = b ∧
      ∀ (t : Option ImplId) (w2 : World), (att.set (.fin 1) t w2).heap x = b := by
  have hc1 : c ≠ 1 := by omega
  have hd0 : 0 ≤ b - w.heap x := by omega
  have hmul : (b - w.heap x + 1) * 2 ≤ (b - w.heap x + 1) * c :=
    mul_le_mul_of_nonneg_left hc (by omega)
  have hwb : wrapInt b = b := wrapInt_of_range b (by omega) hb
  have hw0 : wrapInt (b - w.heap x) = b - w.heap x := wrapInt_of_range _ (by omega) (by omega)
  have hw1 : wrapInt (b - w.heap x + 1) = b - w.heap x + 1 :=
    wrapInt_of_range _ (by omega) (by omega)
  have hw2 : wrapInt ((b - w.heap x + 1) * c - 1) = (b - w.heap x + 1) * c - 1 :=
    wrapInt_of_range _ (by omega) hov
  have hnew : TweenAttr.new w.heap x (wrapInt b) c =
      { startValue := w.heap x, delta := (b - w.heap x + 1) * c - 1,
        maxValue := b - w.heap x + 1, target := x, on_update_cb := ⟨[]⟩, delay := .fin 0 } := by
    unfold TweenAttr.new
    simp only [hwb, hw0, hw1, hw2, if_pos hc1]
  refine ⟨TweenAttr.new w.heap x (wrapInt b) c, ?_, ?_, ?_, ?_, ?_, ?_, ?_⟩
  · rw [to_args]; simp
  · rw [hnew]
  · rw [hnew]
  · rw [hnew]
  · rw [hnew]
  · rw [hnew]
    simp only []
    have : ((b - w.heap x + 1) * c - 1) % (b - w.heap x + 1) = b - w.heap x := by
      have e : (b - w.heap x + 1) * c - 1 = (b - w.heap x) + (b - w.heap x + 1) * (c - 1) := by
        ring
      rw [e, Int.add_mul_emod_self_left, Int.emod_eq_of_lt hd0 (by omega)]
    rw [this]; ring
  · intro t w2
    have htarget : (TweenAttr.new w.heap x (wrapInt b) c).target = x := by rw [hnew]
    have hset := set_heap_target (TweenAttr.new w.heap x (wrapInt b) c) (.fin 1) t w2
    rw [htarget] at hset
    rw [hset, newValue_one_cyclic _ c (by rw [hnew]; simp only []; omega) (by omega)
      (by rw [hnew]) (by rw [hnew]; exact hov)]
    rw [hnew]
    simp only []
    rw [show w.heap x + (b - w.heap x + 1 - 1) = b by ring]
    exact hwb

/-- C8, the instance of the specification: `0 -> 4` in 3 cycles gives `maxValue = 5`,
`delta = 14` and the value 4 at shaped progress 1. -/
theorem C8_cyclic_wrap_witness :
    ∃ att : TweenAttr, ((Tween.to 0 0 4 3 freshWorld).impl 0).args.getLast? = some att ∧
      att.maxValue = 5 ∧ att.delta = 14 ∧ (0 : ℤ) + 14 % 5 = 4 ∧
      (att.set (.fin 1) none freshWorld).heap 0 = 4 := by
  obtain ⟨att, h1, _, _, h4, h5, _, h7⟩ := C8_cyclic_wrap freshWorld 0 0 4 3
    (by decide!) (by decide!) (by decide!) (by decide!) (by decide!)
  exact ⟨att, h1, h4.trans (by decide!), h5.trans (by decide!), by decide, h7 none freshWorld⟩

/-- C8 (the claim as stated fails). For `a = 0`, `b = 2^30` and `c = 4` the product
`(b - a + 1) * c` does not fit an `int`: the stored `delta` is 3, not `(b - a + 1) * c - 1`, and
`set(1.0)` writes 3, not `b`. -/
theorem C8_counterexample :
    (0 : ℤ) ≤ 1073741824 ∧ (2 : ℤ) ≤ 4 ∧
    (TweenAttr.new zeroHeap 0 1073741824 4).maxValue = (1073741824 - 0) + 1 ∧
    (TweenAttr.new zeroHeap 0 1073741824 4).delta = 3 ∧
    (TweenAttr.new zeroHeap 0 1073741824 4).delta ≠ (1073741824 - 0 + 1) * 4 - 1 ∧
    ((TweenAttr.new zeroHeap 0 1073741824 4).set (.fin 1) none (World.init zeroHeap)).heap 0 = 3 ∧
    ((TweenAttr.new zeroHeap 0 1073741824 4).set (.fin 1) none (World.init zeroHeap)).heap 0
      ≠ 1073741824 := by
  decide!

/-! ## C9: redundant-write suppression -/

/-- C9. `set(v)` dispatches the update registry of the binding exactly when the computed value
`newValue` differs from the value of the target.  When they are equal nothing changes; when they
differ the target is overwritten, no other variable changes, and the log gains one dispatch in
which every registered callable runs once, in registration order, on the prefix of
`(newValue, tween, v)` given by its arity. -/
theorem C9_set_dispatches_iff_value_changes (a : TweenAttr) (v : Dbl) (t : Option ImplId)
    (w : World) :
    ((a.set v t w).log ≠ w.log ↔ a.newValue v ≠ w.heap a.target) ∧
    (a.newValue v = w.heap a.target → a.set v t w = w) ∧
    (a.newValue v ≠ w.heap a.target →
      (a.set v t w).heap a.target = a.newValue v ∧
      (∀ x : Addr, x ≠ a.target → (a.set v t w).heap x = w.heap x) ∧
      (a.set v t w).log = w.log ++ [Dispatch.update a.target
        (a.on_update_cb.callbacks.map (fun cb =>
          { callable := cb.t,
            args := [Arg.val (a.newValue v), Arg.tween t, Arg.num v].take cb.arity }))]) := by
  refine ⟨?_, ?_, ?_⟩
  · unfold TweenAttr.set
    split_ifs with h
    · simp [h]
    · simp [h]
  · intro h
    unfold TweenAttr.set
    simp [h]
  · intro h
    refine ⟨set_heap_target a v t w, fun x hx => set_heap_other a v t w x hx, ?_⟩
    unfold TweenAttr.set
    simp [h, CallbackCaller.call, FCaller.call]

/-- C9, on the score binding with two listeners: the value 5 differs from the stored 0, so the
target is written and both listeners run, the second one without arguments. -/
theorem C9_set_dispatches_witness :
    scoreAttr.newValue (.fin (1 / 2)) ≠ (World.init zeroHeap).heap scoreAttr.target ∧
    (scoreAttr.set (.fin (1 / 2)) none (World.init zeroHeap)).heap scoreAttr.target = 5 ∧
    (scoreAttr.set (.fin (1 / 2)) none (World.init zeroHeap)).log =
      [Dispatch.update 0 [⟨7, [Arg.val 5]⟩, ⟨8, []⟩]] :=
  ⟨by decide!,
   ((C9_set_dispatches_iff_value_changes scoreAttr (.fin (1 / 2)) none
      (World.init zeroHeap)).2.2 (by decide!)).1.trans (by decide!),
   ((C9_set_dispatches_iff_value_changes scoreAttr (.fin (1 / 2)) none
      (World.init zeroHeap)).2.2 (by decide!)).2.2.trans (by decide!)⟩

/-! ## C10: the result of a tick -/

theorem countP_completions (impl : ImplId → TweenImpl) (i : ImplId) (l : List ImplId) :
    (completions impl l).countP (isCompletionOf i) = l.count i := by
  induction l with
  | nil => rfl
  | cons j l ih =>
    have ih' : List.countP (isCompletionOf i) (completions impl l) = List.count i l := ih
    have hcons : completions impl (j :: l) = Dispatch.complete j
        ((impl j).on_complete_cb.call [Arg.tween none, Arg.num (.fin 1)]) :: completions impl l :=
      rfl
    rw [hcons, List.countP_cons, ih', List.count_cons]
    by_cases h : j = i
    · simp [isCompletionOf, h]
    · simp [isCompletionOf, h]

theorem countP_updates (i : ImplId) (u : List Dispatch)
    (hu : ∀ e ∈ u, ∃ x r, e = Dispatch.update x r) : u.countP (isCompletionOf i) = 0 := by
  rw [List.countP_eq_zero]
  intro e he
  obtain ⟨x, r, rfl⟩ := hu e he
  simp [isCompletionOf]

/-- One tick dispatches the completion registry of a state once if it removes the state, and
not at all otherwise. -/
theorem tick_completion_count (t : Dbl) (w : World) (i : ImplId) (hnd : w.allTweens.Nodup) :
    ∃ d : List Dispatch, (Tween.updateTweens t w).2.log = w.log ++ d ∧
      d.countP (isCompletionOf i) =
        (if i ∈ w.allTweens ∧ i ∉ (Tween.updateTweens t w).2.allTweens then 1 else 0) ∧
      ∀ e ∈ d, isCompletionOf i e = true → e = Dispatch.complete i
        ((w.impl i).on_complete_cb.call [Arg.tween none, Arg.num (.fin 1)]) := by
  obtain ⟨_, h2, _, _, _, ⟨u, hu, hlog⟩⟩ := updateTweens_spec t w
  refine ⟨_, by rw [hlog, List.append_assoc], ?_, ?_⟩
  · rw [List.countP_append, countP_updates i u hu, countP_completions, zero_add, h2]
    have hnd' := hnd.filter (fun j => !((w.impl j).step { w with currentTime := t }).1)
    by_cases hi : i ∈ w.allTweens
    · cases hf : ((w.impl i).step { w with currentTime := t }).1
      · have hmem : i ∈ w.allTweens.filter
            (fun j => !((w.impl j).step { w with currentTime := t }).1) :=
          List.mem_filter.mpr ⟨hi, by simp [hf]⟩
        have hnot : i ∉ w.allTweens.filter
            (fun j => ((w.impl j).step { w with currentTime := t }).1) := by
          intro hm
          have := (List.mem_filter.mp hm).2
          simp [hf] at this
        rw [List.count_eq_one_of_mem hnd' hmem, if_pos ⟨hi, hnot⟩]
      · have hmem : i ∈ w.allTweens.filter
            (fun j => ((w.impl j).step { w with currentTime := t }).1) :=
          List.mem_filter.mpr ⟨hi, hf⟩
        have hnot : i ∉ w.allTweens.filter
            (fun j => !((w.impl j).step { w with currentTime := t }).1) := by
          intro hm
          have := (List.mem_filter.mp hm).2
          simp [hf] at this
        rw [List.count_eq_zero_of_not_mem hnot, if_neg (fun h => h.2 hmem)]
    · have hnot : i ∉ w.allTweens.filter
          (fun j => !((w.impl j).step { w with currentTime := t }).1) :=
        fun hm => hi (List.mem_of_mem_filter hm)
      rw [List.count_eq_zero_of_not_mem hnot, if_neg (fun h => hi h.1)]
  · intro e he hc
    rcases List.mem_append.mp he with h | h
    · obtain ⟨x, r, rfl⟩ := hu e h
      simp [isCompletionOf] at hc
    · unfold completions at h
      obtain ⟨j, _, rfl⟩ := List.mem_map.mp h
      have hj : j = i := by simpa [isCompletionOf] using hc
      rw [hj]

/-- The count of completion dispatches over a sequence of ticks. -/
theorem ticks_completion_count (i : ImplId) (ticks : List Dbl) : ∀ w : World, w.allTweens.Nodup →
    ∃ d : List Dispatch, (run (ticks.map Op.tick) w).log = w.log ++ d ∧
      d.countP (isCompletionOf i) =
        (if i ∈ w.allTweens ∧ i ∉ (run (ticks.map Op.tick) w).allTweens then 1 else 0) ∧
      (∀ e ∈ d, isCompletionOf i e = true → e = Dispatch.complete i
        ((w.impl i).on_complete_cb.call [Arg.tween none, Arg.num (.fin 1)])) ∧
      (∀ j, j ∈ (run (ticks.map Op.tick) w).allTweens → j ∈ w.allTweens) := by
  induction ticks with
  | nil =>
    intro w _
    refine ⟨[], by simp [run], ?_, by simp, by simp [run]⟩
    simp only [List.countP_nil, run, List.map_nil, List.foldl_nil]
    rw [if_neg (fun h => h.2 h.1)]
  | cons t ticks ih =>
    intro w hnd
    obtain ⟨_, g2, _, g4, _, _⟩ := updateTweens_spec t w
    obtain ⟨d1, hd1, hc1, he1⟩ := tick_completion_count t w i hnd
    have hnd1 : (Tween.updateTweens t w).2.allTweens.Nodup := by
      rw [g2]; exact hnd.filter _
    obtain ⟨d2, hd2, hc2, he2, hsub2⟩ := ih (Tween.updateTweens t w).2 hnd1
    have hsub1 : ∀ j, j ∈ (Tween.updateTweens t w).2.allTweens → j ∈ w.allTweens := by
      intro j hj
      rw [g2] at hj
      exact List.mem_of_mem_filter hj
    have hrun : run ((t :: ticks).map Op.tick) w
        = run (ticks.map Op.tick) (Tween.updateTweens t w).2 := by
      simp [run, Op.apply]
    rw [hrun]
    refine ⟨d1 ++ d2, by rw [hd2, hd1, List.append_assoc], ?_, ?_, ?_⟩
    · rw [List.countP_append, hc1, hc2]
      by_cases hi : i ∈ w.allTweens
      · by_cases h1 : i ∈ (Tween.updateTweens t w).2.allTweens
        · by_cases h2 : i ∈ (run (ticks.map Op.tick) (Tween.updateTweens t w).2).allTweens
          · simp [hi, h1, h2]
          · simp [hi, h1, h2]
        · have h2 : i ∉ (run (ticks.map Op.tick) (Tween.updateTweens t w).2).allTweens :=
            fun h => h1 (hsub2 i h)
          simp [hi, h1, h2]
      · have h1 : i ∉ (Tween.updateTweens t w).2.allTweens := fun h => hi (hsub1 i h)
        simp [hi, h1]
    · intro e he hc
      rcases List.mem_append.mp he with h | h
      · exact he1 e h hc
      · rw [← g4]; exact he2 e h hc
    · intro j hj
      exact hsub1 j (hsub2 j hj)

/-- C11. In a scheduler state reached from the empty scheduler, a tick appends to the log first
the update dispatches of the stepping loop and then one completion dispatch for every state found
finished, in the order of the active set; and over every sequence of ticks the completion
registry of a state is dispatched once in total if a tick removes the state from the active set,
with the progress argument 1, and not at all while the state stays in the active set. -/
theorem C11_completion_fires_once (w : World) (i : ImplId) (ticks : List Dbl)
    (hreach : ∃ (heap : Addr → ℤ) (ops : List Op), w = run ops (World.init heap)) :
    (∀ t : Dbl, ∃ u : List Dispatch, (∀ e ∈ u, ∃ x r, e = Dispatch.update x r) ∧
      (Tween.updateTweens t w).2.log = w.log ++ u ++ completions w.impl
        (w.allTweens.filter (fun j => !((w.impl j).step { w with currentTime := t }).1))) ∧
    ∃ d : List Dispatch, (run (ticks.map Op.tick) w).log = w.log ++ d ∧
      d.countP (isCompletionOf i) =
        (if i ∈ w.allTweens ∧ i ∉ (run (ticks.map Op.tick) w).allTweens then 1 else 0) ∧
      ∀ e ∈ d, isCompletionOf i e = true → e = Dispatch.complete i
        ((w.impl i).on_complete_cb.call [Arg.tween none, Arg.num (.fin 1)]) := by
  have hnd : w.allTweens.Nodup := by
    obtain ⟨heap, ops, hw⟩ := hreach
    rw [hw]
    exact (inv_run ops _ (inv_init heap)).1
  refine ⟨fun t => (updateTweens_spec t w).2.2.2.2.2, ?_⟩
  obtain ⟨d, h1, h2, h3, _⟩ := ticks_completion_count i ticks w hnd
  exact ⟨d, h1, h2, h3⟩

/-- C11, on two states of 1 and 2 seconds started at clock 0 and ticked at clocks 0.5, 1.5, 1.75
and 3: the completion listener of the first state runs once, without arguments, and then the
one of the second state, with the handle and the progress 1. -/
theorem C11_completion_fires_once_witness :
    (run ([.fin (1 / 2), .fin (3 / 2), .fin (7 / 4), .fin 3].map Op.tick) twoCompleting).log
      = [Dispatch.update 0 [], Dispatch.update 1 [], Dispatch.update 0 [], Dispatch.update 1 [],
         Dispatch.complete 0 [⟨8, []⟩], Dispatch.update 1 [], Dispatch.update 1 [],
         Dispatch.complete 1 [⟨9, [Arg.tween none, Arg.num (.fin 1)]⟩]] ∧
    ∃ d : List Dispatch,
      (run ([.fin (1 / 2), .fin (3 / 2), .fin (7 / 4), .fin 3].map Op.tick) twoCompleting).log
        = twoCompleting.log ++ d ∧ d.countP (isCompletionOf 0) = 1 := by
  obtain ⟨d, h1, h2, _⟩ := (C11_completion_fires_once twoCompleting 0
    [.fin (1 / 2), .fin (3 / 2), .fin (7 / 4), .fin 3] ⟨zeroHeap, _, rfl⟩).2
  refine ⟨by decide!, d, h1, ?_⟩
  rw [h2]
  decide!

/-! ## C12: `cancel()` -/

/-- C12. In a scheduler state reached from the empty scheduler, `cancel()` removes the state of
the handle from the active set and keeps the other states in their order; the clock, the targets,
the log of listener runs and the objects are unchanged; and when the state is not in the active
set the whole scheduler state is unchanged. -/
theorem C12_cancel_frame (w : World) (h : ImplId)
    (hreach : ∃ (heap : Addr → ℤ) (ops : List Op), w = run ops (World.init heap)) :
    (Tween.cancel h w).allTweens = w.allTweens.filter (fun j => j != h) ∧
    h ∉ (Tween.cancel h w).allTweens ∧
    (Tween.cancel h w).currentTime = w.currentTime ∧
    (Tween.cancel h w).heap = w.heap ∧
    (Tween.cancel h w).log = w.log ∧
    (Tween.cancel h w).impl = w.impl ∧
    (h ∉ w.allTweens → Tween.cancel h w = w) := by
  have hnd : w.allTweens.Nodup := by
    obtain ⟨heap, ops, hw⟩ := hreach
    rw [hw]
    exact (inv_run ops _ (inv_init heap)).1
  refine ⟨?_, ?_, rfl, rfl, rfl, rfl, ?_⟩
  · show w.allTweens.erase h = _
    rw [hnd.erase_eq_filter]
  · show h ∉ w.allTweens.erase h
    exact fun hmem => ((List.Nodup.mem_erase_iff hnd).mp hmem).1 rfl
  · intro hn
    show { w with allTweens := w.allTweens.erase h } = w
    rw [List.erase_of_not_mem hn]

/-- C12, on the two started states of `twoWriters`: cancelling the first leaves the second, and
cancelling a handle that was never started changes nothing. -/
theorem C12_cancel_frame_witness :
    (Tween.cancel 0 twoWriters).allTweens = [1] ∧ 5 ∉ twoWriters.allTweens ∧
    Tween.cancel 5 twoWriters = twoWriters :=
  ⟨((C12_cancel_frame twoWriters 0 ⟨zeroHeap, _, rfl⟩).1).trans (by decide!), by decide!,
   (C12_cancel_frame twoWriters 5 ⟨zeroHeap, _, rfl⟩).2.2.2.2.2.2 (by decide!)⟩

/-! ## C13: `start()` -/

/-- C13 (as amended). `start()` looks at the flag `isTweening` of the state, which `make()`
clears and which is set by `start()` and never cleared again.  With the flag set, `start()`
changes nothing; this is so for every state in the active set of a scheduler state reached from
the empty scheduler.  With the flag clear, `start()` sets `startTime` to the current clock, sets
the flag and appends that same state to the active set, and changes nothing else. -/
theorem C13_start_by_flag (w : World) (h : ImplId) :
    ((w.impl h).isTweening = true → Tween.start h w = w) ∧
    ((∃ (heap : Addr → ℤ) (ops : List Op), w = run ops (World.init heap)) → h ∈ w.allTweens →
      Tween.start h w = w) ∧
    ((w.impl h).isTweening = false →
      (Tween.start h w).allTweens = w.allTweens ++ [h] ∧
      (Tween.start h w).impl h =
        { w.impl h with startTime := w.currentTime, isTweening := true } ∧
      (∀ j, j ≠ h → (Tween.start h w).impl j = w.impl j) ∧
      (Tween.start h w).currentTime = w.currentTime ∧
      (Tween.start h w).heap = w.heap ∧ (Tween.start h w).log = w.log ∧
      (Tween.start h w).next = w.next) := by
  refine ⟨?_, ?_, ?_⟩
  · intro hf
    unfold Tween.start
    simp [hf]
  · rintro ⟨heap, ops, hw⟩ hi
    have hinv : w.Inv := by rw [hw]; exact inv_run ops _ (inv_init heap)
    unfold Tween.start
    simp [(hinv.2.1 h hi).1]
  · intro hf
    unfold Tween.start
    simp only [hf, Bool.not_false, ↓reduceIte, Function.update_same, true_and]
    exact ⟨fun j hj => Function.update_noteq hj _ _, trivial⟩

/-- C13, on a fresh handle: `start()` registers the state made by `make()`. -/
theorem C13_start_by_flag_witness :
    (freshWorld.impl 0).isTweening = false ∧ (Tween.start 0 freshWorld).allTweens = [0] :=
  ⟨by decide!, ((C13_start_by_flag freshWorld 0).2.2 (by decide!)).1.trans (by decide!)⟩

/-- C13 (the claim as stated fails). A handle that was started and then cancelled, and a handle
whose state has completed, are not in the active set, yet `start()` changes nothing: the active
set stays empty and `startTime` keeps the clock of the first start. -/
theorem C13_counterexample :
    0 ∉ cancelledWorld.allTweens ∧ cancelledWorld.currentTime = .fin 1 ∧
    (Tween.start 0 cancelledWorld).allTweens = [] ∧
    ((Tween.start 0 cancelledWorld).impl 0).startTime = .fin 0 ∧
    0 ∉ completedWorld.allTweens ∧ completedWorld.currentTime = .fin 3 ∧
    (Tween.start 0 completedWorld).allTweens = [] ∧
    ((Tween.start 0 completedWorld).impl 0).startTime = .fin 0 := by
  decide!

/-! ## C14: the scheduler invariant -/

/-- C14. In every scheduler state reached from the empty scheduler by a sequence of calls, every
state in the active collection has its flag `isTweening` set and no state occurs in the
collection more than once. -/
theorem C14_scheduler_invariant (heap : Addr → ℤ) (ops : List Op) :
    (∀ i ∈ (run ops (World.init heap)).allTweens,
      ((run ops (World.init heap)).impl i).isTweening = true) ∧
    (run ops (World.init heap)).allTweens.Nodup :=
  ⟨fun i hi => ((inv_run ops _ (inv_init heap)).2.1 i hi).1, (inv_run ops _ (inv_init heap)).1⟩

/-- C14, on a sequence with an implicit registration, a cancelled state and a second start: the
active set holds the registered copy alone. -/
theorem C14_scheduler_invariant_witness :
    (run [.make (.fin 0) (.fin 0), .start 0, .start 0, .make (.fin 0) (.fin 0), .discard 1,
      .cancel 0, .start 0] (World.init zeroHeap)).allTweens = [2] ∧
    ((run [.make (.fin 0) (.fin 0), .start 0, .start 0, .make (.fin 0) (.fin 0), .discard 1,
      .cancel 0, .start 0] (World.init zeroHeap)).impl 2).isTweening = true :=
  ⟨by decide!,
   (C14_scheduler_invariant zeroHeap [.make (.fin 0) (.fin 0), .start 0, .start 0,
      .make (.fin 0) (.fin 0), .discard 1, .cancel 0, .start 0]).1 2
      (by decide!)⟩

/-! ## C15: `from()` -/

theorem roundTo_neg_of_neg (p : ℕ) (hp : 1 ≤ p) {x : ℚ} (hx : x < 0) : roundTo p x < 0 := by
  rw [roundTo_of_neg p hx]
  have := roundPos_pos p hp (by linarith : 0 < -x)
  linarith

/-- With the duration `+0.0`, `step` counts a binding of a state that does not repeat as ended
exactly when the elapsed time it computes is positive: the quotient is then `+inf`, and it is
`-inf` or a NaN otherwise. -/
theorem ends_zero_duration (I : TweenImpl) (c : Dbl) (a : TweenAttr)
    (hD : I.totalTime = .fin 0) (hrep : I.do_rep = false) :
    ends I c a = Dbl.lt (.fin 0) (Dbl.sub (Dbl.sub c I.startTime) a.delay) := by
  unfold ends progress
  rw [hD, hrep]
  cases Dbl.sub (Dbl.sub c I.startTime) a.delay with
  | fin q =>
    rcases lt_trichotomy q 0 with h | h | h
    · simp [Dbl.div, Dbl.toFloat, Dbl.lt, h, h.ne, not_lt.mpr h.le]
    · subst h
      simp [Dbl.div, Dbl.toFloat, Dbl.lt]
    · simp [Dbl.div, Dbl.toFloat, Dbl.lt, h, h.ne', not_lt.mpr h.le]
  | nzero => simp [Dbl.div, Dbl.toFloat, Dbl.lt]
  | inf s => cases s <;> simp [Dbl.div, Dbl.toFloat, Dbl.lt]
  | nan => simp [Dbl.div, Dbl.toFloat, Dbl.lt]

/-- With the duration `-0.0`, `step` counts a binding of a state that does not repeat as ended
exactly when the elapsed time it computes is negative: a positive elapsed time gives the
quotient `-inf`. -/
theorem ends_negzero_duration (I : TweenImpl) (c : Dbl) (a : TweenAttr)
    (hD : I.totalTime = .nzero) (hrep : I.do_rep = false) :
    ends I c a = Dbl.lt (Dbl.sub (Dbl.sub c I.startTime) a.delay) (.fin 0) := by
  unfold ends progress
  rw [hD, hrep]
  cases Dbl.sub (Dbl.sub c I.startTime) a.delay with
  | fin q =>
    rcases lt_trichotomy q 0 with h | h | h
    · simp [Dbl.div, Dbl.toFloat, Dbl.lt, h, h.ne]
    · subst h
      simp [Dbl.div, Dbl.toFloat, Dbl.lt]
    · simp [Dbl.div, Dbl.toFloat, Dbl.lt, h.ne', not_lt.mpr h.le]
  | nzero => simp [Dbl.div, Dbl.toFloat, Dbl.lt]
  | inf s => cases s <;> simp [Dbl.div, Dbl.toFloat, Dbl.lt]
  | nan => simp [Dbl.div, Dbl.toFloat, Dbl.lt]

/-- With a negative duration, a binding whose computed elapsed time is positive has a negative
progress, so `step` skips it. -/
theorem ends_negative_duration (I : TweenImpl) (c : Dbl) (a : TweenAttr) (D : ℚ)
    (hD : I.totalTime = .fin D) (hneg : D < 0)
    (he : Dbl.lt (.fin 0) (Dbl.sub (Dbl.sub c I.startTime) a.delay) = true) :
    ends I c a = false := by
  unfold ends progress
  rw [hD]
  cases hq : Dbl.sub (Dbl.sub c I.startTime) a.delay with
  | fin q =>
    rw [hq] at he
    have hq0 : 0 < q := by simpa [Dbl.lt] using he
    have h1 : roundTo 53 (q / D) < 0 :=
      roundTo_neg_of_neg 53 (by norm_num) (div_neg_of_pos_of_neg hq0 hneg)
    have h2 : roundTo 24 (roundTo 53 (q / D)) < 0 := roundTo_neg_of_neg 24 (by norm_num) h1
    simp [Dbl.div, Dbl.toFloat, Dbl.lt, hneg.ne, hq0.ne', h2]
  | nzero =>
    rw [hq] at he
    simp [Dbl.lt] at he
  | inf s =>
    rw [hq] at he
    cases s
    · simp [Dbl.div, Dbl.toFloat, Dbl.lt, hneg]
    · simp [Dbl.lt] at he
  | nan =>
    rw [hq] at he
    simp [Dbl.lt] at he

/-- With a duration that is negative (finite or `-inf`) or `-0.0`, `step` does not count a
binding as ended whose computed elapsed time is positive. -/
theorem ends_below_zero_duration (I : TweenImpl) (c : Dbl) (a : TweenAttr)
    (hD : Dbl.lt I.totalTime (.fin 0) = true ∨ I.totalTime = .nzero)
    (he : Dbl.lt (.fin 0) (Dbl.sub (Dbl.sub c I.startTime) a.delay) = true) :
    ends I c a = false := by
  cases hT : I.totalTime with
  | fin D =>
    rw [hT] at hD
    have hneg : D < 0 := by
      rcases hD with h | h
      · simpa [Dbl.lt] using h
      · cases h
    exact ends_negative_duration I c a D hT hneg he
  | nzero =>
    unfold ends progress
    rw [hT]
    cases hq : Dbl.sub (Dbl.sub c I.startTime) a.delay with
    | fin q =>
      rw [hq] at he
      have hq0 : 0 < q := by simpa [Dbl.lt] using he
      simp [Dbl.div, Dbl.toFloat, Dbl.lt, hq0.ne', not_lt.mpr hq0.le]
    | nzero =>
      rw [hq] at he
      simp [Dbl.lt] at he
    | inf s =>
      rw [hq] at he
      cases s
      · simp [Dbl.div, Dbl.toFloat, Dbl.lt]
      · simp [Dbl.lt] at he
    | nan =>
      rw [hq] at he
      simp [Dbl.lt] at he
  | inf s =>
    rw [hT] at hD
    have hs : s = true := by
      rcases hD with h | h
      · simpa [Dbl.lt] using h
      · cases h
    subst hs
    unfold ends progress
    rw [hT]
    cases hq : Dbl.sub (Dbl.sub c I.startTime) a.delay with
    | fin q =>
      rw [hq] at he
      have hq0 : 0 < q := by simpa [Dbl.lt] using he
      simp [Dbl.div, Dbl.zero, Dbl.toFloat, Dbl.lt, not_lt.mpr hq0.le]
    | nzero =>
      rw [hq] at he
      simp [Dbl.lt] at he
    | inf r => simp [Dbl.div, Dbl.toFloat, Dbl.lt]
    | nan => simp [Dbl.div, Dbl.toFloat, Dbl.lt]
  | nan =>
    rw [hT] at hD
    rcases hD with h | h
    · simp [Dbl.lt] at h
    · cases h

/-- A state with a binding that `step` does not count as ended is kept by the tick. -/
theorem tick_keeps_unended (c : Dbl) (w : World) (i : ImplId) (a : TweenAttr)
    (hi : i ∈ w.allTweens) (ha : a ∈ (w.impl i).args) (hends : ends (w.impl i) c a = false) :
    i ∈ (Tween.updateTweens c w).2.allTweens := by
  rw [(updateTweens_spec c w).2.1]
  refine List.mem_filter.mpr ⟨hi, ?_⟩
  cases hflag : ((w.impl i).step { w with currentTime := c }).1 with
  | true => rfl
  | false =>
    have := (step_finished_iff (w.impl i) { w with currentTime := c }).mp hflag a ha
    simp only [] at this
    rw [hends] at this
    exact absurd this Bool.false_ne_true

/-- A state is kept by every tick of a sequence at which one of its bindings is not counted as
ended. -/
theorem ticks_keep_unended (i : ImplId) (ticks : List Dbl) : ∀ w : World, i ∈ w.allTweens →
    (∀ c ∈ ticks, ∃ a ∈ (w.impl i).args, ends (w.impl i) c a = false) →
    i ∈ (run (ticks.map Op.tick) w).allTweens := by
  induction ticks with
  | nil => intro w hi _; exact hi
  | cons t ticks ih =>
    intro w hi hall
    obtain ⟨a, ha, he⟩ := hall t (List.mem_cons_self _ _)
    have hkept := tick_keeps_unended t w i a hi ha he
    have himpl := (updateTweens_spec t w).2.2.2.1
    have hrun : run ((t :: ticks).map Op.tick) w
        = run (ticks.map Op.tick) (Tween.updateTweens t w).2 := by
      simp [run, Op.apply]
    rw [hrun]
    apply ih (Tween.updateTweens t w).2 hkept
    intro c hc
    rw [himpl]
    exact hall c (List.mem_cons_of_mem _ hc)

/-- A tick removes a state of the active set exactly when `step` counts every binding as
ended. -/
theorem tick_removes_iff (c : Dbl) (w : World) (i : ImplId) (hi : i ∈ w.allTweens) :
    i ∉ (Tween.updateTweens c w).2.allTweens ↔ ∀ a ∈ (w.impl i).args, ends (w.impl i) c a = true := by
  rw [(updateTweens_spec c w).2.1]
  constructor
  · intro hnot
    have hflag : ((w.impl i).step { w with currentTime := c }).1 = false := by
      cases hf : ((w.impl i).step { w with currentTime := c }).1 with
      | false => rfl
      | true => exact absurd (List.mem_filter.mpr ⟨hi, hf⟩) hnot
    exact (step_finished_iff (w.impl i) { w with currentTime := c }).mp hflag
  · intro hall hmem
    have hflag := (List.mem_filter.mp hmem).2
    rw [(step_finished_iff (w.impl i) { w with currentTime := c }).mpr hall] at hflag
    exact Bool.false_ne_true hflag

/-- C16 (as amended). For a state of the active set that does not repeat, with the elapsed time
`c - startTime - delay` of a binding as `step` computes it: if `totalTime` is `+0.0`, a tick at
clock `c` removes the state exactly when every binding has a positive elapsed time; if
`totalTime` is `-0.0`, exactly when every binding has a negative elapsed time.  For a state whose
`totalTime` is negative (finite or `-inf`) or `-0.0`, repeating or not, no tick at a clock for
which some binding has a positive elapsed time removes the state, however many such ticks are
issued. -/
theorem C16_degenerate_duration (w : World) (i : ImplId) (hi : i ∈ w.allTweens) :
    ((w.impl i).totalTime = .fin 0 → (w.impl i).do_rep = false → ∀ c : Dbl,
      (i ∉ (Tween.updateTweens c w).2.allTweens ↔
        ∀ a ∈ (w.impl i).args,
          Dbl.lt (.fin 0) (Dbl.sub (Dbl.sub c (w.impl i).startTime) a.delay) = true)) ∧
    ((w.impl i).totalTime = .nzero → (w.impl i).do_rep = false → ∀ c : Dbl,
      (i ∉ (Tween.updateTweens c w).2.allTweens ↔
        ∀ a ∈ (w.impl i).args,
          Dbl.lt (Dbl.sub (Dbl.sub c (w.impl i).startTime) a.delay) (.fin 0) = true)) ∧
    ((Dbl.lt (w.impl i).totalTime (.fin 0) = true ∨ (w.impl i).totalTime = .nzero) →
      ∀ ticks : List Dbl,
      (∀ c ∈ ticks, ∃ a ∈ (w.impl i).args,
        Dbl.lt (.fin 0) (Dbl.sub (Dbl.sub c (w.impl i).startTime) a.delay) = true) →
      i ∈ (run (ticks.map Op.tick) w).allTweens) := by
  refine ⟨?_, ?_, ?_⟩
  · intro hD hrep c
    rw [tick_removes_iff c w i hi]
    constructor
    · intro h a ha
      rw [← ends_zero_duration (w.impl i) c a hD hrep]
      exact h a ha
    · intro h a ha
      rw [ends_zero_duration (w.impl i) c a hD hrep]
      exact h a ha
  · intro hD hrep c
    rw [tick_removes_iff c w i hi]
    constructor
    · intro h a ha
      rw [← ends_negzero_duration (w.impl i) c a hD hrep]
      exact h a ha
    · intro h a ha
      rw [ends_negzero_duration (w.impl i) c a hD hrep]
      exact h a ha
  · intro hD ticks hall
    apply ticks_keep_unended i ticks w hi
    intro c hc
    obtain ⟨a, ha, he⟩ := hall c hc
    exact ⟨a, ha, ends_below_zero_duration (w.impl i) c a hD he⟩

/-- C16, on three states started at clock 0: with `seconds(0)` the tick at clock 1 removes the
state and leaves the target at its end value; with `seconds(-0.0f)` and with `seconds(-1)` the
state is still in the active set after ticks at clocks 1, 2 and 100. -/
theorem C16_degenerate_duration_witness :
    0 ∉ (Tween.updateTweens (.fin 1) zeroDuration).2.allTweens ∧
    (Tween.updateTweens (.fin 1) zeroDuration).2.heap 0 = 10 ∧
    0 ∈ (run ([.fin 1, .fin 2, .fin 100].map Op.tick) negZeroDuration).allTweens ∧
    0 ∈ (run ([.fin 1, .fin 2, .fin 100].map Op.tick) negativeDuration).allTweens :=
  ⟨((C16_degenerate_duration zeroDuration 0 (by decide!)).1 (by decide!) (by decide!)
      (.fin 1)).mpr (by decide!),
   by decide!,
   (C16_degenerate_duration negZeroDuration 0 (by decide!)).2.2 (Or.inr (by decide!))
      [.fin 1, .fin 2, .fin 100] (by decide!),
   (C16_degenerate_duration negativeDuration 0 (by decide!)).2.2 (Or.inl (by decide!))
      [.fin 1, .fin 2, .fin 100] (by decide!)⟩

/-- C16 (the claim as stated fails). The first tick after the start of a state with `seconds(-1)`,
at clock 1, finds the progress `-1`, skips the binding and keeps the state: the target is
untouched and no completion is dispatched, also after further ticks.  The same tick on a state
with `seconds(-0.0f)` finds the progress `-inf` and keeps the state.  The first tick of a state
with `seconds(0)` at the clock of its start finds the progress `0 / 0`, a NaN, and keeps the
state. -/
theorem C16_counterexample :
    (negativeDuration.impl 0).do_rep = false ∧
    progress (.fin 1) (negativeDuration.impl 0).startTime (.fin 0)
      (negativeDuration.impl 0).totalTime = .fin (-1) ∧
    (Tween.updateTweens (.fin 1) negativeDuration).2.allTweens = [0] ∧
    (Tween.updateTweens (.fin 1) negativeDuration).2.heap 0 = 0 ∧
    (run ([.fin 1, .fin 2, .fin 100].map Op.tick) negativeDuration).allTweens = [0] ∧
    (run ([.fin 1, .fin 2, .fin 100].map Op.tick) negativeDuration).log = [] ∧
    (negZeroDuration.impl 0).do_rep = false ∧
    progress (.fin 1) (negZeroDuration.impl 0).startTime (.fin 0)
      (negZeroDuration.impl 0).totalTime = .inf true ∧
    (Tween.updateTweens (.fin 1) negZeroDuration).2.allTweens = [0] ∧
    (run ([.fin 1, .fin 2, .fin 100].map Op.tick) negZeroDuration).log = [] ∧
    (zeroDuration.impl 0).do_rep = false ∧
    progress (.fin 0) (zeroDuration.impl 0).startTime (.fin 0) (zeroDuration.impl 0).totalTime
      = .nan ∧
    (Tween.updateTweens (.fin 0) zeroDuration).2.allTweens = [0] := by
  decide!

/-! ## C17: `CallbackCaller` -/

theorem call_callme (c : CallbackCaller) (k t : ℕ) (a : List Arg) :
    (c.callme k t).call a = c.call a ++ [{ callable := t, args := a.take k }] := by
  simp [CallbackCaller.callme, CallbackCaller.call, FCaller.call]

/-- C17. After the listeners `regs` (pairs of declared arity and callable) have been registered
with `callme`, in this order, on a `CallbackCaller`, `call(args...)` runs the listeners registered
before and then each listener of `regs` once, in the order of registration, each on the first
`k` of the published arguments, `k` its declared arity; for `k` at most the number of published
arguments these are `k` arguments. -/
theorem C17_callback_dispatch (c : CallbackCaller) (regs : List (ℕ × ℕ)) (a : List Arg) :
    (regs.foldl (fun c r => c.callme r.1 r.2) c).call a
      = c.call a ++ regs.map (fun r => { callable := r.2, args := a.take r.1 }) ∧
    ((regs.foldl (fun c r => c.callme r.1 r.2) (CallbackCaller.mk [])).call a).map
        Invocation.callable
      = regs.map Prod.snd ∧
    ∀ inv ∈ (regs.foldl (fun c r => c.callme r.1 r.2) (CallbackCaller.mk [])).call a,
      ∃ r ∈ regs, inv.callable = r.2 ∧ inv.args <+: a ∧ (r.1 ≤ a.length → inv.args.length = r.1) := by
  have key : ∀ (regs : List (ℕ × ℕ)) (c : CallbackCaller),
      (regs.foldl (fun c r => c.callme r.1 r.2) c).call a
        = c.call a ++ regs.map (fun r => { callable := r.2, args := a.take r.1 }) := by
    intro regs
    induction regs with
    | nil => intro c; simp
    | cons r regs ih =>
      intro c
      rw [List.foldl_cons, ih, call_callme, List.append_assoc]
      rfl
  refine ⟨key regs c, ?_, ?_⟩
  · rw [key]
    simp [CallbackCaller.call, Function.comp_def]
  · intro inv hinv
    rw [key] at hinv
    simp only [CallbackCaller.call, List.map_nil, List.nil_append, List.mem_map] at hinv
    obtain ⟨r, hr, rfl⟩ := hinv
    exact ⟨r, hr, rfl, List.take_prefix _ _, fun h => by simp [h]⟩

/-- C17, on listeners of the arities 3, 0, 2 and 1 registered in this order and a call that
publishes three arguments. -/
theorem C17_callback_dispatch_witness :
    ((((((⟨[]⟩ : CallbackCaller).callme 3 7).callme 0 8).callme 2 9).callme 1 7).call
      [Arg.val 5, Arg.tween none, Arg.num (.fin (1 / 2))])
      = [⟨7, [Arg.val 5, Arg.tween none, Arg.num (.fin (1 / 2))]⟩, ⟨8, []⟩,
         ⟨9, [Arg.val 5, Arg.tween none]⟩, ⟨7, [Arg.val 5]⟩] :=
  (C17_callback_dispatch ⟨[]⟩ [(3, 7), (0, 8), (2, 9), (1, 7)]
    [Arg.val 5, Arg.tween none, Arg.num (.fin (1 / 2))]).1

/-! ## C18: the lock during the dispatch of completions -/

theorem sync_cases (c : SchedCall) : c.sync = [] ∨ c.sync = [.lock, .unlock] := by
  rcases c with _ | b | _ | _ | _
  · right; rfl
  · cases b
    · right; rfl
    · left; rfl
  all_goals right; rfl

theorem ite_and_none {α : Type} (a b : Bool) (x : Option α) :
    (if a = true then (if b = true then x else none) else none) =
      if (a && b) = true then x else none := by
  cases a <;> cases b <;> simp

theorem mutexRun_calls (cs : List SchedCall) (rest : List SyncEvent) :
    mutexRun true (cs.flatMap SchedCall.sync ++ rest) =
      if cs.all (fun c => decide (c.sync = [])) then mutexRun true rest else none := by
  induction cs with
  | nil => simp
  | cons c cs ih =>
    rw [List.flatMap_cons, List.append_assoc]
    rcases sync_cases c with h | h
    · rw [h, List.nil_append, ih]
      simp [h]
    · rw [h]
      simp [mutexRun, h]

theorem mutexRun_dispatch (body : ℕ → List SchedCall) (d : Dispatch) (rest : List SyncEvent) :
    mutexRun true (d.sync body ++ rest) =
      if d.quiet body then mutexRun true rest else none := by
  unfold Dispatch.sync Dispatch.quiet
  induction d.runs with
  | nil => simp
  | cons r runs ih =>
    rw [List.flatMap_cons, List.append_assoc, mutexRun_calls, ih, List.all_cons]
    exact ite_and_none _ _ _

theorem mutexRun_dispatches (body : ℕ → List SchedCall) (ds : List Dispatch)
    (rest : List SyncEvent) :
    mutexRun true (ds.flatMap (Dispatch.sync body) ++ rest) =
      if ds.all (Dispatch.quiet body) then mutexRun true rest else none := by
  induction ds with
  | nil => simp
  | cons d ds ih =>
    rw [List.flatMap_cons, List.append_assoc, mutexRun_dispatch, ih, List.all_cons]
    exact ite_and_none _ _ _

/-- C18 (the code departs from the claim). `Tween::updateTweens` holds `tweenMutex` from its
entry to its return, so the completion listeners run with the mutex held: the thread gets
through the call exactly when no listener run by the tick makes a call that locks the mutex,
and it locks the mutex it owns as soon as a completion listener of a state removed by the tick
calls `to`, `cancel`, `addTween`, `updateTweens`, or `start` on a state whose flag is clear. -/
theorem C18_completion_listeners_run_under_lock (body : ℕ → List SchedCall) (t : Dbl)
    (w : World) :
    (mutexRun false (Tween.updateTweensSync body t w) =
      if ((Tween.updateTweens t w).2.log.drop w.log.length).all (Dispatch.quiet body)
      then some false else none) ∧
    (∀ (i : ImplId) (f : FCaller) (c : SchedCall), i ∈ w.allTweens →
      i ∉ (Tween.updateTweens t w).2.allTweens → f ∈ (w.impl i).on_complete_cb.callbacks →
      c ∈ body f.t → c.sync ≠ [] →
      mutexRun false (Tween.updateTweensSync body t w) = none) := by
  have hmain : mutexRun false (Tween.updateTweensSync body t w) =
      if ((Tween.updateTweens t w).2.log.drop w.log.length).all (Dispatch.quiet body)
      then some false else none := by
    unfold Tween.updateTweensSync
    rw [List.append_assoc, List.singleton_append, mutexRun]
    simp only [Bool.false_eq_true, ↓reduceIte]
    rw [mutexRun_dispatches]
    rfl
  refine ⟨hmain, ?_⟩
  intro i f c hi hrem hf hc hsync
  rw [hmain, if_neg]
  obtain ⟨_, h2, _, _, _, ⟨d, _, hlog⟩⟩ := updateTweens_spec t w
  rw [hlog, List.append_assoc, List.drop_left]
  have hdone : i ∈ w.allTweens.filter
      (fun j => !((w.impl j).step { w with currentTime := t }).1) := by
    refine List.mem_filter.mpr ⟨hi, ?_⟩
    cases hflag : ((w.impl i).step { w with currentTime := t }).1 with
    | false => rfl
    | true =>
      rw [h2] at hrem
      exact absurd (List.mem_filter.mpr ⟨hi, hflag⟩) hrem
  intro hall
  rw [List.all_eq_true] at hall
  have hq := hall (Dispatch.complete i
    ((w.impl i).on_complete_cb.call [Arg.tween none, Arg.num (.fin 1)]))
    (List.mem_append_right _ (List.mem_map.mpr ⟨i, hdone, rfl⟩))
  unfold Dispatch.quiet Dispatch.runs at hq
  simp only [List.all_eq_true, decide_eq_true_eq] at hq
  exact hsync (hq (f.call [Arg.tween none, Arg.num (.fin 1)])
    (List.mem_map.mpr ⟨f, hf, rfl⟩) c hc)

/-- C18, on the two states of `twoCompleting`, both removed by the tick at clock 3: when the
completion listener of the first state (callable 8) calls `cancel()`, the thread locks the
mutex it owns; when it calls `start()` on a started handle, or the tick is at clock 1/2 and
removes no state, the call gets through. -/
theorem C18_completion_listeners_run_under_lock_witness :
    mutexRun false (Tween.updateTweensSync (fun f => if f = 8 then [.cancel] else []) (.fin 3)
      twoCompleting) = none ∧
    mutexRun false (Tween.updateTweensSync (fun f => if f = 8 then [.start true] else [])
      (.fin 3) twoCompleting) = some false ∧
    mutexRun false (Tween.updateTweensSync (fun f => if f = 8 then [.cancel] else [])
      (.fin (1 / 2)) twoCompleting) = some false :=
  ⟨(C18_completion_listeners_run_under_lock (fun f => if f = 8 then [.cancel] else []) (.fin 3)
      twoCompleting).2 0 ⟨0, 8⟩ .cancel (by decide!) (by decide!) (by decide!) (by decide!)
      (by decide),
   by decide!, by decide!⟩

/-! ## C19: the progress of a repeating state -/

/-- C19 (the code departs from the claim). For a repeating state with one binding whose
progress `q` on a tick exceeds 1, `step` subtracts 1 once and passes `r = (float)(q - 1.0)` to
the easing function: `r` lies in `[0, 1]` when no more than two durations have elapsed
(`q <= 2`), and `r >= n` when `n + 1` or more durations have elapsed (`q >= n + 1`, for `n` up
to `2^24`). -/
theorem C19_repeat_subtracts_once (I : TweenImpl) (att : TweenAttr) (w : World) (q : ℚ)
    (hargs : I.args = [att]) (hrep : I.do_rep = true)
    (hp : progress w.currentTime I.startTime att.delay I.totalTime = .fin q) (hq : 1 < q) :
    ∃ r : ℚ, Dbl.toFloat (Dbl.sub (.fin q) (.fin 1)) = .fin r ∧
      (I.step w).2 = att.set (I.tween_func (.fin r)) none w ∧
      (I.step w).1 = true ∧
      (q ≤ 2 → 0 ≤ r ∧ r ≤ 1) ∧
      (∀ n : ℕ, n ≤ 16777216 → (n : ℚ) + 1 ≤ q → (n : ℚ) ≤ r) := by
  refine ⟨roundTo 24 (roundTo 53 (q - 1)), rfl, ?_, ?_, ?_, ?_⟩
  · unfold TweenImpl.step
    simp only [hargs, List.foldl_cons, List.foldl_nil]
    unfold stepAttr
    simp only [hp, Dbl.lt, decide_eq_true_eq, not_lt.mpr (by linarith : (0 : ℚ) ≤ q), hq, hrep,
      ↓reduceIte]
    rfl
  · exact step_repeating I w hrep (by rw [hargs]; simp)
  · intro h2
    have e1 : roundTo 53 (1 : ℚ) = 1 := by
      have := roundTo_intCast 53 1 (by norm_num)
      simpa using this
    have e2 : roundTo 24 (1 : ℚ) = 1 := by
      have := roundTo_intCast 24 1 (by norm_num)
      simpa using this
    have a1 : 0 ≤ roundTo 53 (q - 1) := roundTo_nonneg 53 (by norm_num) (by linarith)
    have a2 : roundTo 53 (q - 1) ≤ 1 := by
      have := roundTo_mono 53 (by norm_num) (by linarith : q - 1 ≤ 1)
      rwa [e1] at this
    refine ⟨roundTo_nonneg 24 (by norm_num) a1, ?_⟩
    have := roundTo_mono 24 (by norm_num) a2
    rwa [e2] at this
  · intro n hn hnq
    have hrep53 : roundTo 53 ((n : ℤ) : ℚ) = ((n : ℤ) : ℚ) :=
      roundTo_intCast 53 n (by
        rw [abs_of_nonneg (by positivity)]
        have : (n : ℤ) ≤ 16777216 := by exact_mod_cast hn
        have : (16777216 : ℤ) < 2 ^ 53 := by norm_num
        omega)
    have hrep24 : roundTo 24 ((n : ℤ) : ℚ) = ((n : ℤ) : ℚ) := by
      rcases Nat.lt_or_ge n 16777216 with hlt | hge
      · exact roundTo_intCast 24 n (by
          rw [abs_of_nonneg (by positivity)]
          have : (n : ℤ) < 16777216 := by exact_mod_cast hlt
          have : (16777216 : ℤ) = 2 ^ 24 := by norm_num
          omega)
      · have hn16 : n = 16777216 := le_antisymm hn hge
        subst hn16
        exact roundTo_exact 24 ⟨1, 24, by norm_num, by norm_num⟩
    have b1 : ((n : ℤ) : ℚ) ≤ roundTo 53 (q - 1) := by
      have := roundTo_mono 53 (by norm_num) (by push_cast; linarith : ((n : ℤ) : ℚ) ≤ q - 1)
      rwa [hrep53] at this
    have b2 := roundTo_mono 24 (by norm_num) b1
    rw [hrep24] at b2
    exact_mod_cast b2

/-- C19, on the repeating state of `repeatLinear` (duration 1, started at clock 0) at clock 3:
the progress is 3, the easing function receives 2, and the tick leaves the target `0 -> 10` at
20 and hands the listener the shaped progress 2. -/
theorem C19_repeat_subtracts_once_witness :
    (∃ r : ℚ, Dbl.toFloat (Dbl.sub (.fin 3) (.fin 1)) = .fin r ∧ (2 : ℚ) ≤ r) ∧
    (Tween.updateTweens (.fin 3) repeatLinear).2.heap 0 = 20 ∧
    (Tween.updateTweens (.fin 3) repeatLinear).2.log =
      [Dispatch.update 0 [⟨4, [Arg.val 20, Arg.tween none, Arg.num (.fin 2)]⟩]] ∧
    (Tween.updateTweens (.fin 3) repeatLinear).2.allTweens = [0] := by
  obtain ⟨r, h1, _, _, _, h5⟩ := C19_repeat_subtracts_once (repeatLinear.impl 0)
    { startValue := 0, delta := 10, maxValue := INT_MAX, target := 0,
      on_update_cb := ⟨[⟨3, 4⟩]⟩, delay := .fin 0 }
    { repeatLinear with currentTime := .fin 3 } 3 (by decide!) (by decide!) (by decide!)
    (by norm_num)
  exact ⟨⟨r, h1, by simpa using h5 2 (by norm_num) (by norm_num)⟩, by decide!, by decide!,
    by decide!⟩

/-! ## C20: the modulus of `set` -/

/-- C20 (the code departs from the claim). For an `int` target holding `s` and an `int` end value
`v`, the binding that `to(target, v, cycles)` constructs has `maxValue = 0` exactly when
`cycles != 1` and `v - s` is `-1` (or `2^32 - 1`, which wraps to `-1`); `fmod` in `set` is then a
NaN for every shaped progress, and `to` attaches this binding to the state of the handle. -/
theorem C20_zero_modulus (w : World) (h : ImplId) (x : Addr) (v c : ℤ)
    (hs1 : -2147483648 ≤ w.heap x) (hs2 : w.heap x ≤ 2147483647)
    (hv1 : -2147483648 ≤ v) (hv2 : v ≤ 2147483647) :
    ((TweenAttr.new w.heap x v c).maxValue = 0 ↔
      c ≠ 1 ∧ (v = w.heap x - 1 ∨ v - w.heap x = 4294967295)) ∧
    ((TweenAttr.new w.heap x v c).maxValue = 0 → ∀ p : Dbl,
      Dbl.fmod (Dbl.mul p (Dbl.ofInt (TweenAttr.new w.heap x v c).delta))
        (Dbl.ofInt (TweenAttr.new w.heap x v c).maxValue) = .nan) ∧
    ((Tween.to h x v c w).impl h).args.getLast? = some (TweenAttr.new w.heap x v c) := by
  refine ⟨?_, ?_, ?_⟩
  · unfold TweenAttr.new
    by_cases hc : c = 1
    · simp [hc, INT_MAX]
    · simp only [ne_eq, hc, not_false_eq_true, ↓reduceIte, true_and]
      unfold wrapInt
      omega
  · intro hz p
    rw [hz]
    cases hm : Dbl.mul p (Dbl.ofInt (TweenAttr.new w.heap x v c).delta) <;>
      simp [Dbl.fmod, Dbl.ofInt]
  · rw [to_args, wrapInt_of_range v hv1 hv2]
    simp

/-- C20, on a variable holding 0 bound with `to(x, -1, 2)`: the binding has `maxValue = 0`. -/
theorem C20_zero_modulus_witness :
    (TweenAttr.new zeroHeap 0 (-1) 2).maxValue = 0 ∧
    ((zeroModulus.impl 0).args.map (fun a => (a.startValue, a.delta, a.maxValue))
      = [(0, -1, 0)]) ∧
    Dbl.fmod (Dbl.mul (.fin (1 / 2)) (Dbl.ofInt (-1))) (Dbl.ofInt 0) = .nan ∧
    (Tween.updateTweens (.fin 1) zeroModulus).2.heap 0 = -2147483648 :=
  ⟨((C20_zero_modulus (World.init zeroHeap) 0 0 (-1) 2 (by decide!) (by decide!) (by decide)
      (by decide)).1).mpr ⟨by decide, Or.inl (by decide!)⟩,
   by decide!, by decide!, by decide!⟩

end tween
